import Mathlib

/-!
# m2s: markdown to slides

A shallow embedding of `m2s.go` (document → deck transformation) and
theorems about it.

Go strings are modelled as lists of Unicode code points (`List Char`); the
program's input is UTF-8 text, and every library routine used by the program
(`strings.TrimSpace`, `strings.ToLower`, the `regexp` package) works rune by
rune on such text.  The markdown engine (`markdown.ToHTML`, a function of the
text and of the state of the renderer that the program reuses for every
conversion) and the non-ASCII part of the Unicode lower-casing table are
parameters.
-/

namespace M2S

/-- Go `string`, as the sequence of its runes. -/
abbrev Str := List Char

/-! ## Library routines of the Go standard library -/

/-- Go `unicode.IsSpace`: the Latin-1 cases spelled out in the library
(`'\t' '\n' '\v' '\f' '\r' ' '`, U+0085, U+00A0) and the `White_Space` table
outside Latin-1. -/
def isSpace (c : Char) : Bool :=
  let n := c.toNat
  n == 0x09 || n == 0x0A || n == 0x0B || n == 0x0C || n == 0x0D || n == 0x20 ||
  n == 0x85 || n == 0xA0 || n == 0x1680 || (0x2000 ≤ n && n ≤ 0x200A) ||
  n == 0x2028 || n == 0x2029 || n == 0x202F || n == 0x205F || n == 0x3000

/-- Go `strings.TrimSpace`: drop leading and trailing `unicode.IsSpace` runes. -/
def TrimSpace (s : Str) : Str :=
  ((s.dropWhile isSpace).reverse.dropWhile isSpace).reverse

/-- Go `strings.ReplaceAll(s, "\r\n", "\n")`. -/
def ReplaceAllCRLF : Str → Str
  | [] => []
  | [c] => [c]
  | c :: d :: rest =>
    if c = '\r' ∧ d = '\n' then '\n' :: ReplaceAllCRLF rest
    else c :: ReplaceAllCRLF (d :: rest)

/-- Prepend a rune to the first piece of a non-empty list of pieces. -/
def consHead (c : Char) : List Str → List Str
  | [] => [[c]]
  | p :: ps => (c :: p) :: ps

/-- Go `strings.Split(s, "\n")`: always at least one piece. -/
def SplitNL : Str → List Str
  | [] => [[]]
  | c :: cs => if c = '\n' then [] :: SplitNL cs else consHead c (SplitNL cs)

/-- Go `strings.Join(xs, "\n")`. -/
def JoinNL : List Str → Str
  | [] => []
  | [x] => x
  | x :: y :: rest => x ++ '\n' :: JoinNL (y :: rest)

/-- Go `strings.Join(xs, sep)`. -/
def Join (sep : Str) : List Str → Str
  | [] => []
  | [x] => x
  | x :: y :: rest => x ++ sep ++ Join sep (y :: rest)

/-- Go `strings.HasPrefix(s, "#")`. -/
def HasPrefixHash : Str → Bool
  | c :: _ => c == '#'
  | [] => false

/-- Go `strings.TrimLeft(s, "# ")`: drop leading runes that are in the cutset. -/
def TrimLeftHashSpace (s : Str) : Str :=
  s.dropWhile (fun c => c == '#' || c == ' ')

/-- Go `strings.ToLower` on one rune: `unicode.ToLower` handles ASCII inline
(`'A'..'Z'` shifted by 32, other ASCII unchanged) and looks every other rune
up in the Unicode case tables, here the parameter `tbl`. -/
def toLowerRune (tbl : Char → Char) (c : Char) : Char :=
  if c.toNat < 128 then
    (if 65 ≤ c.toNat ∧ c.toNat ≤ 90 then Char.ofNat (c.toNat + 32) else c)
  else tbl c

/-- Go `strings.ToLower`. -/
def ToLower (tbl : Char → Char) (s : Str) : Str := s.map (toLowerRune tbl)

/-- Go `strings.EqualFold(s, key)` for a key made of ASCII runes other than
`k`, `s`, `K`, `S` (the only ASCII letters whose simple-folding orbit leaves
ASCII): equal length and rune-wise equal up to ASCII case. -/
def EqualFold : Str → Str → Bool
  | [], [] => true
  | c :: cs, d :: ds => toLowerRune id c == toLowerRune id d && EqualFold cs ds
  | _, _ => false

/-- Go `strings.Trim(s, "-")`. -/
def TrimDash (s : Str) : Str :=
  ((s.dropWhile (fun c => c == '-')).reverse.dropWhile (fun c => c == '-')).reverse

/-- Go `strconv.Itoa` on a non-negative integer. -/
def Itoa (n : Nat) : Str := (Nat.toDigits 10 n)

/-! ## Regular expressions

Go's `regexp` is leftmost-first: among the matches starting at the leftmost
possible position it returns the one a backtracking search finds first.  The
three patterns of the program are written with the combinators below, each of
which is the backtracking matcher of one regex construct followed by a
continuation `k` for the rest of the pattern; a matcher returns `none` when the
pattern does not match at the start of the given text. -/

/-- Perl class `\s` of Go's RE2 syntax: `[\t\n\f\r ]`. -/
def reSpace (c : Char) : Bool :=
  c.toNat == 0x09 || c.toNat == 0x0A || c.toNat == 0x0C || c.toNat == 0x0D || c.toNat == 0x20

/-- Greedy `\s*`: prefer consuming one more `\s` rune, back off when the rest
of the pattern then fails. -/
def reSpaceStar {α : Type} (k : Str → Option α) : Str → Option α
  | [] => k []
  | c :: cs =>
    if reSpace c then
      match reSpaceStar k cs with
      | some r => some r
      | none => k (c :: cs)
    else k (c :: cs)

/-- A literal string. -/
def reLit {α : Type} : Str → (Str → Option α) → Str → Option α
  | [], k, s => k s
  | _ :: _, _, [] => none
  | l :: ls, k, c :: cs => if c = l then reLit ls k cs else none

/-- Lazy capture group `(.*?)` under flag `s` (the dot matches every rune):
prefer the shortest capture, extend by one rune when the rest of the pattern
fails.  Returns the captured text and what the continuation returns. -/
def reLazyAny {α : Type} (k : Str → Option α) : Str → Option (Str × α)
  | [] => (k []).map (fun r => ([], r))
  | c :: cs =>
    match k (c :: cs) with
    | some r => some ([], r)
    | none => (reLazyAny k cs).map (fun p => (c :: p.1, p.2))

/-- Greedy `\n?`. -/
def reOptNL {α : Type} (k : Str → Option α) : Str → Option α
  | [] => k []
  | c :: cs =>
    if c = '\n' then
      match k cs with
      | some r => some r
      | none => k (c :: cs)
    else k (c :: cs)

/-- `$` under flag `m`: at the end of the text or before a `\n`. -/
def reEndLine {α : Type} (k : Str → Option α) : Str → Option α
  | [] => k []
  | c :: cs => if c = '\n' then k (c :: cs) else none

/-- `frontMatter.FindStringSubmatch(s)` for
`frontMatter = (?s)^---\s*\n(.*?)\n---\s*\n?`: `none` when there is no match
(Go returns nil, so `len(m) == 2` fails), otherwise `(m[1], s[len(m[0]):])`.
The pattern is anchored at the start of the text by `^` (no flag `m`). -/
def frontMatter (s : Str) : Option (Str × Str) :=
  reLit ['-', '-', '-'] (reSpaceStar (reLit ['\n']
    (reLazyAny (reLit ['\n', '-', '-', '-'] (reSpaceStar (reOptNL some)))))) s

/-- The part `\s*---\s*$` of `sectionSplit = (?m)^\s*---\s*$` matched at the
start of the given text; returns the text left after the match. -/
def sectionSplitAt (s : Str) : Option Str :=
  reSpaceStar (reLit ['-', '-', '-'] (reSpaceStar (reEndLine some))) s

/-- The loop of `sectionSplit.Split(s, -1)`, rune by rune.  `bol` says that
the current position is at the start of the text or follows a `\n` (where `^`
under flag `m` holds), `skip` is the number of runes of the current match still
to be passed over.  `FindAllStringIndex` takes the leftmost match from the
current position and resumes at its end (every match holds `---`, so none is
empty); `Split` returns the text before the first match, between consecutive
matches, and after the last one. -/
def splitScan : Bool → Nat → Str → List Str
  | _, _, [] => [[]]
  | _, skip + 1, c :: cs => splitScan (c == '\n') skip cs
  | bol, 0, c :: cs =>
    match (if bol then sectionSplitAt (c :: cs) else none) with
    | some rest => [] :: splitScan (c == '\n') (cs.length - rest.length) cs
    | none => consHead c (splitScan (c == '\n') 0 cs)

/-- `sectionSplit.Split(s, -1)`. -/
def sectionSplit (s : Str) : List Str := splitScan true 0 s

/-! ## The program -/

/-- Go `type Slide struct { T string; C string }`. -/
structure Slide where
  T : Str
  C : Str
deriving DecidableEq, Repr

/-- Go `type Deck struct { T string; A string; S []Slide }`. -/
structure Deck where
  T : Str
  A : Str
  S : List Slide
deriving DecidableEq, Repr

/-- Go `split`: the non-empty trimmed parts of `sectionSplit.Split(s, -1)`. -/
def split (s : Str) : List Str :=
  (sectionSplit s).foldl
    (fun slides part =>
      let trimmed := TrimSpace part
      if trimmed ≠ [] then slides ++ [trimmed] else slides)
    []

/-- One round of the loop of Go `meta` on a line. -/
def metaLine (st : Str × Str) (line : Str) : Str × Str :=
  let line := TrimSpace line
  let title := if EqualFold (line.take 6) "title:".toList then TrimSpace (line.drop 6) else st.1
  let author := if EqualFold (line.take 7) "author:".toList then TrimSpace (line.drop 7) else st.2
  (title, author)

/-- Go `meta`.  The guards `len(line) >= 6 && strings.EqualFold(line[:6], "title:")`
slice bytes; the six bytes fold to the ASCII key exactly when the first six
runes of the line exist and do, which is what `EqualFold (line.take 6)` tests. -/
def «meta» (s : Str) : Str × Str :=
  (SplitNL s).foldl metaLine ([], [])

/-- Go `md`.  `toHTML` is `markdown.ToHTML` with a fresh parser and the
package-level `mdRenderer`: the renderer is created once and handed to every
call, so a conversion takes the renderer's state `r` and returns the HTML
together with the renderer's state after the call.  On blank text the renderer
is not called and its state is unchanged. -/
def md {R : Type} (toHTML : R → Str → Str × R) (r : R) (s : Str) : Str × R :=
  let trimmed := TrimSpace s
  if trimmed = [] then ([], r) else toHTML r trimmed

/-- The class `[a-z0-9]`. -/
def isWord (c : Char) : Bool :=
  (97 ≤ c.toNat && c.toNat ≤ 122) || (48 ≤ c.toNat && c.toNat ≤ 57)

/-- The replacement `nonWord.ReplaceAllString(low, "-")` for
`nonWord = [^a-z0-9]+`: every maximal run of runes outside `[a-z0-9]` becomes
one `-`.  `inRun` says that the previous rune belonged to such a run. -/
def nonWordReplace : Bool → Str → Str
  | _, [] => []
  | inRun, c :: cs =>
    if isWord c then c :: nonWordReplace false cs
    else if inRun then nonWordReplace true cs
    else '-' :: nonWordReplace true cs

/-- Go `slug`. -/
def slug (tbl : Char → Char) (s : Str) : Str :=
  let low := ToLower tbl s
  let low := nonWordReplace false low
  TrimDash low

/-- The body of the loop of Go `parse` for one non-empty chunk: the slide that
is appended to `deck.S`, and the renderer's state after the conversions made
for it (the body, then the title when the body came out blank).
`strings.Split` never returns an empty slice, so the guard `len(lines) > 0`
always holds. -/
def buildSlide {R : Type} (toHTML : R → Str → Str × R) (r : R) (chunk : Str) : Slide × R :=
  let lines := SplitNL chunk
  let head := TrimSpace (lines.headD [])
  let rest := lines.tail
  let title := head
  let contentLines := rest
  let tc : Str × List Str :=
    if HasPrefixHash head then (TrimSpace (TrimLeftHashSpace head), contentLines)
    else if title ≠ [] then (title, lines)
    else (title, contentLines)
  let bodyHTML := md toHTML r (JoinNL tc.2)
  let bodyHTML := if TrimSpace bodyHTML.1 = [] then md toHTML bodyHTML.2 tc.1 else bodyHTML
  ({ T := tc.1, C := bodyHTML.1 }, bodyHTML.2)

/-- One round of the loop of Go `parse`, on the deck and the renderer's state. -/
def parseStep {R : Type} (toHTML : R → Str → Str × R) (st : Deck × R) (chunk : Str) :
    Deck × R :=
  if chunk = [] then st
  else
    let built := buildSlide toHTML st.2 chunk
    ({ st.1 with S := st.1.S ++ [built.1] }, built.2)

/-- Go `parse`, started with the renderer in state `r`: the deck, and the
renderer's state when `parse` returns. -/
def parse {R : Type} (toHTML : R → Str → Str × R) (r : R) (s : Str) : Deck × R :=
  let s := ReplaceAllCRLF s
  let s := TrimSpace s
  let start : Deck × Str :=
    match frontMatter s with
    | some (m1, after) => ({ T := («meta» m1).1, A := («meta» m1).2, S := [] }, TrimSpace after)
    | none => ({ T := [], A := [], S := [] }, s)
  let run := (split start.2).foldl (parseStep toHTML) (start.1, r)
  let deck := run.1
  (if deck.T = [] ∧ deck.S.length > 0 then { deck with T := (deck.S.headD ⟨[], []⟩).T } else deck,
   run.2)

/-- One entry of `data.Slides` in Go `render`. -/
structure PageSlide where
  Title : Str
  Body : Str
  ID : Str
  Current : Bool
deriving DecidableEq, Repr

/-- The loop of Go `render` from position `i` on. -/
def renderSlides (tbl : Char → Char) : Nat → List Slide → List PageSlide
  | _, [] => []
  | i, s :: rest =>
    let id := slug tbl s.T
    let id := if id = [] then "slide-".toList ++ Itoa (i + 1) else id
    { Title := s.T, Body := s.C, ID := id, Current := i == 0 } :: renderSlides tbl (i + 1) rest

/-- The value `data` that Go `render` hands to the page template (the four
embedded style and script assets are constants of the build and left out). -/
structure PageData where
  Title : Str
  Author : Str
  Slides : List PageSlide
deriving DecidableEq, Repr

/-- The page data built by Go `render`. -/
def renderData (tbl : Char → Char) (d : Deck) : PageData :=
  { Title := d.T, Author := d.A, Slides := renderSlides tbl 0 d.S }

/-- Go `render`; `exec` is the execution of the parsed page template on the
page data. -/
def render (tbl : Char → Char) (exec : PageData → Str) (d : Deck) : Str :=
  exec (renderData tbl d)

/-! ## Notions used in the statements -/

/-- A text that neither starts nor ends with a space rune. -/
def Trimmed (c : Str) : Prop :=
  (∀ x, c.head? = some x → isSpace x = false) ∧ (∀ x, c.getLast? = some x → isSpace x = false)

/-- The text that `parse` works on: line ends normalised, then trimmed. -/
def docText (D : Str) : Str := TrimSpace (ReplaceAllCRLF D)

/-- The body text that `parse` hands to `split`. -/
def docBody (D : Str) : Str :=
  match frontMatter (docText D) with
  | some (_, after) => TrimSpace after
  | none => docText D

/-- The slides that the loop of `parse` builds from a list of non-empty
chunks, and the renderer's state after the last of them. -/
def buildSlides {R : Type} (toHTML : R → Str → Str × R) : R → List Str → List Slide × R
  | r, [] => ([], r)
  | r, chunk :: chunks =>
    ((buildSlide toHTML r chunk).1 :: (buildSlides toHTML (buildSlide toHTML r chunk).2 chunks).1,
     (buildSlides toHTML (buildSlide toHTML r chunk).2 chunks).2)

/-- A converter with state, for the examples: the state counts the conversions
made so far; the first conversion returns the text as it is, every later one
puts a newline in front of it. -/
def sampleHTML (n : Nat) (t : Str) : Str × Nat :=
  (if n = 0 then t else '\n' :: t, n + 1)

/-- The language of `(-[a-z0-9]+)*`. -/
inductive SlugTail : Str → Prop
  | nil : SlugTail []
  | cons (w t : Str) : w ≠ [] → (∀ c ∈ w, isWord c = true) → SlugTail t →
      SlugTail ('-' :: (w ++ t))

/-- The language of `^[a-z0-9]+(-[a-z0-9]+)*$`. -/
def SlugRe (l : Str) : Prop :=
  ∃ w t, w ≠ [] ∧ (∀ c ∈ w, isWord c = true) ∧ SlugTail t ∧ l = w ++ t

/-- No two neighbouring runes are both `-`. -/
def NoDashPair (l : Str) : Prop := List.Chain' (fun a b => ¬(a = '-' ∧ b = '-')) l

/-- The trimmed first line of a chunk (`head` in `parse`). -/
def chunkHead (chunk : Str) : Str := TrimSpace ((SplitNL chunk).headD [])

/-- The lines of a chunk after the first (`rest` in `parse`). -/
def chunkRest (chunk : Str) : List Str := (SplitNL chunk).tail

/-- The title and the content lines that `parse` picks for a chunk (`title`
and `contentLines` after the case distinction on the first line). -/
def slideParts (chunk : Str) : Str × List Str :=
  if HasPrefixHash (chunkHead chunk) = true then
    (TrimSpace (TrimLeftHashSpace (chunkHead chunk)), chunkRest chunk)
  else if chunkHead chunk ≠ [] then (chunkHead chunk, SplitNL chunk)
  else (chunkHead chunk, chunkRest chunk)

/-- The text starts with `\s*$` (as far as `$` under flag `m`). -/
def EndsLine (r : Str) : Prop :=
  ∃ w t, r = w ++ t ∧ (∀ c ∈ w, reSpace c = true) ∧ (t = [] ∨ t.head? = some '\n')

/-- The text starts with a match of `\s*---\s*$`. -/
def DelimAt (s : Str) : Prop :=
  ∃ w r, s = w ++ '-' :: '-' :: '-' :: r ∧ (∀ c ∈ w, reSpace c = true) ∧ EndsLine r

/-- The rest of the pattern after the first `\s*`. -/
def kDash : Str → Option Str := reLit ['-', '-', '-'] (reSpaceStar (reEndLine some))

/-- The rest of the pattern after `---`. -/
def kEnd : Str → Option Str := reSpaceStar (reEndLine some)

/-- The pieces occur in the text one after the other, without overlap, in the
order of the list. -/
inductive InOrder : List Str → Str → Prop
  | nil (s : Str) : InOrder [] s
  | cons (pre c post : Str) (cs : List Str) : InOrder cs post →
      InOrder (c :: cs) (pre ++ c ++ post)

/-- The position after the prefix `a` of a piece is at the start of a line;
`sb` says whether the piece itself starts at the start of a line. -/
def BolAfter (sb : Bool) (a : Str) : Prop := (a = [] ∧ sb = true) ∨ a.getLast? = some '\n'

/-- What the scan guarantees about a piece `P` followed by the text `after`:
the pattern matches at no line start inside the piece, and when text follows
(a match) the piece ends at a line start. -/
def Good (sb : Bool) (P after : Str) : Prop :=
  (∀ a b, P = a ++ b → b ≠ [] → BolAfter sb a → sectionSplitAt (b ++ after) = none) ∧
  (after ≠ [] → BolAfter sb P)

/-- A piece starts at a line start, or right after a match (before a newline or
at the end of the text). -/
def Start (sb : Bool) (P after : Str) : Prop :=
  sb = true ∨ P ++ after = [] ∨ (P ++ after).head? = some '\n'

/-- A piece as the scan of the text `s` produces it: it lies in the text
between `before` and `after`, the pattern matches at no line start inside it,
and it starts at a line start of the text or right after a match. -/
def PartIn (s P : Str) : Prop :=
  ∃ sb before after, s = before ++ P ++ after ∧ Good sb P after ∧ Start sb P after ∧
    (sb = true → before = [] ∨ before.getLast? = some '\n')

/-- A line that the delimiter pattern matches as a whole: `---` with nothing
but runes of the regex class `\s` before and after it. -/
def delimLine (l : Str) : Bool :=
  (l.dropWhile reSpace).take 3 == ['-', '-', '-'] && ((l.dropWhile reSpace).drop 3).all reSpace

/-- A chunk inside which the delimiter pattern matches at no line start,
whatever line end or end of text follows the chunk. -/
def Solid (c : Str) : Prop :=
  ∀ a b tail, c = a ++ b → b ≠ [] → (a = [] ∨ a.getLast? = some '\n') →
    (tail = [] ∨ tail.head? = some '\n') → sectionSplitAt (b ++ tail) = none

/-- The value of a string of decimal digits. -/
def digitsVal (l : Str) : Nat := l.foldl (fun a c => 10 * a + (c.toNat - 48)) 0

/-- The part `\s*\n?` that ends the front-matter pattern. -/
def kBlockEnd : Str → Option Str := reSpaceStar (reOptNL some)

/-- The part `\n---\s*\n?` of the front-matter pattern. -/
def kClose : Str → Option Str := reLit ['\n', '-', '-', '-'] kBlockEnd

/-- The part `(.*?)\n---\s*\n?` of the front-matter pattern. -/
def kBody : Str → Option (Str × Str) := reLazyAny kClose

/-- The part `\n(.*?)\n---\s*\n?` of the front-matter pattern. -/
def kOpen : Str → Option (Str × Str) := reLit ['\n'] kBody

/-! ## Facts about the library routines -/

theorem dropWhile_append_of_all {p : Char → Bool} {l r : Str} (h : ∀ c ∈ l, p c = true) :
    (l ++ r).dropWhile p = r.dropWhile p := by
  induction l with
  | nil => rfl
  | cons a l ih =>
    have ha : p a = true := h a (List.mem_cons_self _ _)
    simp only [List.cons_append, List.dropWhile_cons, ha, if_true]
    exact ih (fun c hc => h c (List.mem_cons_of_mem _ hc))

theorem rdropWhile_append_of_all {p : Char → Bool} {l t : Str} (h : ∀ c ∈ t, p c = true) :
    (l ++ t).rdropWhile p = l.rdropWhile p := by
  unfold List.rdropWhile
  rw [List.reverse_append, dropWhile_append_of_all]
  intro c hc
  exact h c (List.mem_reverse.mp hc)

theorem TrimSpace_eq (s : Str) : TrimSpace s = (s.dropWhile isSpace).rdropWhile isSpace := rfl

theorem dropWhile_self_of_head {p : Char → Bool} {c : Str}
    (h : ∀ x, c.head? = some x → p x = false) : c.dropWhile p = c := by
  cases c with
  | nil => rfl
  | cons a c =>
    have := h a rfl
    simp [List.dropWhile_cons, this]

theorem rdropWhile_self_of_last {p : Char → Bool} {c : Str}
    (h : ∀ x, c.getLast? = some x → p x = false) : c.rdropWhile p = c := by
  rw [List.rdropWhile_eq_self_iff]
  intro hl
  have := h (c.getLast hl) (List.getLast?_eq_getLast _ hl)
  simp [this]

theorem TrimSpace_of_decomp {s l c t : Str} (hs : s = l ++ c ++ t)
    (hl : ∀ x ∈ l, isSpace x = true) (ht : ∀ x ∈ t, isSpace x = true) (hc : Trimmed c) :
    TrimSpace s = c := by
  subst hs
  rw [TrimSpace_eq, List.append_assoc, dropWhile_append_of_all hl]
  cases c with
  | nil =>
    simp only [List.nil_append]
    have : t.dropWhile isSpace = [] := by
      rw [List.dropWhile_eq_nil_iff]; exact ht
    rw [this]; rfl
  | cons a c =>
    have ha : isSpace a = false := hc.1 a rfl
    rw [List.cons_append, List.dropWhile_cons, if_neg (by simp [ha]), ← List.cons_append,
      rdropWhile_append_of_all ht]
    exact rdropWhile_self_of_last hc.2

theorem TrimSpace_trimmed (s : Str) : Trimmed (TrimSpace s) := by
  constructor
  · intro x hx
    rw [TrimSpace_eq] at hx
    have hpre : (s.dropWhile isSpace).rdropWhile isSpace <+: s.dropWhile isSpace :=
      List.rdropWhile_prefix _ _
    obtain ⟨r, hr⟩ := hpre
    have h2 : (s.dropWhile isSpace).head? = some x := by
      rw [← hr]
      cases h : (s.dropWhile isSpace).rdropWhile isSpace with
      | nil => rw [h] at hx; simp at hx
      | cons a l => rw [h] at hx; simpa using hx
    have := List.head?_dropWhile_not isSpace s
    rw [h2] at this
    simpa using this
  · intro x hx
    rw [TrimSpace_eq] at hx
    by_cases hne : (s.dropWhile isSpace).rdropWhile isSpace = []
    · rw [hne] at hx; simp at hx
    · have := List.rdropWhile_last_not isSpace _ hne
      rw [List.getLast?_eq_getLast _ hne] at hx
      injection hx with hx
      rw [hx] at this
      simpa using this

theorem rdropWhile_append_rtakeWhile (p : Char → Bool) (l : Str) :
    l.rdropWhile p ++ l.rtakeWhile p = l := by
  unfold List.rdropWhile List.rtakeWhile
  rw [← List.reverse_append, List.takeWhile_append_dropWhile, List.reverse_reverse]

theorem TrimSpace_decomp (s : Str) :
    ∃ l t, s = l ++ TrimSpace s ++ t ∧ (∀ c ∈ l, isSpace c = true) ∧ (∀ c ∈ t, isSpace c = true) := by
  refine ⟨s.takeWhile isSpace, (s.dropWhile isSpace).rtakeWhile isSpace, ?_, ?_, ?_⟩
  · rw [TrimSpace_eq, List.append_assoc, rdropWhile_append_rtakeWhile,
      List.takeWhile_append_dropWhile]
  · intro c hc
    exact List.mem_takeWhile_imp hc
  · intro c hc
    exact List.mem_rtakeWhile_imp hc

theorem TrimSpace_of_trimmed {c : Str} (hc : Trimmed c) : TrimSpace c = c :=
  TrimSpace_of_decomp (l := []) (t := []) (by simp) (by simp) (by simp) hc

theorem TrimSpace_idem (s : Str) : TrimSpace (TrimSpace s) = TrimSpace s :=
  TrimSpace_of_trimmed (TrimSpace_trimmed s)

theorem TrimSpace_eq_nil_iff (s : Str) : TrimSpace s = [] ↔ ∀ c ∈ s, isSpace c = true := by
  constructor
  · intro h c hc
    obtain ⟨l, t, hs, hl, ht⟩ := TrimSpace_decomp s
    rw [h] at hs
    rw [hs] at hc
    simp at hc
    rcases hc with hc | hc
    · exact hl c hc
    · exact ht c hc
  · intro h
    exact TrimSpace_of_decomp (l := s) (c := []) (t := []) (by simp) h (by simp)
      ⟨by simp, by simp⟩

theorem TrimSpace_append_left {w s : Str} (hw : ∀ c ∈ w, isSpace c = true) :
    TrimSpace (w ++ s) = TrimSpace s := by
  rw [TrimSpace_eq, TrimSpace_eq, dropWhile_append_of_all hw]

/-! ## The loop of `parse` -/

theorem foldl_split_step (parts : List Str) (acc : List Str) :
    parts.foldl
      (fun slides part =>
        let trimmed := TrimSpace part
        if trimmed ≠ [] then slides ++ [trimmed] else slides) acc
      = acc ++ (parts.map TrimSpace).filter (fun t => decide (t ≠ [])) := by
  induction parts generalizing acc with
  | nil => simp
  | cons p ps ih =>
    simp only [List.foldl_cons, List.map_cons]
    rw [ih]
    by_cases h : TrimSpace p = []
    · simp [h]
    · simp [h, List.filter_cons]

theorem split_eq (s : Str) :
    split s = ((sectionSplit s).map TrimSpace).filter (fun t => decide (t ≠ [])) := by
  unfold split
  rw [foldl_split_step]
  simp

theorem split_ne_nil {s c : Str} (h : c ∈ split s) : c ≠ [] := by
  rw [split_eq, List.mem_filter] at h
  simpa using h.2

theorem foldl_parseStep {R : Type} (toHTML : R → Str → Str × R) (chunks : List Str)
    (d : Deck) (r : R) (h : ∀ c ∈ chunks, c ≠ []) :
    chunks.foldl (parseStep toHTML) (d, r) =
      ({ T := d.T, A := d.A, S := d.S ++ (buildSlides toHTML r chunks).1 },
       (buildSlides toHTML r chunks).2) := by
  induction chunks generalizing d r with
  | nil => simp [buildSlides]
  | cons c cs ih =>
    have hc : c ≠ [] := h c (List.mem_cons_self _ _)
    rw [List.foldl_cons]
    have hstep : parseStep toHTML (d, r) c =
        ({ T := d.T, A := d.A, S := d.S ++ [(buildSlide toHTML r c).1] },
         (buildSlide toHTML r c).2) := by
      simp [parseStep, hc]
    rw [hstep, ih _ _ (fun x hx => h x (List.mem_cons_of_mem _ hx))]
    simp [buildSlides]

/-- The deck of `parse` before the title fallback. -/
theorem parse_unfold {R : Type} (toHTML : R → Str → Str × R) (r : R) (D : Str) :
    parse toHTML r D =
      (let m : Str × Str :=
        match frontMatter (docText D) with
        | some (m1, _) => «meta» m1
        | none => ([], [])
       let S := (buildSlides toHTML r (split (docBody D))).1
       (if m.1 = [] ∧ S.length > 0 then { T := (S.headD ⟨[], []⟩).T, A := m.2, S := S }
        else { T := m.1, A := m.2, S := S },
        (buildSlides toHTML r (split (docBody D))).2)) := by
  unfold parse docBody docText
  cases hfm : frontMatter (TrimSpace (ReplaceAllCRLF D)) with
  | none =>
    simp only [hfm]
    rw [foldl_parseStep _ _ _ _ (fun c hc => split_ne_nil hc)]
    simp
  | some p =>
    obtain ⟨m1, after⟩ := p
    simp only [hfm]
    rw [foldl_parseStep _ _ _ _ (fun c hc => split_ne_nil hc)]
    simp

theorem parse_slides {R : Type} (toHTML : R → Str → Str × R) (r : R) (D : Str) :
    (parse toHTML r D).1.S = (buildSlides toHTML r (split (docBody D))).1 := by
  rw [parse_unfold]
  simp only []
  split <;> rfl

theorem parse_state {R : Type} (toHTML : R → Str → Str × R) (r : R) (D : Str) :
    (parse toHTML r D).2 = (buildSlides toHTML r (split (docBody D))).2 := by
  rw [parse_unfold]

theorem buildSlides_length {R : Type} (toHTML : R → Str → Str × R) (r : R)
    (chunks : List Str) : (buildSlides toHTML r chunks).1.length = chunks.length := by
  induction chunks generalizing r with
  | nil => rfl
  | cons c cs ih => simp [buildSlides, ih]

theorem buildSlides_append {R : Type} (toHTML : R → Str → Str × R) (r : R)
    (xs ys : List Str) :
    buildSlides toHTML r (xs ++ ys) =
      ((buildSlides toHTML r xs).1 ++ (buildSlides toHTML (buildSlides toHTML r xs).2 ys).1,
       (buildSlides toHTML (buildSlides toHTML r xs).2 ys).2) := by
  induction xs generalizing r with
  | nil => simp [buildSlides]
  | cons c cs ih => simp [buildSlides, ih]

/-- Slide `i` is built from chunk `i`, with the renderer in the state that the
chunks before it left. -/
theorem buildSlides_getElem? {R : Type} (toHTML : R → Str → Str × R) (r : R)
    (chunks : List Str) (i : Nat) (chunk : Str) (h : chunks[i]? = some chunk) :
    (buildSlides toHTML r chunks).1[i]? =
      some (buildSlide toHTML (buildSlides toHTML r (chunks.take i)).2 chunk).1 := by
  induction chunks generalizing r i with
  | nil => simp at h
  | cons c cs ih =>
    cases i with
    | zero =>
      simp only [List.getElem?_cons_zero, Option.some.injEq] at h
      simp [buildSlides, h]
    | succ j =>
      simp only [List.getElem?_cons_succ] at h
      simp only [buildSlides, List.getElem?_cons_succ, List.take_succ_cons]
      exact ih _ j h

/-! ## Front-matter metadata -/

theorem EqualFold_length {a b : Str} (h : EqualFold a b = true) : a.length = b.length := by
  induction a generalizing b with
  | nil => cases b with
    | nil => rfl
    | cons d ds => simp [EqualFold] at h
  | cons c cs ih => cases b with
    | nil => simp [EqualFold] at h
    | cons d ds =>
      simp only [EqualFold, Bool.and_eq_true] at h
      simp [ih h.2]

theorem foldl_metaLine_title (post : List Str) (st : Str × Str)
    (h : ∀ l ∈ post, EqualFold ((TrimSpace l).take 6) "title:".toList = false) :
    (post.foldl metaLine st).1 = st.1 := by
  induction post generalizing st with
  | nil => rfl
  | cons l ls ih =>
    rw [List.foldl_cons, ih _ (fun x hx => h x (List.mem_cons_of_mem _ hx))]
    have := h l (List.mem_cons_self _ _)
    simp only [metaLine, this, Bool.false_eq_true, if_false]

/-- The title returned by `meta` is the trimmed value of the last `title:` line. -/
theorem meta_title (block : Str) (pre post : List Str) (line key X : Str)
    (hlines : SplitNL block = pre ++ line :: post)
    (hline : TrimSpace line = key ++ X)
    (hkey : EqualFold key "title:".toList = true)
    (hlast : ∀ l ∈ post, EqualFold ((TrimSpace l).take 6) "title:".toList = false) :
    («meta» block).1 = TrimSpace X := by
  have hlen : key.length = 6 := by
    have := EqualFold_length hkey
    simpa using this
  unfold «meta»
  rw [hlines, List.foldl_append, List.foldl_cons, foldl_metaLine_title _ _ hlast]
  have h1 : (key ++ X).take 6 = key := by
    rw [List.take_append_of_le_length (by omega), List.take_of_length_le (by omega)]
  have h2 : (key ++ X).drop 6 = X := by
    rw [← hlen, List.drop_left]
  simp only [metaLine, hline, h1, h2, hkey, if_true]

/-- The title of the deck when the front-matter pattern does not match: the
title of the first slide, or empty when there is no slide. -/
theorem parse_title_of_no_match {R : Type} (toHTML : R → Str → Str × R) (r : R) (D : Str)
    (h : frontMatter (docText D) = none) :
    ((parse toHTML r D).1.S = [] → (parse toHTML r D).1.T = []) ∧
    (∀ s rest, (parse toHTML r D).1.S = s :: rest → (parse toHTML r D).1.T = s.T) := by
  rw [parse_unfold, h]
  simp only []
  cases hS : (buildSlides toHTML r (split (docBody D))).1 with
  | nil => simp
  | cons s rest => simp

/-- The title of the deck when the front-matter pattern matches and captures
`block`: the title that `meta` reads from the block when it is not empty, and
otherwise the title of the first slide, or empty when there is no slide. -/
theorem parse_title_of_match {R : Type} (toHTML : R → Str → Str × R) (r : R)
    (D block after : Str) (hfm : frontMatter (docText D) = some (block, after)) :
    ((«meta» block).1 ≠ [] → (parse toHTML r D).1.T = («meta» block).1) ∧
    ((«meta» block).1 = [] →
      ((parse toHTML r D).1.S = [] → (parse toHTML r D).1.T = []) ∧
      (∀ s rest, (parse toHTML r D).1.S = s :: rest → (parse toHTML r D).1.T = s.T)) := by
  rw [parse_unfold, hfm]
  simp only []
  constructor
  · intro hX
    simp [hX]
  · intro hX
    rw [hX]
    cases hS : (buildSlides toHTML r (split (docBody D))).1 with
    | nil => simp
    | cons s rest => simp

/-- C1 (code evaluated at the failing input): the document
`---\ntitle: T\nauthor: Bob\n----\n# Slide` has no line after the first that
contains only `---`, hence no front-matter block; all the same, for every
converter, `parse` takes the deck title `T` from its first lines, while the
title of its first and only slide is `-`.  The pattern `frontMatter` closes
the block at a line that merely begins with `---`. -/
theorem parse_title_unanchored_close {R : Type} (toHTML : R → Str → Str × R) (r : R) :
    (∀ l ∈ (SplitNL (docText "---\ntitle: T\nauthor: Bob\n----\n# Slide".toList)).tail,
      TrimSpace l ≠ "---".toList) ∧
    (parse toHTML r "---\ntitle: T\nauthor: Bob\n----\n# Slide".toList).1.T = "T".toList ∧
    (parse toHTML r "---\ntitle: T\nauthor: Bob\n----\n# Slide".toList).1.S.map Slide.T
      = ["-".toList] ∧
    (parse toHTML r "---\ntitle: T\nauthor: Bob\n----\n# Slide".toList).1.T
      ≠ ((parse toHTML r "---\ntitle: T\nauthor: Bob\n----\n# Slide".toList).1.S.headD
          ⟨[], []⟩).T := by
  have hfm : frontMatter (docText "---\ntitle: T\nauthor: Bob\n----\n# Slide".toList)
      = some ("title: T\nauthor: Bob".toList, "-\n# Slide".toList) := by decide
  have hsp : split (docBody "---\ntitle: T\nauthor: Bob\n----\n# Slide".toList)
      = ["-\n# Slide".toList] := by decide
  have hm : «meta» "title: T\nauthor: Bob".toList = ("T".toList, "Bob".toList) := by decide
  have hT : (parse toHTML r "---\ntitle: T\nauthor: Bob\n----\n# Slide".toList).1.T
      = "T".toList := by
    have := (parse_title_of_match toHTML r _ _ _ hfm).1
    rw [hm] at this
    exact this (by decide)
  have hS : (parse toHTML r "---\ntitle: T\nauthor: Bob\n----\n# Slide".toList).1.S
      = [(buildSlide toHTML r "-\n# Slide".toList).1] := by
    rw [parse_slides, hsp]
    rfl
  have ht : (buildSlide toHTML r "-\n# Slide".toList).1.T = "-".toList := rfl
  refine ⟨by decide, hT, ?_, ?_⟩
  · rw [hS]
    simp only [List.map_cons, List.map_nil, ht]
  · rw [hT, hS]
    simp only [List.headD_cons, ht]
    decide

/-- C3 (code evaluated at the failing inputs): a document whose would-be
closing line is `----` or `---abc` is still split into a front-matter block
and a body, for every converter: author and title come from the block and the
text after the three dashes becomes the body, from which the slides are
built. -/
theorem parse_front_matter_unanchored_close {R : Type} (toHTML : R → Str → Str × R)
    (r : R) :
    parse toHTML r "---\ntitle: T\nauthor: Bob\n----\n# Slide".toList
      = ({ T := "T".toList, A := "Bob".toList,
           S := [(buildSlide toHTML r "-\n# Slide".toList).1] },
         (buildSlide toHTML r "-\n# Slide".toList).2) ∧
    (buildSlide toHTML r "-\n# Slide".toList).1.T = "-".toList ∧
    parse toHTML r "---\nauthor: Bob\n---abc".toList
      = ({ T := "abc".toList, A := "Bob".toList,
           S := [(buildSlide toHTML r "abc".toList).1] },
         (buildSlide toHTML r "abc".toList).2) ∧
    (buildSlide toHTML r "abc".toList).1.T = "abc".toList ∧
    parse sampleHTML 0 "---\ntitle: T\nauthor: Bob\n----\n# Slide".toList
      = ({ T := "T".toList, A := "Bob".toList,
           S := [{ T := "-".toList, C := "-\n# Slide".toList }] }, 1) ∧
    parse sampleHTML 0 "---\nauthor: Bob\n---abc".toList
      = ({ T := "abc".toList, A := "Bob".toList,
           S := [{ T := "abc".toList, C := "abc".toList }] }, 1) := by
  have hfm1 : frontMatter (docText "---\ntitle: T\nauthor: Bob\n----\n# Slide".toList)
      = some ("title: T\nauthor: Bob".toList, "-\n# Slide".toList) := by decide
  have hsp1 : split (docBody "---\ntitle: T\nauthor: Bob\n----\n# Slide".toList)
      = ["-\n# Slide".toList] := by decide
  have hm1 : «meta» "title: T\nauthor: Bob".toList = ("T".toList, "Bob".toList) := by decide
  have hfm2 : frontMatter (docText "---\nauthor: Bob\n---abc".toList)
      = some ("author: Bob".toList, "abc".toList) := by decide
  have hsp2 : split (docBody "---\nauthor: Bob\n---abc".toList) = ["abc".toList] := by decide
  have hm2 : «meta» "author: Bob".toList = ([], "Bob".toList) := by decide
  have ht1 : (buildSlide toHTML r "-\n# Slide".toList).1.T = "-".toList := rfl
  have ht2 : (buildSlide toHTML r "abc".toList).1.T = "abc".toList := rfl
  refine ⟨?_, ht1, ?_, ht2, by decide, by decide⟩
  · rw [parse_unfold, hfm1, hsp1]
    simp only [hm1, buildSlides]
    simp
  · rw [parse_unfold, hfm2, hsp2]
    simp only [hm2, buildSlides]
    simp
    exact ht2

/-! ## Slugs -/

theorem isWord_dash : isWord '-' = false := by decide

theorem nonWordReplace_chars (b : Bool) (l : Str) :
    ∀ c ∈ nonWordReplace b l, isWord c = true ∨ c = '-' := by
  induction l generalizing b with
  | nil => simp [nonWordReplace]
  | cons a l ih =>
    intro c hc
    unfold nonWordReplace at hc
    by_cases ha : isWord a = true
    · rw [if_pos ha] at hc
      rcases List.mem_cons.mp hc with h | h
      · exact Or.inl (h ▸ ha)
      · exact ih _ c h
    · rw [if_neg ha] at hc
      cases b with
      | true => exact ih _ c (by simpa using hc)
      | false =>
        simp only [Bool.false_eq_true, if_false] at hc
        rcases List.mem_cons.mp hc with h | h
        · exact Or.inr h
        · exact ih _ c h

theorem nonWordReplace_chain (b : Bool) (l : Str) :
    NoDashPair (nonWordReplace b l) ∧
    (b = true → (nonWordReplace b l).head? ≠ some '-') := by
  induction l generalizing b with
  | nil => simp [nonWordReplace, NoDashPair]
  | cons a l ih =>
    unfold nonWordReplace
    by_cases ha : isWord a = true
    · rw [if_pos ha]
      have hne : a ≠ '-' := by
        intro h; rw [h, isWord_dash] at ha; exact Bool.noConfusion ha
      refine ⟨?_, fun _ => by simpa using hne⟩
      unfold NoDashPair
      rw [List.chain'_cons']
      exact ⟨fun y _ h => hne h.1, (ih false).1⟩
    · rw [if_neg ha]
      cases b with
      | true =>
        simp only [if_true]
        exact ⟨(ih true).1, fun _ => (ih true).2 rfl⟩
      | false =>
        simp only [Bool.false_eq_true, if_false]
        refine ⟨?_, fun h => h.elim⟩
        unfold NoDashPair
        rw [List.chain'_cons']
        exact ⟨fun y hy h => (ih true).2 rfl (h.2 ▸ hy), (ih true).1⟩

theorem TrimDash_eq (s : Str) :
    TrimDash s = (s.dropWhile (fun c => c == '-')).rdropWhile (fun c => c == '-') := rfl

theorem TrimDash_infix (s : Str) : TrimDash s <:+: s := by
  rw [TrimDash_eq]
  exact (List.rdropWhile_prefix _ _).isInfix.trans (List.dropWhile_suffix _).isInfix

theorem TrimDash_head (s : Str) : (TrimDash s).head? ≠ some '-' := by
  intro hx
  rw [TrimDash_eq] at hx
  obtain ⟨r, hr⟩ := List.rdropWhile_prefix (fun c => c == '-') (s.dropWhile (fun c => c == '-'))
  have h2 : (s.dropWhile (fun c => c == '-')).head? = some '-' := by
    rw [← hr]
    cases h : (s.dropWhile (fun c => c == '-')).rdropWhile (fun c => c == '-') with
    | nil => rw [h] at hx; simp at hx
    | cons a l => rw [h] at hx; simpa using hx
  have := List.head?_dropWhile_not (fun c => c == '-') s
  rw [h2] at this
  simp at this

theorem TrimDash_last (s : Str) : (TrimDash s).getLast? ≠ some '-' := by
  intro hx
  rw [TrimDash_eq] at hx
  by_cases hne : (s.dropWhile (fun c => c == '-')).rdropWhile (fun c => c == '-') = []
  · rw [hne] at hx; simp at hx
  · have := List.rdropWhile_last_not (fun c => c == '-') _ hne
    rw [List.getLast?_eq_getLast _ hne] at hx
    injection hx with hx
    rw [hx] at this
    simp at this

/-- A text over `[a-z0-9-]` without `--`, not ending in `-`: after a `-` (or
when empty) it is in `(-[a-z0-9]+)*`, after a word rune in the whole pattern. -/
theorem slugRe_of_shape (l : Str) (hc : ∀ c ∈ l, isWord c = true ∨ c = '-')
    (hp : NoDashPair l) (hl : l.getLast? ≠ some '-') :
    ((l = [] ∨ l.head? = some '-') → SlugTail l) ∧
    ((l ≠ [] ∧ l.head? ≠ some '-') → SlugRe l) := by
  induction l with
  | nil => exact ⟨fun _ => SlugTail.nil, fun h => absurd rfl h.1⟩
  | cons a l ih =>
    have hc' : ∀ c ∈ l, isWord c = true ∨ c = '-' := fun c h => hc c (List.mem_cons_of_mem _ h)
    have hp' : NoDashPair l := by
      unfold NoDashPair at hp ⊢
      exact (List.chain'_cons'.mp hp).2
    have hhead : ∀ y ∈ l.head?, ¬(a = '-' ∧ y = '-') := by
      unfold NoDashPair at hp
      exact (List.chain'_cons'.mp hp).1
    have hl' : l ≠ [] → l.getLast? ≠ some '-' := by
      intro hne h
      apply hl
      cases l with
      | nil => exact absurd rfl hne
      | cons b l => rw [List.getLast?_cons_cons]; exact h
    constructor
    · intro h
      have ha : a = '-' := by
        rcases h with h | h
        · exact absurd h (List.cons_ne_nil _ _)
        · simpa using h
      subst ha
      have hne : l ≠ [] := by
        intro h0; subst h0; exact hl rfl
      have hh : l.head? ≠ some '-' := fun h0 => hhead '-' (by simp [h0]) ⟨rfl, rfl⟩
      obtain ⟨w, t, hw, hww, ht, rfl⟩ := (ih hc' hp' (hl' hne)).2 ⟨hne, hh⟩
      exact SlugTail.cons w t hw hww ht
    · intro h
      have ha : isWord a = true := by
        rcases hc a (List.mem_cons_self _ _) with h1 | h1
        · exact h1
        · exact absurd (by simp [h1]) h.2
      by_cases hne : l = []
      · subst hne
        exact ⟨[a], [], by simp, by simpa using ha, SlugTail.nil, by simp⟩
      · by_cases hh : l.head? = some '-'
        · exact ⟨[a], l, by simp, by simpa using ha,
            (ih hc' hp' (hl' hne)).1 (Or.inr hh), by simp⟩
        · obtain ⟨w, t, hw, hww, ht, rfl⟩ := (ih hc' hp' (hl' hne)).2 ⟨hne, hh⟩
          refine ⟨a :: w, t, by simp, ?_, ht, by simp⟩
          intro c hcm
          rcases List.mem_cons.mp hcm with h1 | h1
          · exact h1 ▸ ha
          · exact hww c h1

/-- C7: for every input (and every Unicode lower-casing table), the slug is
empty or matches `^[a-z0-9]+(-[a-z0-9]+)*$`: its runes are in `a-z`, `0-9`
and `-`, it neither starts nor ends with `-`, and it has no two adjacent `-`;
and the slug of `Hello, World!` is `hello-world`. -/
theorem slug_matches_pattern (tbl : Char → Char) (s : Str) :
    (slug tbl s = [] ∨ SlugRe (slug tbl s)) ∧
    (∀ c ∈ slug tbl s, isWord c = true ∨ c = '-') ∧
    (slug tbl s).head? ≠ some '-' ∧
    (slug tbl s).getLast? ≠ some '-' ∧
    ¬ (['-', '-'] <:+: slug tbl s) ∧
    slug tbl "Hello, World!".toList = "hello-world".toList := by
  have hinf : slug tbl s <:+: nonWordReplace false (ToLower tbl s) := TrimDash_infix _
  have hchars : ∀ c ∈ slug tbl s, isWord c = true ∨ c = '-' :=
    fun c hc => nonWordReplace_chars _ _ c (hinf.subset hc)
  have hpair : NoDashPair (slug tbl s) :=
    List.Chain'.infix (nonWordReplace_chain false _).1 hinf
  have hhead : (slug tbl s).head? ≠ some '-' := TrimDash_head _
  have hlast : (slug tbl s).getLast? ≠ some '-' := TrimDash_last _
  refine ⟨?_, hchars, hhead, hlast, ?_, ?_⟩
  · by_cases hne : slug tbl s = []
    · exact Or.inl hne
    · exact Or.inr ((slugRe_of_shape _ hchars hpair hlast).2 ⟨hne, hhead⟩)
  · intro h
    have : NoDashPair ['-', '-'] := List.Chain'.infix hpair h
    unfold NoDashPair at this
    simp at this
  · rfl

/-! ## The slide builder -/

theorem SplitNL_ne_nil (s : Str) : SplitNL s ≠ [] := by
  cases s with
  | nil => simp [SplitNL]
  | cons c cs =>
    unfold SplitNL
    split
    · simp
    · cases SplitNL cs <;> simp [consHead]

theorem JoinNL_consHead (c : Char) (l : List Str) (h : l ≠ []) :
    JoinNL (consHead c l) = c :: JoinNL l := by
  cases l with
  | nil => exact absurd rfl h
  | cons p ps => cases ps <;> simp [consHead, JoinNL]

theorem JoinNL_SplitNL (s : Str) : JoinNL (SplitNL s) = s := by
  induction s with
  | nil => rfl
  | cons c cs ih =>
    unfold SplitNL
    split
    · next h =>
      cases hs : SplitNL cs with
      | nil => exact absurd hs (SplitNL_ne_nil cs)
      | cons p ps =>
        rw [hs] at ih
        simp [JoinNL, ih, h]
    · rw [JoinNL_consHead _ _ (SplitNL_ne_nil cs), ih]

theorem JoinNL_cons (x : Str) (l : List Str) (h : l ≠ []) :
    JoinNL (x :: l) = x ++ '\n' :: JoinNL l := by
  cases l with
  | nil => exact absurd rfl h
  | cons p ps => rfl

theorem isSpace_newline : isSpace '\n' = true := by decide

/-- When the first line of a chunk is blank, the chunk and its remaining lines
have the same trimmed text. -/
theorem TrimSpace_rest_of_blank_head (chunk : Str) (h : chunkHead chunk = []) :
    TrimSpace (JoinNL (chunkRest chunk)) = TrimSpace chunk := by
  unfold chunkHead at h
  unfold chunkRest
  cases hs : SplitNL chunk with
  | nil => exact absurd hs (SplitNL_ne_nil chunk)
  | cons l0 rest =>
    rw [hs] at h
    have hl0 : ∀ c ∈ l0, isSpace c = true := (TrimSpace_eq_nil_iff l0).mp (by simpa using h)
    have hj := JoinNL_SplitNL chunk
    rw [hs] at hj
    rw [← hj]
    simp only [List.tail_cons]
    cases rest with
    | nil =>
      simp only [JoinNL]
      rw [(TrimSpace_eq_nil_iff l0).mpr hl0]
      rfl
    | cons r rs =>
      rw [JoinNL_cons l0 (r :: rs) (by simp)]
      have : l0 ++ '\n' :: JoinNL (r :: rs) = (l0 ++ ['\n']) ++ JoinNL (r :: rs) := by simp
      rw [this, TrimSpace_append_left]
      intro c hc
      rcases List.mem_append.mp hc with h1 | h1
      · exact hl0 c h1
      · rw [List.mem_singleton.mp h1]; exact isSpace_newline

theorem md_congr {R : Type} (toHTML : R → Str → Str × R) (r : R) {a b : Str}
    (h : TrimSpace a = TrimSpace b) : md toHTML r a = md toHTML r b := by
  unfold md
  simp only [h]

theorem md_blank {R : Type} (toHTML : R → Str → Str × R) (r : R) {a : Str}
    (h : TrimSpace a = []) : md toHTML r a = ([], r) := by
  unfold md
  simp [h]

theorem buildSlide_eq {R : Type} (toHTML : R → Str → Str × R) (r : R) (chunk : Str) :
    buildSlide toHTML r chunk =
      ({ T := (slideParts chunk).1,
         C := (if TrimSpace (md toHTML r (JoinNL (slideParts chunk).2)).1 = [] then
                md toHTML (md toHTML r (JoinNL (slideParts chunk).2)).2 (slideParts chunk).1
               else md toHTML r (JoinNL (slideParts chunk).2)).1 },
       (if TrimSpace (md toHTML r (JoinNL (slideParts chunk).2)).1 = [] then
          md toHTML (md toHTML r (JoinNL (slideParts chunk).2)).2 (slideParts chunk).1
        else md toHTML r (JoinNL (slideParts chunk).2)).2) := rfl

theorem slideParts_of_hash {chunk : Str} (h : HasPrefixHash (chunkHead chunk) = true) :
    slideParts chunk = (TrimSpace (TrimLeftHashSpace (chunkHead chunk)), chunkRest chunk) := by
  unfold slideParts
  rw [if_pos h]

theorem slideParts_of_plain {chunk : Str} (h : HasPrefixHash (chunkHead chunk) = false)
    (hh : chunkHead chunk ≠ []) : slideParts chunk = (chunkHead chunk, SplitNL chunk) := by
  unfold slideParts
  rw [if_neg (by simp [h]), if_pos hh]

theorem slideParts_of_blank {chunk : Str} (h : HasPrefixHash (chunkHead chunk) = false)
    (hh : chunkHead chunk = []) : slideParts chunk = (chunkHead chunk, chunkRest chunk) := by
  unfold slideParts
  rw [if_neg (by simp [h]), if_neg (by simp [hh])]

/-- The title of a slide does not depend on the converter. -/
theorem buildSlide_title {R : Type} (toHTML : R → Str → Str × R) (r : R) (chunk : Str) :
    (buildSlide toHTML r chunk).1.T =
      (if HasPrefixHash (chunkHead chunk) = true then
          TrimSpace (TrimLeftHashSpace (chunkHead chunk))
       else chunkHead chunk) := by
  rw [buildSlide_eq]
  by_cases h : HasPrefixHash (chunkHead chunk) = true
  · rw [slideParts_of_hash h, if_pos h]
  · have h0 : HasPrefixHash (chunkHead chunk) = false := by simpa using h
    rw [if_neg h]
    by_cases hh : chunkHead chunk = []
    · rw [slideParts_of_blank h0 hh]
    · rw [slideParts_of_plain h0 hh]

theorem buildSlide_title_of_hash {R : Type} (toHTML : R → Str → Str × R) (r : R)
    (chunk : Str) (h : HasPrefixHash (chunkHead chunk) = true) :
    (buildSlide toHTML r chunk).1.T = TrimSpace (TrimLeftHashSpace (chunkHead chunk)) := by
  rw [buildSlide_title, if_pos h]

theorem buildSlide_title_of_plain {R : Type} (toHTML : R → Str → Str × R) (r : R)
    (chunk : Str) (h : HasPrefixHash (chunkHead chunk) = false) :
    (buildSlide toHTML r chunk).1.T = chunkHead chunk := by
  rw [buildSlide_title, if_neg (by simp [h])]

/-- The slide of a heading chunk whose remaining lines convert to text that is
not blank: one conversion, of the remaining lines. -/
theorem buildSlide_of_hash {R : Type} (toHTML : R → Str → Str × R) (r : R) (chunk : Str)
    (h : HasPrefixHash (chunkHead chunk) = true)
    (hb : TrimSpace (md toHTML r (JoinNL (chunkRest chunk))).1 ≠ []) :
    buildSlide toHTML r chunk =
      ({ T := TrimSpace (TrimLeftHashSpace (chunkHead chunk)),
         C := (md toHTML r (JoinNL (chunkRest chunk))).1 },
       (md toHTML r (JoinNL (chunkRest chunk))).2) := by
  rw [buildSlide_eq, slideParts_of_hash h]
  simp only [if_neg hb]

/-- The slide of a chunk without heading whose text converts to text that is
not blank: one conversion, of the whole chunk. -/
theorem buildSlide_of_plain {R : Type} (toHTML : R → Str → Str × R) (r : R) (chunk : Str)
    (h : HasPrefixHash (chunkHead chunk) = false)
    (hb : TrimSpace (md toHTML r chunk).1 ≠ []) :
    buildSlide toHTML r chunk =
      ({ T := chunkHead chunk, C := (md toHTML r chunk).1 }, (md toHTML r chunk).2) := by
  by_cases hh : chunkHead chunk = []
  · have hm : md toHTML r (JoinNL (chunkRest chunk)) = md toHTML r chunk :=
      md_congr toHTML r (TrimSpace_rest_of_blank_head chunk hh)
    rw [buildSlide_eq, slideParts_of_blank h hh]
    simp only [hm, if_neg hb, hh]
  · rw [buildSlide_eq, slideParts_of_plain h hh]
    simp only [JoinNL_SplitNL, if_neg hb]

/-- The slide of a chunk that holds a heading line and nothing else that is
not blank: one conversion, of the title. -/
theorem buildSlide_of_heading_only {R : Type} (toHTML : R → Str → Str × R) (r : R)
    (chunk : Str) (h : HasPrefixHash (chunkHead chunk) = true)
    (hrest : TrimSpace (JoinNL (chunkRest chunk)) = []) :
    buildSlide toHTML r chunk =
      ({ T := TrimSpace (TrimLeftHashSpace (chunkHead chunk)),
         C := (md toHTML r (TrimSpace (TrimLeftHashSpace (chunkHead chunk)))).1 },
       (md toHTML r (TrimSpace (TrimLeftHashSpace (chunkHead chunk)))).2) := by
  have hbody : md toHTML r (JoinNL (chunkRest chunk)) = ([], r) := md_blank toHTML r hrest
  have hb2 : TrimSpace ([] : Str) = [] := rfl
  rw [buildSlide_eq, slideParts_of_hash h]
  simp only [hbody, hb2, if_true]

theorem TrimSpace_sampleHTML (n : Nat) (t : Str) :
    TrimSpace (sampleHTML n t).1 = TrimSpace t := by
  unfold sampleHTML
  by_cases hn : n = 0
  · simp [hn]
  · simp only [hn, if_false]
    have : '\n' :: t = ['\n'] ++ t := rfl
    rw [this, TrimSpace_append_left]
    intro c hc
    rw [List.mem_singleton.mp hc]
    exact isSpace_newline

/-- C8: for every chunk whose trimmed first line starts with `#`, and whatever
state the renderer is in when the slide is built, the slide has as title that
line with its leading `#` and space runes removed and then trimmed, and the
body is the conversion of the remaining lines joined with newlines (the one
conversion made for the slide, which leaves the renderer in the state the
builder returns) whenever that conversion is not blank; the chunk is its first
line followed by those remaining lines.  A first line `## My Title` gives the
title `My Title`. -/
theorem heading_chunk_slide {R : Type} (toHTML : R → Str → Str × R) (r : R) (chunk : Str)
    (h : HasPrefixHash (chunkHead chunk) = true) :
    (buildSlide toHTML r chunk).1.T = TrimSpace (TrimLeftHashSpace (chunkHead chunk)) ∧
    (TrimSpace (md toHTML r (JoinNL (chunkRest chunk))).1 ≠ [] →
      (buildSlide toHTML r chunk).1.C = (md toHTML r (JoinNL (chunkRest chunk))).1 ∧
      (buildSlide toHTML r chunk).2 = (md toHTML r (JoinNL (chunkRest chunk))).2) ∧
    JoinNL ((SplitNL chunk).headD [] :: chunkRest chunk) = chunk ∧
    ((SplitNL chunk).headD [] = "## My Title".toList →
      (buildSlide toHTML r chunk).1.T = "My Title".toList) := by
  have hT := buildSlide_title_of_hash toHTML r chunk h
  refine ⟨hT, ?_, ?_, ?_⟩
  · intro hb
    rw [buildSlide_of_hash toHTML r chunk h hb]
    exact ⟨rfl, rfl⟩
  · unfold chunkRest
    cases hs : SplitNL chunk with
    | nil => exact absurd hs (SplitNL_ne_nil chunk)
    | cons l0 rest =>
      have := JoinNL_SplitNL chunk
      rw [hs] at this
      simpa using this
  · intro hl
    rw [hT]
    unfold chunkHead
    rw [hl]
    decide

theorem heading_chunk_slide_witness :
    HasPrefixHash (chunkHead "## My Title\nSome text".toList) = true ∧
    (buildSlide sampleHTML 3 "## My Title\nSome text".toList).1.T = "My Title".toList ∧
    ((buildSlide sampleHTML 3 "## My Title\nSome text".toList).1.C
        = (md sampleHTML 3 (JoinNL (chunkRest "## My Title\nSome text".toList))).1 ∧
      (buildSlide sampleHTML 3 "## My Title\nSome text".toList).2
        = (md sampleHTML 3 (JoinNL (chunkRest "## My Title\nSome text".toList))).2) ∧
    (md sampleHTML 3 (JoinNL (chunkRest "## My Title\nSome text".toList)))
      = ("\nSome text".toList, 4) :=
  ⟨by decide,
   (heading_chunk_slide sampleHTML 3 "## My Title\nSome text".toList (by decide)).2.2.2
      (by decide),
   (heading_chunk_slide sampleHTML 3 "## My Title\nSome text".toList (by decide)).2.1
      (by decide),
   by decide⟩

/-- C9: for every chunk whose trimmed first line does not start with `#`, and
whatever state the renderer is in when the slide is built, the slide has that
line as title, and its body is the conversion of the whole chunk, first line
included (the one conversion made for the slide, which leaves the renderer in
the state the builder returns), whenever that conversion is not blank.  The
chunk `Intro\nSome text` gives the title `Intro` and the conversion of
`Intro\nSome text` as body. -/
theorem plain_chunk_slide {R : Type} (toHTML : R → Str → Str × R) (r : R) (chunk : Str)
    (h : HasPrefixHash (chunkHead chunk) = false) :
    (buildSlide toHTML r chunk).1.T = chunkHead chunk ∧
    (TrimSpace (md toHTML r chunk).1 ≠ [] →
      (buildSlide toHTML r chunk).1.C = (md toHTML r chunk).1 ∧
      (buildSlide toHTML r chunk).2 = (md toHTML r chunk).2) ∧
    (chunk = "Intro\nSome text".toList →
      (buildSlide toHTML r chunk).1.T = "Intro".toList ∧
      (TrimSpace (md toHTML r "Intro\nSome text".toList).1 ≠ [] →
        (buildSlide toHTML r chunk).1.C = (md toHTML r "Intro\nSome text".toList).1)) := by
  have hT := buildSlide_title_of_plain toHTML r chunk h
  have hC : TrimSpace (md toHTML r chunk).1 ≠ [] →
      (buildSlide toHTML r chunk).1.C = (md toHTML r chunk).1 ∧
      (buildSlide toHTML r chunk).2 = (md toHTML r chunk).2 := by
    intro hb
    rw [buildSlide_of_plain toHTML r chunk h hb]
    exact ⟨rfl, rfl⟩
  refine ⟨hT, hC, ?_⟩
  intro hc
  refine ⟨?_, ?_⟩
  · rw [hT, hc]; decide
  · intro hb
    rw [← hc] at hb ⊢
    exact (hC hb).1

theorem plain_chunk_slide_witness :
    HasPrefixHash (chunkHead "Intro\nSome text".toList) = false ∧
    (buildSlide sampleHTML 3 "Intro\nSome text".toList).1.T = "Intro".toList ∧
    (buildSlide sampleHTML 3 "Intro\nSome text".toList).1.C
      = (md sampleHTML 3 "Intro\nSome text".toList).1 ∧
    (md sampleHTML 3 "Intro\nSome text".toList) = ("\nIntro\nSome text".toList, 4) :=
  ⟨by decide,
   ((plain_chunk_slide sampleHTML 3 "Intro\nSome text".toList (by decide)).2.2 rfl).1,
   ((plain_chunk_slide sampleHTML 3 "Intro\nSome text".toList (by decide)).2.2 rfl).2
      (by decide),
   by decide⟩

/-- C10 (amended): for every chunk that consists solely of a heading line, and
whatever state the renderer is in when the slide is built, the body of the
slide is the conversion of the slide's title; it is not blank when the title
is not empty (for a converter that returns non-blank HTML for non-blank text),
and it is empty when the title is empty, as for the heading `#`.  The chunk
`# Title Only` gives the conversion of `Title Only`. -/
theorem heading_only_chunk_body {R : Type} (toHTML : R → Str → Str × R) (r : R)
    (chunk : Str) (h : HasPrefixHash (chunkHead chunk) = true)
    (hrest : TrimSpace (JoinNL (chunkRest chunk)) = []) :
    (buildSlide toHTML r chunk).1.C = (md toHTML r (buildSlide toHTML r chunk).1.T).1 ∧
    (buildSlide toHTML r chunk).2 = (md toHTML r (buildSlide toHTML r chunk).1.T).2 ∧
    ((buildSlide toHTML r chunk).1.T ≠ [] →
      (∀ r0 t, TrimSpace t ≠ [] → TrimSpace (toHTML r0 t).1 ≠ []) →
      (buildSlide toHTML r chunk).1.C ≠ [] ∧ TrimSpace (buildSlide toHTML r chunk).1.C ≠ []) ∧
    ((buildSlide toHTML r chunk).1.T = [] → (buildSlide toHTML r chunk).1.C = []) ∧
    (chunk = "# Title Only".toList →
      (buildSlide toHTML r chunk).1.C = (md toHTML r "Title Only".toList).1) := by
  have hT := buildSlide_title_of_hash toHTML r chunk h
  have hB := buildSlide_of_heading_only toHTML r chunk h hrest
  have hC : (buildSlide toHTML r chunk).1.C
      = (md toHTML r (buildSlide toHTML r chunk).1.T).1 := by
    rw [hT, hB]
  have hR : (buildSlide toHTML r chunk).2
      = (md toHTML r (buildSlide toHTML r chunk).1.T).2 := by
    rw [hT, hB]
  refine ⟨hC, hR, ?_, ?_, ?_⟩
  · intro hne hconv
    have htrim : TrimSpace (buildSlide toHTML r chunk).1.T = (buildSlide toHTML r chunk).1.T := by
      rw [hT, TrimSpace_idem]
    have hnb : TrimSpace (buildSlide toHTML r chunk).1.T ≠ [] := by rw [htrim]; exact hne
    have hmd : md toHTML r (buildSlide toHTML r chunk).1.T
        = toHTML r (buildSlide toHTML r chunk).1.T := by
      unfold md
      simp [htrim, hne]
    have h2 := hconv r _ hnb
    rw [hC, hmd]
    refine ⟨?_, h2⟩
    intro h0
    rw [h0] at h2
    exact h2 rfl
  · intro h0
    rw [hC, h0]
    rfl
  · intro hc
    rw [hC, hT, hc]
    have : TrimSpace (TrimLeftHashSpace (chunkHead "# Title Only".toList)) = "Title Only".toList := by
      decide
    rw [this]

theorem heading_only_chunk_body_witness :
    HasPrefixHash (chunkHead "# Title Only".toList) = true ∧
    TrimSpace (JoinNL (chunkRest "# Title Only".toList)) = [] ∧
    (buildSlide sampleHTML 3 "# Title Only".toList).1.C
      = (md sampleHTML 3 "Title Only".toList).1 ∧
    (buildSlide sampleHTML 3 "# Title Only".toList).1.C = "\nTitle Only".toList :=
  ⟨by decide, by decide,
   (heading_only_chunk_body sampleHTML 3 "# Title Only".toList (by decide)
      (by decide)).2.2.2.2 rfl,
   by decide⟩

/-- C10 (counterexample): the chunk `#` consists solely of a heading line, and
yet the slide built from it has an empty title and an empty body, for every
converter and every state of the renderer (the converter is not called); the
sample converter returns non-blank output for non-blank text; `parse` builds
that slide from the document `#`. -/
theorem bare_heading_counterexample :
    HasPrefixHash (chunkHead "#".toList) = true ∧
    TrimSpace (JoinNL (chunkRest "#".toList)) = [] ∧
    (∀ (R : Type) (toHTML : R → Str → Str × R) (r : R),
      buildSlide toHTML r "#".toList = ({ T := [], C := [] }, r)) ∧
    (∀ (n : Nat) (t : Str), TrimSpace t ≠ [] → TrimSpace (sampleHTML n t).1 ≠ []) ∧
    (parse sampleHTML 0 "#".toList).1.S = [{ T := [], C := [] }] :=
  ⟨by decide, by decide, fun _ _ _ => rfl,
   fun n t h => by rw [TrimSpace_sampleHTML]; exact h, by decide⟩

/-! ## The slide delimiter pattern -/

theorem reSpace_isSpace {c : Char} (h : reSpace c = true) : isSpace c = true := by
  simp only [reSpace, Bool.or_eq_true, beq_iff_eq] at h
  simp only [isSpace, Bool.or_eq_true, beq_iff_eq, Bool.and_eq_true, decide_eq_true_eq]
  omega

theorem reSpace_newline : reSpace '\n' = true := by decide

theorem reSpace_dash : reSpace '-' = false := by decide

theorem isSpace_dash : isSpace '-' = false := by decide

theorem kDash_cons_of_reSpace {c : Char} (cs : Str) (h : reSpace c = true) :
    kDash (c :: cs) = none := by
  have hc : c ≠ '-' := by
    intro h0; rw [h0, reSpace_dash] at h; exact Bool.noConfusion h
  simp [kDash, reLit, hc]

theorem sectionSplitAt_eq (s : Str) : sectionSplitAt s = kDash (s.dropWhile reSpace) := by
  unfold sectionSplitAt
  induction s with
  | nil => rfl
  | cons c cs ih =>
    unfold reSpaceStar
    by_cases h : reSpace c = true
    · rw [if_pos h, List.dropWhile_cons_of_pos h, ih]
      cases hk : kDash (List.dropWhile reSpace cs) with
      | some r => rfl
      | none => exact kDash_cons_of_reSpace cs h
    · rw [if_neg h, List.dropWhile_cons_of_neg h]
      rfl

theorem kDash_some {x rest : Str} (h : kDash x = some rest) :
    ∃ r, x = '-' :: '-' :: '-' :: r ∧ kEnd r = some rest := by
  unfold kDash at h
  match x, h with
  | [], h => simp [reLit] at h
  | [a], h => 
    simp only [reLit] at h
    split at h <;> simp at h
  | [a, b], h =>
    simp only [reLit] at h
    split at h
    · split at h <;> simp at h
    · simp at h
  | a :: b :: c :: r, h =>
    simp only [reLit] at h
    split at h
    · next ha =>
      split at h
      · next hb =>
        split at h
        · next hc =>
          exact ⟨r, by rw [ha, hb, hc], h⟩
        · simp at h
      · simp at h
    · simp at h

theorem kDash_dashes (r : Str) : kDash ('-' :: '-' :: '-' :: r) = kEnd r := by
  simp [kDash, reLit, kEnd]

theorem kEnd_some {r rest : Str} (h : kEnd r = some rest) :
    ∃ w, r = w ++ rest ∧ (∀ c ∈ w, reSpace c = true) ∧ (rest = [] ∨ rest.head? = some '\n') := by
  induction r with
  | nil =>
    simp only [kEnd, reSpaceStar, reEndLine] at h
    injection h with h
    exact ⟨[], by simp [← h], by simp, Or.inl h.symm⟩
  | cons c cs ih =>
    unfold kEnd at h ih
    unfold reSpaceStar at h
    by_cases hc : reSpace c = true
    · rw [if_pos hc] at h
      cases hk : reSpaceStar (reEndLine some) cs with
      | some r' =>
        rw [hk] at h
        injection h with h
        subst h
        obtain ⟨w, hw, hall, hrest⟩ := ih hk
        refine ⟨c :: w, by simp [← hw], ?_, hrest⟩
        intro x hx
        rcases List.mem_cons.mp hx with h1 | h1
        · exact h1 ▸ hc
        · exact hall x h1
      | none =>
        rw [hk] at h
        simp only [reEndLine] at h
        split at h
        · next hn =>
          injection h with h
          exact ⟨[], by simp [h], by simp, Or.inr (by simp [← h, hn])⟩
        · simp at h
    · rw [if_neg hc] at h
      simp only [reEndLine] at h
      split at h
      · next hn => rw [hn, reSpace_newline] at hc; exact absurd rfl hc
      · simp at h

theorem kEnd_isSome_of_endsLine {r : Str} (h : EndsLine r) : kEnd r ≠ none := by
  obtain ⟨w, t, hr, hw, ht⟩ := h
  subst hr
  induction w with
  | nil =>
    rcases ht with ht | ht
    · subst ht; simp [kEnd, reSpaceStar, reEndLine]
    · cases t with
      | nil => simp at ht
      | cons a t =>
        have ha : a = '\n' := by simpa using ht
        subst ha
        simp only [List.nil_append, kEnd]
        unfold reSpaceStar
        rw [if_pos reSpace_newline]
        cases reSpaceStar (reEndLine some) t with
        | some r' => simp
        | none => simp [reEndLine]
  | cons c w ih =>
    have hc : reSpace c = true := hw c (List.mem_cons_self _ _)
    have ih' := ih (fun x hx => hw x (List.mem_cons_of_mem _ hx))
    unfold kEnd at ih' ⊢
    rw [List.cons_append]
    unfold reSpaceStar
    rw [if_pos hc]
    cases hk : reSpaceStar (reEndLine some) (w ++ t) with
    | some r' => simp
    | none => exact absurd hk ih'

theorem dropWhile_reSpace_delim (w r : Str) (hw : ∀ c ∈ w, reSpace c = true) :
    (w ++ '-' :: r).dropWhile reSpace = '-' :: r := by
  rw [dropWhile_append_of_all hw, List.dropWhile_cons_of_neg (by simp [reSpace_dash])]

/-- The pattern matches where the text starts with a delimiter. -/
theorem sectionSplitAt_of_delimAt {s : Str} (h : DelimAt s) : sectionSplitAt s ≠ none := by
  obtain ⟨w, r, hs, hw, hr⟩ := h
  rw [sectionSplitAt_eq, hs, dropWhile_reSpace_delim w _ hw, kDash_dashes]
  exact kEnd_isSome_of_endsLine hr

/-- A match of the pattern is `\s*`, `---`, `\s*`, and is followed by the end
of the text or a newline. -/
theorem sectionSplitAt_some {s rest : Str} (h : sectionSplitAt s = some rest) :
    ∃ w w2, s = w ++ '-' :: '-' :: '-' :: (w2 ++ rest) ∧ (∀ c ∈ w, reSpace c = true) ∧
      (∀ c ∈ w2, reSpace c = true) ∧ (rest = [] ∨ rest.head? = some '\n') := by
  rw [sectionSplitAt_eq] at h
  obtain ⟨r, hr, hk⟩ := kDash_some h
  obtain ⟨w2, hw2, hall, hrest⟩ := kEnd_some hk
  refine ⟨s.takeWhile reSpace, w2, ?_, fun c hc => List.mem_takeWhile_imp hc, hall, hrest⟩
  rw [← hw2, ← hr, List.takeWhile_append_dropWhile]

theorem delimAt_of_sectionSplitAt {s : Str} (h : sectionSplitAt s ≠ none) : DelimAt s := by
  cases hs : sectionSplitAt s with
  | none => exact absurd hs h
  | some rest =>
    obtain ⟨w, w2, h1, hw, hw2, hrest⟩ := sectionSplitAt_some hs
    exact ⟨w, w2 ++ rest, h1, hw, w2, rest, rfl, hw2, hrest⟩

/-! ## The scan of `sectionSplit.Split` -/

theorem inOrder_prepend {cs : List Str} {s : Str} (x : Str) (h : InOrder cs s) :
    InOrder cs (x ++ s) := by
  cases h with
  | nil => exact InOrder.nil _
  | cons pre c post cs h =>
    have : x ++ (pre ++ c ++ post) = (x ++ pre) ++ c ++ post := by simp
    rw [this]
    exact InOrder.cons _ _ _ _ h

theorem splitScan_inOrder (s : Str) : ∀ (bol : Bool) (k : Nat),
    ∃ P ps r, splitScan bol k s = P :: ps ∧ s.drop k = P ++ r ∧ InOrder ps r := by
  induction s with
  | nil =>
    intro bol k
    exact ⟨[], [], [], by simp [splitScan], by simp, InOrder.nil _⟩
  | cons c cs ih =>
    intro bol k
    cases k with
    | succ k =>
      obtain ⟨P, ps, r, h1, h2, h3⟩ := ih (c == '\n') k
      exact ⟨P, ps, r, by simp [splitScan, h1], by simpa using h2, h3⟩
    | zero =>
      unfold splitScan
      cases hm : (if bol = true then sectionSplitAt (c :: cs) else none) with
      | some rest =>
        obtain ⟨P, ps, r, h1, h2, h3⟩ := ih (c == '\n') (cs.length - rest.length)
        refine ⟨[], splitScan (c == '\n') (cs.length - rest.length) cs, c :: cs, rfl, by simp, ?_⟩
        rw [h1]
        have : c :: cs = (c :: cs.take (cs.length - rest.length)) ++ P ++ r := by
          rw [List.append_assoc, ← h2]
          simp
        rw [this]
        exact InOrder.cons _ _ _ _ h3
      | none =>
        obtain ⟨P, ps, r, h1, h2, h3⟩ := ih (c == '\n') 0
        refine ⟨c :: P, ps, r, by simp [h1, consHead], ?_, h3⟩
        simp only [List.drop_zero] at h2 ⊢
        rw [h2]; rfl

theorem sectionSplit_inOrder (s : Str) : InOrder (sectionSplit s) s := by
  obtain ⟨P, ps, r, h1, h2, h3⟩ := splitScan_inOrder s true 0
  unfold sectionSplit
  rw [h1]
  simp only [List.drop_zero] at h2
  have : s = [] ++ P ++ r := by simpa using h2
  rw [this]
  exact InOrder.cons _ _ _ _ h3

theorem inOrder_trim_filter {ps : List Str} {s : Str} (h : InOrder ps s) :
    InOrder ((ps.map TrimSpace).filter (fun t => decide (t ≠ []))) s := by
  induction h with
  | nil s => exact InOrder.nil _
  | cons pre c post cs _ ih =>
    simp only [List.map_cons, List.filter_cons]
    split
    · obtain ⟨l, t, hc, _, _⟩ := TrimSpace_decomp c
      have : pre ++ c ++ post = (pre ++ l) ++ TrimSpace c ++ (t ++ post) := by
        conv_lhs => rw [hc]
        simp
      rw [this]
      exact InOrder.cons _ _ _ _ (inOrder_prepend t ih)
    · have : pre ++ c ++ post = (pre ++ c) ++ post := rfl
      rw [this]
      exact inOrder_prepend _ ih

theorem inOrder_mem_subset {ps : List Str} {s : Str} (h : InOrder ps s) :
    ∀ P ∈ ps, ∀ c ∈ P, c ∈ s := by
  induction h with
  | nil s => intro P hP; simp at hP
  | cons pre c post cs _ ih =>
    intro P hP x hx
    rcases List.mem_cons.mp hP with h1 | h1
    · subst h1; simp [hx]
    · have := ih P h1 x hx
      simp [this]

/-- C5: every chunk of `split` is non-empty and equal to its own trimmed form,
the chunks occur in the text in the order of the list, and leading, trailing
and consecutive delimiter lines add no chunk: the split of
`---\na\n---\n---\nb\n---` is `[a, b]`. -/
theorem split_chunks_trimmed_in_order (s : Str) :
    (∀ c ∈ split s, c ≠ [] ∧ TrimSpace c = c) ∧
    InOrder (split s) s ∧
    split "---\na\n---\n---\nb\n---".toList = ["a".toList, "b".toList] := by
  refine ⟨?_, ?_, by decide⟩
  · intro c hc
    refine ⟨split_ne_nil hc, ?_⟩
    rw [split_eq, List.mem_filter, List.mem_map] at hc
    obtain ⟨⟨P, _, hP⟩, _⟩ := hc
    rw [← hP, TrimSpace_idem]
  · rw [split_eq]
    exact inOrder_trim_filter (sectionSplit_inOrder s)

theorem BolAfter_cons (bol : Bool) (c : Char) (a : Str) :
    BolAfter bol (c :: a) ↔ BolAfter (c == '\n') a := by
  unfold BolAfter
  cases a with
  | nil => simp
  | cons x a => simp [List.getLast?_cons_cons]

theorem good_cons {c : Char} {P after : Str} {bol : Bool}
    (h : Good (c == '\n') P after)
    (hfail : bol = true → sectionSplitAt (c :: (P ++ after)) = none) :
    Good bol (c :: P) after := by
  constructor
  · intro a b hab hb hbol
    cases a with
    | nil =>
      have hb' : b = c :: P := by simpa using hab.symm
      have : bol = true := by
        rcases hbol with h1 | h1
        · exact h1.2
        · simp at h1
      rw [hb']
      exact hfail this
    | cons x a =>
      have hx : c = x ∧ P = a ++ b := by simpa using hab
      obtain ⟨hx1, hx2⟩ := hx
      subst hx1
      exact h.1 a b hx2 hb ((BolAfter_cons bol c a).mp hbol)
  · intro hne
    exact (BolAfter_cons bol c P).mpr (h.2 hne)

theorem good_nil_match (after : Str) : Good true [] after := by
  constructor
  · intro a b hab hb _
    have : b = [] := by
      have := congrArg List.length hab
      simp at this
      exact List.length_eq_zero.mp (by omega)
    exact absurd this hb
  · intro _
    exact Or.inl ⟨rfl, rfl⟩

theorem good_nil_end (bol : Bool) : Good bol [] [] := by
  constructor
  · intro a b hab hb _
    have : b = [] := by
      have := congrArg List.length hab
      simp at this
      exact List.length_eq_zero.mp (by omega)
    exact absurd this hb
  · intro h
    exact absurd rfl h

theorem partIn_shift {pfx : Str} {c : Char} {cs Q : Str}
    (h : PartIn ((pfx ++ [c]) ++ cs) Q) : PartIn (pfx ++ c :: cs) Q := by
  have e : (pfx ++ [c]) ++ cs = pfx ++ c :: cs := by simp
  rw [e] at h
  exact h

theorem splitScan_good (s : Str) : ∀ (pfx : Str) (bol : Bool) (k : Nat),
    (bol = true → pfx = [] ∨ pfx.getLast? = some '\n') →
    (k = 0 → ∃ P ps after, splitScan bol 0 s = P :: ps ∧ s = P ++ after ∧ Good bol P after ∧
      ∀ Q ∈ ps, PartIn (pfx ++ s) Q) ∧
    (0 < k → k ≤ s.length → (s.drop k = [] ∨ (s.drop k).head? = some '\n') →
      ∀ Q ∈ splitScan bol k s, PartIn (pfx ++ s) Q) := by
  induction s with
  | nil =>
    intro pfx bol k _
    constructor
    · intro _
      exact ⟨[], [], [], by simp [splitScan], rfl, good_nil_end bol, by simp⟩
    · intro hk hle
      simp at hle
      omega
  | cons c cs ih =>
    intro pfx bol k hpfx
    have hnext : (c == '\n') = true → pfx ++ [c] = [] ∨ (pfx ++ [c]).getLast? = some '\n' := by
      intro hc
      right
      have : c = '\n' := by simpa using hc
      simp [this]
    constructor
    · intro _
      unfold splitScan
      cases hm : (if bol = true then sectionSplitAt (c :: cs) else none) with
      | some rest =>
        have hbol : bol = true := by
          by_contra hb
          rw [if_neg hb] at hm
          exact Option.noConfusion hm
        rw [if_pos hbol] at hm
        obtain ⟨w, w2, hs, _, _, hrest⟩ := sectionSplitAt_some hm
        refine ⟨[], splitScan (c == '\n') (cs.length - rest.length) cs, c :: cs, rfl, rfl,
          hbol ▸ good_nil_match _, ?_⟩
        have hlen := congrArg List.length hs
        simp only [List.length_cons, List.length_append] at hlen
        have hdrop : cs.drop (cs.length - rest.length) = rest := by
          have h1 : (c :: cs).drop (cs.length - rest.length + 1) = rest := by
            rw [hs]
            have : w ++ '-' :: '-' :: '-' :: (w2 ++ rest)
                = (w ++ '-' :: '-' :: '-' :: w2) ++ rest := by simp
            rw [this]
            apply List.drop_left'
            simp only [List.length_cons, List.length_append]
            omega
          simpa using h1
        intro Q hQ
        apply partIn_shift
        apply ((ih (pfx ++ [c]) (c == '\n') (cs.length - rest.length)) hnext).2
          (by omega) (by omega) _ Q hQ
        rw [hdrop]
        exact hrest
      | none =>
        obtain ⟨P, ps, after, h1, h2, h3, h4⟩ := ((ih (pfx ++ [c]) (c == '\n') 0) hnext).1 rfl
        refine ⟨c :: P, ps, after, by simp [h1, consHead], by simp [h2], ?_,
          fun Q hQ => partIn_shift (h4 Q hQ)⟩
        apply good_cons h3
        intro hb
        rw [if_pos hb] at hm
        rw [← h2]
        exact hm
    · intro hk hle hdrop
      cases k with
      | zero => omega
      | succ k =>
        have hscan : splitScan bol (k + 1) (c :: cs) = splitScan (c == '\n') k cs := by
          simp [splitScan]
        rw [hscan]
        simp only [List.drop_succ_cons] at hdrop
        simp only [List.length_cons] at hle
        cases k with
        | succ k =>
          intro Q hQ
          exact partIn_shift
            (((ih (pfx ++ [c]) (c == '\n') (k + 1)) hnext).2 (by omega) (by omega) hdrop Q hQ)
        | zero =>
          obtain ⟨P, ps, after, h1, h2, h3, h4⟩ := ((ih (pfx ++ [c]) (c == '\n') 0) hnext).1 rfl
          rw [h1]
          intro Q hQ
          rcases List.mem_cons.mp hQ with hQ | hQ
          · subst hQ
            simp only [List.drop_zero] at hdrop
            refine ⟨c == '\n', pfx ++ [c], after, by rw [h2]; simp, h3, ?_, hnext⟩
            unfold Start
            rw [← h2]
            exact Or.inr hdrop
          · exact partIn_shift (h4 Q hQ)

/-- Every piece of `sectionSplit.Split(s, -1)` lies in the text, holds no match
of the pattern at a line start, and starts at a line start or after a match. -/
theorem sectionSplit_partIn (s : Str) : ∀ P ∈ sectionSplit s, PartIn s P := by
  obtain ⟨P, ps, after, h1, h2, h3, h4⟩ := (splitScan_good s [] true 0 (fun _ => Or.inl rfl)).1 rfl
  unfold sectionSplit
  rw [h1]
  intro Q hQ
  rcases List.mem_cons.mp hQ with hQ | hQ
  · subst hQ
    exact ⟨true, [], after, by simpa using h2, h3, Or.inl rfl, fun _ => Or.inl rfl⟩
  · have := h4 Q hQ
    simpa using this

/-! ## Lines and delimiter lines -/

theorem SplitNL_cons (c : Char) (cs : Str) :
    SplitNL (c :: cs) = if c = '\n' then [] :: SplitNL cs else consHead c (SplitNL cs) := by
  rw [SplitNL]

theorem SplitNL_append_newline (a b : Str) :
    SplitNL (a ++ '\n' :: b) = SplitNL a ++ SplitNL b := by
  induction a with
  | nil =>
    rw [List.nil_append, SplitNL_cons, if_pos rfl]
    rfl
  | cons c a ih =>
    rw [List.cons_append, SplitNL_cons c (a ++ '\n' :: b), SplitNL_cons c a]
    by_cases hc : c = '\n'
    · rw [if_pos hc, if_pos hc, ih]
      rfl
    · rw [if_neg hc, if_neg hc, ih]
      cases h : SplitNL a with
      | nil => exact absurd h (SplitNL_ne_nil a)
      | cons p ps => rfl

/-- Where the lines of `strings.Split(s, "\n")` lie in the text: the first is a
prefix, every other one follows a newline, and each is followed by a newline or
the end of the text. -/
theorem SplitNL_lines (s : Str) :
    ∃ p ps, SplitNL s = p :: ps ∧
      (∃ post, s = p ++ post ∧ (post = [] ∨ post.head? = some '\n')) ∧
      ∀ l ∈ ps, ∃ pre post, s = pre ++ l ++ post ∧ pre.getLast? = some '\n' ∧
        (post = [] ∨ post.head? = some '\n') := by
  induction s with
  | nil => exact ⟨[], [], rfl, ⟨[], rfl, Or.inl rfl⟩, by simp⟩
  | cons c cs ih =>
    obtain ⟨p, ps, h1, ⟨post0, h2, h3⟩, h4⟩ := ih
    unfold SplitNL
    by_cases hc : c = '\n'
    · rw [if_pos hc, h1]
      refine ⟨[], p :: ps, rfl, ⟨c :: cs, rfl, Or.inr (by simp [hc])⟩, ?_⟩
      intro l hl
      rcases List.mem_cons.mp hl with hl | hl
      · subst hl
        exact ⟨[c], post0, by simp [← h2], by simp [hc], h3⟩
      · obtain ⟨pre, post, h5, h6, h7⟩ := h4 l hl
        have hpre : pre ≠ [] := by intro h0; rw [h0] at h6; simp at h6
        refine ⟨c :: pre, post, by simp [h5], ?_, h7⟩
        cases pre with
        | nil => exact absurd rfl hpre
        | cons x pre => rw [List.getLast?_cons_cons]; exact h6
    · rw [if_neg hc, h1]
      refine ⟨c :: p, ps, rfl, ⟨post0, by simp [h2], h3⟩, ?_⟩
      intro l hl
      obtain ⟨pre, post, h5, h6, h7⟩ := h4 l hl
      have hpre : pre ≠ [] := by intro h0; rw [h0] at h6; simp at h6
      refine ⟨c :: pre, post, by simp [h5], ?_, h7⟩
      cases pre with
      | nil => exact absurd rfl hpre
      | cons x pre => rw [List.getLast?_cons_cons]; exact h6

theorem SplitNL_mem {s l : Str} (h : l ∈ SplitNL s) :
    ∃ pre post, s = pre ++ l ++ post ∧ (pre = [] ∨ pre.getLast? = some '\n') ∧
      (post = [] ∨ post.head? = some '\n') := by
  obtain ⟨p, ps, h1, ⟨post0, h2, h3⟩, h4⟩ := SplitNL_lines s
  rw [h1] at h
  rcases List.mem_cons.mp h with h | h
  · subst h
    exact ⟨[], post0, by simpa using h2, Or.inl rfl, h3⟩
  · obtain ⟨pre, post, h5, h6, h7⟩ := h4 l h
    exact ⟨pre, post, h5, Or.inr h6, h7⟩

theorem SplitNL_no_newline : ∀ (s : Str), ∀ l ∈ SplitNL s, '\n' ∉ l := by
  intro s
  induction s with
  | nil => intro l hl; simp [SplitNL] at hl; simp [hl]
  | cons c cs ih =>
    intro l hl
    rw [SplitNL_cons] at hl
    by_cases hc : c = '\n'
    · rw [if_pos hc] at hl
      rcases List.mem_cons.mp hl with h | h
      · simp [h]
      · exact ih l h
    · rw [if_neg hc] at hl
      cases hs : SplitNL cs with
      | nil => exact absurd hs (SplitNL_ne_nil cs)
      | cons p ps =>
        rw [hs] at hl ih
        simp only [consHead] at hl
        rcases List.mem_cons.mp hl with h | h
        · rw [h]
          intro hmem
          rcases List.mem_cons.mp hmem with h1 | h1
          · exact hc h1.symm
          · exact ih p (List.mem_cons_self _ _) h1
        · exact ih l (List.mem_cons_of_mem _ h)

theorem SplitNL_of_no_newline : ∀ (l : Str), '\n' ∉ l → SplitNL l = [l] := by
  intro l
  induction l with
  | nil => intro _; rfl
  | cons c cs ih =>
    intro h
    have hc : c ≠ '\n' := fun h0 => h (by simp [h0])
    have hcs : '\n' ∉ cs := fun h0 => h (List.mem_cons_of_mem _ h0)
    rw [SplitNL_cons, if_neg hc, ih hcs]
    rfl

/-- A newline-free part of the text that starts at a line start and ends at a
line end is one of its lines. -/
theorem SplitNL_mem_of_decomp {s l : Str} (pre post : Str) (hs : s = pre ++ l ++ post)
    (hl : '\n' ∉ l) (hpre : pre = [] ∨ pre.getLast? = some '\n')
    (hpost : post = [] ∨ post.head? = some '\n') : l ∈ SplitNL s := by
  have hright : l ∈ SplitNL (l ++ post) := by
    rcases hpost with h | h
    · rw [h, List.append_nil, SplitNL_of_no_newline l hl]
      exact List.mem_singleton_self _
    · cases post with
      | nil => simp at h
      | cons x p =>
        have hx : x = '\n' := by simpa using h
        rw [hx, SplitNL_append_newline, SplitNL_of_no_newline l hl]
        simp
  rcases hpre with h | h
  · rw [hs, h]
    simpa using hright
  · have hne : pre ≠ [] := by intro h0; rw [h0] at h; simp at h
    have hd : pre = pre.dropLast ++ ['\n'] := by
      have := List.dropLast_append_getLast hne
      rw [List.getLast?_eq_getLast _ hne] at h
      injection h with h
      rw [h] at this
      exact this.symm
    have e : s = pre.dropLast ++ '\n' :: (l ++ post) := by
      rw [hs]
      conv_lhs => rw [hd]
      simp
    rw [e, SplitNL_append_newline]
    exact List.mem_append_right _ hright

/-- Every text is some full lines followed by a newline-free last line. -/
theorem last_line_split (u : Str) :
    ∃ A x, u = A ++ x ∧ '\n' ∉ x ∧ (∀ c ∈ x, c ∈ u) ∧ (A = [] ∨ A.getLast? = some '\n') := by
  induction u using List.reverseRecOn with
  | nil => exact ⟨[], [], rfl, by simp, by simp, Or.inl rfl⟩
  | append_singleton u c ih =>
    by_cases hc : c = '\n'
    · exact ⟨u ++ [c], [], by simp, by simp, by simp, Or.inr (by simp [hc])⟩
    · obtain ⟨A, x, h1, h2, h3, h4⟩ := ih
      refine ⟨A, x ++ [c], by rw [h1]; simp, ?_, ?_, h4⟩
      · intro hmem
        rcases List.mem_append.mp hmem with h | h
        · exact h2 h
        · exact hc (List.mem_singleton.mp h).symm
      · intro d hd
        rcases List.mem_append.mp hd with h | h
        · exact List.mem_append_left _ (h3 d h)
        · exact List.mem_append_right _ h

/-- Every text is a newline-free first line followed by nothing or by a
newline and the rest. -/
theorem first_line_split (v : Str) :
    ∃ y B, v = y ++ B ∧ '\n' ∉ y ∧ (∀ c ∈ y, c ∈ v) ∧ (B = [] ∨ B.head? = some '\n') := by
  induction v with
  | nil => exact ⟨[], [], rfl, by simp, by simp, Or.inl rfl⟩
  | cons c v ih =>
    by_cases hc : c = '\n'
    · exact ⟨[], c :: v, rfl, by simp, by simp, Or.inr (by simp [hc])⟩
    · obtain ⟨y, B, h1, h2, h3, h4⟩ := ih
      refine ⟨c :: y, B, by rw [h1]; rfl, ?_, ?_, h4⟩
      · intro hmem
        rcases List.mem_cons.mp hmem with h | h
        · exact hc h.symm
        · exact h2 h
      · intro d hd
        rcases List.mem_cons.mp hd with h | h
        · rw [h]; exact List.mem_cons_self _ _
        · exact List.mem_cons_of_mem _ (h3 d h)

theorem delimLine_iff (l : Str) :
    delimLine l = true ↔
      ∃ w1 w2, l = w1 ++ '-' :: '-' :: '-' :: w2 ∧ (∀ c ∈ w1, reSpace c = true) ∧
        (∀ c ∈ w2, reSpace c = true) := by
  unfold delimLine
  constructor
  · intro h
    simp only [Bool.and_eq_true, beq_iff_eq, List.all_eq_true] at h
    obtain ⟨h1, h2⟩ := h
    refine ⟨l.takeWhile reSpace, (l.dropWhile reSpace).drop 3, ?_,
      fun c hc => List.mem_takeWhile_imp hc, h2⟩
    have e : l.dropWhile reSpace = '-' :: '-' :: '-' :: (l.dropWhile reSpace).drop 3 := by
      conv_lhs => rw [← List.take_append_drop 3 (l.dropWhile reSpace), h1]
      rfl
    conv_lhs => rw [← List.takeWhile_append_dropWhile reSpace l, e]
  · rintro ⟨w1, w2, hl, h1, h2⟩
    rw [hl, dropWhile_reSpace_delim w1 _ h1]
    simp only [Bool.and_eq_true, beq_iff_eq, List.all_eq_true]
    exact ⟨rfl, h2⟩

theorem TrimSpace_delimLine {l : Str} (h : delimLine l = true) : TrimSpace l = "---".toList := by
  obtain ⟨w1, w2, hl, h1, h2⟩ := (delimLine_iff l).mp h
  apply TrimSpace_of_decomp (l := w1) (t := w2)
  · rw [hl]; simp
  · exact fun c hc => reSpace_isSpace (h1 c hc)
  · exact fun c hc => reSpace_isSpace (h2 c hc)
  · constructor <;> intro x hx
    · have : x = '-' := by simpa using hx.symm
      rw [this]; exact isSpace_dash
    · have : x = '-' := by simpa using hx.symm
      rw [this]; exact isSpace_dash

theorem not_all_reSpace_of_last {b : Str} (hb : b ≠ [])
    (hlast : ∀ x, b.getLast? = some x → isSpace x = false) :
    ¬ (∀ c ∈ b, reSpace c = true) := by
  intro hall
  have hmem : b.getLast hb ∈ b := List.getLast_mem hb
  have h1 := reSpace_isSpace (hall _ hmem)
  rw [hlast _ (List.getLast?_eq_getLast _ hb)] at h1
  exact Bool.noConfusion h1

theorem prefix_of_no_newline : ∀ (y Z w2 t : Str), y ++ Z = w2 ++ t → '\n' ∉ y →
    (t = [] ∨ t.head? = some '\n') → ∀ c ∈ y, c ∈ w2 := by
  intro y
  induction y with
  | nil => intro _ _ _ _ _ _ c hc; simp at hc
  | cons a y ih =>
    intro Z w2 t h hy ht c hc
    cases w2 with
    | nil =>
      exfalso
      simp only [List.nil_append, List.cons_append] at h
      rcases ht with h0 | h0
      · rw [h0] at h; exact List.noConfusion h
      · rw [← h] at h0
        have : a = '\n' := by simpa using h0
        exact hy (by simp [this])
    | cons d w2 =>
      simp only [List.cons_append, List.cons.injEq] at h
      rcases List.mem_cons.mp hc with h1 | h1
      · rw [h1, h.1]; exact List.mem_cons_self _ _
      · exact List.mem_cons_of_mem _
          (ih Z w2 t h.2 (fun h0 => hy (List.mem_cons_of_mem _ h0)) ht c h1)

/-- A match of the pattern that starts inside a trimmed chunk, the chunk being
followed by a line end, has its `---` inside the chunk. -/
theorem delim_in_suffix {b tail w r : Str} (hb : b ≠ [])
    (hlast : ∀ x, b.getLast? = some x → isSpace x = false)
    (htail : tail = [] ∨ tail.head? = some '\n')
    (hwr : b ++ tail = w ++ '-' :: '-' :: '-' :: r) (hw : ∀ c ∈ w, reSpace c = true) :
    ∃ b2, b = w ++ '-' :: '-' :: '-' :: b2 ∧ r = b2 ++ tail := by
  rcases List.append_eq_append_iff.mp hwr with ⟨a', h1, _⟩ | ⟨c', h1, h2⟩
  · exfalso
    apply not_all_reSpace_of_last hb hlast
    intro c hc
    exact hw c (by rw [h1]; exact List.mem_append_left _ hc)
  · have htail' : ∀ x rest, tail = x :: rest → x = '\n' := by
      intro x rest hx
      rcases htail with h0 | h0
      · rw [h0] at hx; exact List.noConfusion hx
      · rw [hx] at h0; simpa using h0
    match c', h1, h2 with
    | [], h1, h2 =>
      exfalso
      apply not_all_reSpace_of_last hb hlast
      intro c hc
      rw [h1, List.append_nil] at hc
      exact hw c hc
    | [x], h1, h2 =>
      exfalso
      have : tail = '-' :: '-' :: r := by
        simp only [List.cons_append, List.nil_append, List.cons.injEq] at h2
        exact h2.2.symm
      have := htail' _ _ this
      exact absurd this (by decide)
    | [x, y], h1, h2 =>
      exfalso
      have : tail = '-' :: r := by
        simp only [List.cons_append, List.nil_append, List.cons.injEq] at h2
        exact h2.2.2.symm
      have := htail' _ _ this
      exact absurd this (by decide)
    | x :: y :: z :: b2, h1, h2 =>
      simp only [List.cons_append, List.cons.injEq] at h2
      obtain ⟨hx, hy, hz, hrr⟩ := h2
      exact ⟨b2, by rw [h1, ← hx, ← hy, ← hz], hrr⟩

/-- A trimmed chunk none of whose lines is a delimiter line is solid. -/
theorem solid_of_no_delimLine {c : Str} (hc : Trimmed c)
    (hno : ∀ l ∈ SplitNL c, delimLine l = false) : Solid c := by
  intro a b tail hab hb ha htail
  by_contra hsome
  obtain ⟨w, r, hwr, hw, w2, t, hr, hw2, ht⟩ := delimAt_of_sectionSplitAt hsome
  have hlastb : ∀ x, b.getLast? = some x → isSpace x = false := by
    intro x hx
    apply hc.2
    rw [hab, List.getLast?_append_of_ne_nil _ hb]
    exact hx
  obtain ⟨b2, hbw, hrb⟩ := delim_in_suffix hb hlastb htail hwr hw
  obtain ⟨A, x, hAx, hxn, hxm, hA⟩ := last_line_split w
  obtain ⟨y, B, hyB, hyn, _, hB⟩ := first_line_split b2
  have hyw : ∀ d ∈ y, reSpace d = true := by
    intro d hd
    apply hw2
    have e : y ++ (B ++ tail) = w2 ++ t := by
      rw [← hr, hrb, hyB]; simp
    exact prefix_of_no_newline y (B ++ tail) w2 t e hyn ht d hd
  have hline : delimLine (x ++ '-' :: '-' :: '-' :: y) = true :=
    (delimLine_iff _).mpr ⟨x, y, rfl, fun d hd => hw d (hxm d hd), hyw⟩
  have hmem : (x ++ '-' :: '-' :: '-' :: y) ∈ SplitNL c := by
    apply SplitNL_mem_of_decomp (a ++ A) B
    · rw [hab, hbw, hAx, hyB]; simp
    · intro hmem
      rcases List.mem_append.mp hmem with h | h
      · exact hxn h
      · simp only [List.mem_cons] at h
        rcases h with h | h | h | h
        · exact absurd h (by decide)
        · exact absurd h (by decide)
        · exact absurd h (by decide)
        · exact hyn h
    · cases A with
      | nil => simpa using ha
      | cons z A =>
        right
        rw [List.getLast?_append_of_ne_nil _ (by simp)]
        rcases hA with h | h
        · exact List.noConfusion h
        · exact h
    · exact hB
  rw [hno _ hmem] at hline
  exact Bool.noConfusion hline

theorem left_fragment {lead pre : Str} (hlead : ∀ c ∈ lead, isSpace c = true)
    (hpre : pre = [] ∨ pre.getLast? = some '\n') :
    ∃ A x, lead ++ pre = A ++ x ∧ (∀ c ∈ x, isSpace c = true) ∧ '\n' ∉ x ∧
      (A = [] ∨ A.getLast? = some '\n') := by
  rcases hpre with h | h
  · obtain ⟨A, x, h1, h2, h3, h4⟩ := last_line_split lead
    exact ⟨A, x, by rw [h, List.append_nil]; exact h1, fun c hc => hlead c (h3 c hc), h2, h4⟩
  · have hne : pre ≠ [] := by intro h0; rw [h0] at h; simp at h
    exact ⟨lead ++ pre, [], by simp, by simp, by simp,
      Or.inr (by rw [List.getLast?_append_of_ne_nil _ hne]; exact h)⟩

theorem right_fragment {post trail : Str} (htrail : ∀ c ∈ trail, isSpace c = true)
    (hpost : post = [] ∨ post.head? = some '\n') :
    ∃ y B, post ++ trail = y ++ B ∧ (∀ c ∈ y, isSpace c = true) ∧ '\n' ∉ y ∧
      (B = [] ∨ B.head? = some '\n') := by
  rcases hpost with h | h
  · obtain ⟨y, B, h1, h2, h3, h4⟩ := first_line_split trail
    exact ⟨y, B, by rw [h, List.nil_append]; exact h1, fun c hc => htrail c (h3 c hc), h2, h4⟩
  · cases post with
    | nil => simp at h
    | cons x p => exact ⟨[], (x :: p) ++ trail, by simp, by simp, by simp, Or.inr (by simpa using h)⟩

theorem split_trimmed {s c : Str} (hc : c ∈ split s) : Trimmed c := by
  rw [split_eq, List.mem_filter, List.mem_map] at hc
  obtain ⟨⟨P, _, hP⟩, _⟩ := hc
  rw [← hP]
  exact TrimSpace_trimmed P

/-- When every line of the text that trims to `---` is a delimiter line, no
chunk of `split` has a line that trims to `---`. -/
theorem split_no_dash_line (s : Str)
    (hline : ∀ l ∈ SplitNL s, TrimSpace l = "---".toList → delimLine l = true) :
    ∀ chunk ∈ split s, ∀ l ∈ SplitNL chunk, TrimSpace l ≠ "---".toList := by
  intro chunk hchunk l hl htrim
  have hne := split_ne_nil hchunk
  rw [split_eq, List.mem_filter, List.mem_map] at hchunk
  obtain ⟨⟨P, hP, hPc⟩, _⟩ := hchunk
  obtain ⟨sb, before, after, hs, ⟨G1, G3⟩, hstart, hbefore⟩ := sectionSplit_partIn s P hP
  obtain ⟨lead, trail, hPd, hlead, htrail⟩ := TrimSpace_decomp P
  rw [hPc] at hPd
  obtain ⟨pre, post, hcl, hpre, hpost⟩ := SplitNL_mem hl
  obtain ⟨A, x, hAx, hx, hxn, hA⟩ := left_fragment hlead hpre
  obtain ⟨y, B, hyB, hy, hyn, hB⟩ := right_fragment htrail hpost
  obtain ⟨w1, w2, hd, hw1, hw2⟩ := TrimSpace_decomp l
  rw [htrim] at hd
  have hln : '\n' ∉ l := SplitNL_no_newline chunk l hl
  -- the line of the text that holds `l`
  have hPL : P = A ++ (x ++ l ++ y) ++ B := by
    calc P = (lead ++ pre) ++ l ++ (post ++ trail) := by rw [hPd, hcl]; simp
      _ = A ++ (x ++ l ++ y) ++ B := by rw [hAx, hyB]; simp
  have hLn : '\n' ∉ x ++ l ++ y := by
    intro hmem
    rcases List.mem_append.mp hmem with h | h
    · rcases List.mem_append.mp h with h | h
      · exact hxn h
      · exact hln h
    · exact hyn h
  have hl_ne : l ≠ [] := by
    intro hl0
    rw [hl0] at htrim
    exact absurd htrim (by decide)
  have hllen : 0 < l.length := List.length_pos.mpr hl_ne
  have hLne : x ++ l ++ y ≠ [] := by
    intro h0
    have := congrArg List.length h0
    simp only [List.length_append, List.length_nil] at this
    omega
  have hLhead : ∀ z rest, x ++ l ++ y = z :: rest → z ≠ '\n' := by
    intro z rest hz h0
    apply hLn
    rw [hz, h0]
    exact List.mem_cons_self _ _
  have hLtrim : TrimSpace (x ++ l ++ y) = "---".toList := by
    apply TrimSpace_of_decomp (l := x ++ w1) (t := w2 ++ y)
    · conv_lhs => rw [hd]
      simp
    · intro c hc
      rcases List.mem_append.mp hc with h | h
      · exact hx c h
      · exact hw1 c h
    · intro c hc
      rcases List.mem_append.mp hc with h | h
      · exact hw2 c h
      · exact hy c h
    · constructor <;> intro z hz
      · have : z = '-' := by simpa using hz.symm
        rw [this]; exact isSpace_dash
      · have : z = '-' := by simpa using hz.symm
        rw [this]; exact isSpace_dash
  -- the piece starts at a line start when the line is its first
  have hsb : A = [] → sb = true := by
    intro hA0
    rcases hstart with h | h | h
    · exact h
    · exfalso
      rw [hPL, hA0] at h
      have := congrArg List.length h
      simp only [List.length_append, List.length_nil] at this
      omega
    · exfalso
      rw [hPL, hA0] at h
      cases hL : x ++ l ++ y with
      | nil => exact hLne hL
      | cons z rest =>
        rw [hL] at h
        have hz : z = '\n' := by simpa using h
        exact hLhead z rest hL hz
  have hright : B ++ after = [] ∨ (B ++ after).head? = some '\n' := by
    cases B with
    | cons z B =>
      right
      rcases hB with h | h
      · exact List.noConfusion h
      · simpa using h
    | nil =>
      left
      by_contra hne0
      have hafter : after ≠ [] := by simpa using hne0
      rcases G3 hafter with h | h
      · have := h.1
        rw [hPL] at this
        have := congrArg List.length this
        simp only [List.length_append, List.length_nil] at this
        omega
      · rw [hPL, List.append_nil, List.getLast?_append_of_ne_nil _ hLne] at h
        exact hLn (List.mem_of_getLast?_eq_some h)
  have hLmem : (x ++ l ++ y) ∈ SplitNL s := by
    apply SplitNL_mem_of_decomp (before ++ A) (B ++ after)
    · rw [hs, hPL]; simp
    · exact hLn
    · cases A with
      | nil =>
        rw [List.append_nil]
        exact hbefore (hsb rfl)
      | cons z A =>
        right
        rw [List.getLast?_append_of_ne_nil _ (by simp)]
        rcases hA with h | h
        · exact List.noConfusion h
        · exact h
    · exact hright
  obtain ⟨v1, v2, hv, hv1, hv2⟩ := (delimLine_iff _).mp (hline _ hLmem hLtrim)
  have hbol : BolAfter sb A := by
    cases A with
    | nil => exact Or.inl ⟨rfl, hsb rfl⟩
    | cons z A =>
      right
      rcases hA with h | h
      · exact List.noConfusion h
      · exact h
  have hnone := G1 A ((x ++ l ++ y) ++ B) (by rw [hPL]; simp)
    (fun h0 => hLne (List.append_eq_nil.mp h0).1) hbol
  apply sectionSplitAt_of_delimAt _ hnone
  refine ⟨v1, v2 ++ (B ++ after), ?_, hv1, v2, B ++ after, rfl, hv2, hright⟩
  rw [hv]
  simp only [List.append_assoc, List.cons_append]

/-- C4 (amended): for every body text in which every line that trims to `---`
is a delimiter line, that is has nothing but runes of the regex class `\s`
(tab, form feed, carriage return, space) around the dashes, no chunk of `split`
contains a line that consists solely of `---` after trimming. -/
theorem split_no_delimiter_line (s : Str)
    (hline : ∀ l ∈ SplitNL s, TrimSpace l = "---".toList → delimLine l = true) :
    ∀ chunk ∈ split s, ∀ l ∈ SplitNL chunk, TrimSpace l ≠ "---".toList :=
  split_no_dash_line s hline

theorem split_no_delimiter_line_witness :
    (∀ l ∈ SplitNL "a b\n --- \n\tb\x0b\n---\r\nc".toList,
      TrimSpace l = "---".toList → delimLine l = true) ∧
    split "a b\n --- \n\tb\x0b\n---\r\nc".toList
      = ["a b".toList, "b".toList, "c".toList] ∧
    ∀ chunk ∈ split "a b\n --- \n\tb\x0b\n---\r\nc".toList, ∀ l ∈ SplitNL chunk,
      TrimSpace l ≠ "---".toList :=
  ⟨by decide, by decide,
   split_no_delimiter_line "a b\n --- \n\tb\x0b\n---\r\nc".toList (by decide)⟩

/-- C4 (counterexample): a vertical tab is trimmed by `strings.TrimSpace` but
is not in the regex class `\s`.  The text `a\n\v---\nb` is trimmed and has no
front matter, so `parse` hands it to `split` as it is; its second line trims
to `---`, the delimiter pattern does not match it, and the only chunk of
`split` is the whole text, second line included. -/
theorem split_vertical_tab_counterexample :
    docBody "a\n\x0b---\nb".toList = "a\n\x0b---\nb".toList ∧
    split "a\n\x0b---\nb".toList = ["a\n\x0b---\nb".toList] ∧
    SplitNL "a\n\x0b---\nb".toList = ["a".toList, "\x0b---".toList, "b".toList] ∧
    TrimSpace "\x0b---".toList = "---".toList ∧
    delimLine "\x0b---".toList = false := by
  decide

theorem splitScan_ne_nil (bol : Bool) (k : Nat) (s : Str) :
    ∃ P ps, splitScan bol k s = P :: ps := by
  obtain ⟨P, ps, _, h, _⟩ := splitScan_inOrder s bol k
  exact ⟨P, ps, h⟩

theorem splitScan_skip (bol : Bool) (k : Nat) (c : Char) (cs : Str) :
    splitScan bol (k + 1) (c :: cs) = splitScan (c == '\n') k cs := by
  simp [splitScan]

theorem splitScan_nobol (c : Char) (cs : Str) :
    splitScan false 0 (c :: cs) = consHead c (splitScan (c == '\n') 0 cs) := by
  conv_lhs => unfold splitScan
  simp

theorem splitScan_match (c : Char) (cs rest : Str)
    (h : sectionSplitAt (c :: cs) = some rest) :
    splitScan true 0 (c :: cs) = [] :: splitScan (c == '\n') (cs.length - rest.length) cs := by
  conv_lhs => unfold splitScan
  simp [h]

/-- Scanning a suffix of a solid chunk finds no delimiter: the whole suffix
goes into the current piece. -/
theorem splitScan_solid {c : Str} (hc : Trimmed c) (hs : Solid c) (tail : Str)
    (htail : tail = [] ∨ tail.head? = some '\n') (P : Str) (ps : List Str)
    (hP : splitScan false 0 tail = P :: ps) :
    ∀ (b a : Str) (bol : Bool), c = a ++ b → b ≠ [] →
      (bol = true → a = [] ∨ a.getLast? = some '\n') →
      splitScan bol 0 (b ++ tail) = (b ++ P) :: ps := by
  intro b
  induction b with
  | nil => intro a bol _ hb; exact absurd rfl hb
  | cons x b ih =>
    intro a bol hab _ hbol
    have hfail : (if bol = true then sectionSplitAt (x :: (b ++ tail)) else none) = none := by
      by_cases h : bol = true
      · rw [if_pos h]
        exact hs a (x :: b) tail hab (by simp) (hbol h) htail
      · rw [if_neg h]
    rw [List.cons_append]
    unfold splitScan
    rw [hfail]
    simp only []
    by_cases hb : b = []
    · subst hb
      have hx : isSpace x = false := hc.2 x (by rw [hab]; simp)
      have hxn : (x == '\n') = false := by
        rw [beq_eq_false_iff_ne]
        intro h0
        rw [h0, isSpace_newline] at hx
        exact Bool.noConfusion hx
      rw [List.nil_append, hxn, hP]
      rfl
    · have hab' : c = (a ++ [x]) ++ b := by rw [hab]; simp
      rw [ih (a ++ [x]) (x == '\n') hab' hb (fun h => Or.inr (by simpa using h))]
      rfl

/-- Scanning the separator `\n---\n` that `Join` puts before a chunk. -/
theorem splitScan_separator (x : Char) (rest : Str) (hx : reSpace x = false) :
    splitScan false 0 ("\n---\n".toList ++ x :: rest)
      = ['\n'] :: consHead '\n' (splitScan true 0 (x :: rest)) := by
  have hxn : x ≠ '\n' := by
    intro h0; rw [h0, reSpace_newline] at hx; exact Bool.noConfusion hx
  have hm : sectionSplitAt ('-' :: '-' :: '-' :: '\n' :: x :: rest) = some ('\n' :: x :: rest) := by
    rw [sectionSplitAt_eq, List.dropWhile_cons_of_neg (by simp [reSpace_dash]), kDash_dashes]
    unfold kEnd
    unfold reSpaceStar
    rw [if_pos reSpace_newline]
    unfold reSpaceStar
    simp [hx, reEndLine, hxn]
  show splitScan false 0 ('\n' :: '-' :: '-' :: '-' :: '\n' :: x :: rest) = _
  have h1 : (('\n' : Char) == '\n') = true := by decide
  have h3 : (('-' : Char) == '\n') = false := by decide
  have h2 : ('-' :: '-' :: '\n' :: x :: rest).length - ('\n' :: x :: rest).length = 1 + 1 := by
    simp
  rw [splitScan_nobol, h1, splitScan_match _ _ _ hm, h2, splitScan_skip, splitScan_skip, h3,
    splitScan_nobol, h1]
  rfl

theorem map_TrimSpace_consHead_newline (L : List Str) (hL : L ≠ []) :
    (consHead '\n' L).map TrimSpace = L.map TrimSpace := by
  cases L with
  | nil => exact absurd rfl hL
  | cons P ps =>
    simp only [consHead, List.map_cons]
    have : TrimSpace ('\n' :: P) = TrimSpace P :=
      TrimSpace_append_left (w := ['\n']) (s := P)
        (fun c hc => by rw [List.mem_singleton.mp hc]; exact isSpace_newline)
    rw [this]

/-- Joining solid trimmed chunks with `\n---\n` and splitting again returns the
chunks. -/
theorem split_Join_of_solid (cs : List Str)
    (h : ∀ c ∈ cs, c ≠ [] ∧ Trimmed c ∧ Solid c) :
    ((sectionSplit (Join "\n---\n".toList cs)).map TrimSpace).filter (fun t => decide (t ≠ []))
      = cs := by
  induction cs with
  | nil => decide
  | cons c cs ih =>
    obtain ⟨hne, htr, hsol⟩ := h c (List.mem_cons_self _ _)
    have ih' := ih (fun x hx => h x (List.mem_cons_of_mem _ hx))
    cases cs with
    | nil =>
      have hscan := splitScan_solid htr hsol [] (Or.inl rfl) [] [] (by simp [splitScan])
        c [] true (by simp) hne (fun _ => Or.inl rfl)
      simp only [List.append_nil] at hscan
      simp only [Join, sectionSplit, hscan, List.map_cons, List.map_nil]
      rw [TrimSpace_of_trimmed htr]
      simp [hne]
    | cons c2 rest =>
      obtain ⟨hne2, htr2, _⟩ := h c2 (by simp)
      obtain ⟨x, j, hj⟩ : ∃ x j, Join "\n---\n".toList (c2 :: rest) = x :: j ∧ reSpace x = false := by
        cases c2 with
        | nil => exact absurd rfl hne2
        | cons x c2 =>
          have hx : isSpace x = false := htr2.1 x rfl
          have hx' : reSpace x = false := by
            cases hr : reSpace x with
            | false => rfl
            | true => rw [reSpace_isSpace hr] at hx; exact Bool.noConfusion hx
          cases rest with
          | nil => exact ⟨x, c2, rfl, hx'⟩
          | cons c3 rest => exact ⟨x, _, rfl, hx'⟩
      obtain ⟨hj1, hj2⟩ := hj
      have hsep := splitScan_separator x j hj2
      have hscan := splitScan_solid htr hsol ("\n---\n".toList ++ x :: j) (Or.inr rfl) _ _ hsep
        c [] true (by simp) hne (fun _ => Or.inl rfl)
      have hJ : Join "\n---\n".toList (c :: c2 :: rest)
          = c ++ ("\n---\n".toList ++ x :: j) := by
        rw [← hj1]
        simp [Join]
      obtain ⟨Q, qs, hQ⟩ := splitScan_ne_nil true 0 (x :: j)
      rw [hJ]
      unfold sectionSplit at ih' ⊢
      rw [hscan, List.map_cons, map_TrimSpace_consHead_newline _ (by rw [hQ]; simp)]
      rw [hj1] at ih'
      have htc : TrimSpace (c ++ ['\n']) = c :=
        TrimSpace_of_decomp (l := []) (c := c) (t := ['\n']) (by simp) (by simp)
          (fun y hy => by rw [List.mem_singleton.mp hy]; exact isSpace_newline) htr
      rw [htc, List.filter_cons, ih']
      simp [hne]

/-- C6 (amended): for every body text none of whose chunks contains a
delimiter line (`---` with nothing but runes of the regex class `\s` around
it), and so in particular for every body text in which every line that trims
to `---` is a delimiter line, joining the chunks of `split` with `\n---\n` and
splitting the result again yields the same chunks. -/
theorem split_join_split (s : Str)
    (h : (∀ chunk ∈ split s, ∀ l ∈ SplitNL chunk, delimLine l = false) ∨
      (∀ l ∈ SplitNL s, TrimSpace l = "---".toList → delimLine l = true)) :
    split (Join "\n---\n".toList (split s)) = split s := by
  have hchunks : ∀ chunk ∈ split s, ∀ l ∈ SplitNL chunk, delimLine l = false := by
    rcases h with h | h
    · exact h
    · intro chunk hchunk l hl
      cases hd : delimLine l with
      | false => rfl
      | true => exact absurd (TrimSpace_delimLine hd) (split_no_dash_line s h chunk hchunk l hl)
  rw [split_eq (Join "\n---\n".toList (split s))]
  apply split_Join_of_solid
  intro c hc
  exact ⟨split_ne_nil hc, split_trimmed hc,
    solid_of_no_delimLine (split_trimmed hc) (hchunks c hc)⟩

theorem split_join_split_witness :
    (∀ chunk ∈ split "a\n\x0b---\nb\n --- \nc".toList, ∀ l ∈ SplitNL chunk,
      delimLine l = false) ∧
    split "a\n\x0b---\nb\n --- \nc".toList = ["a\n\x0b---\nb".toList, "c".toList] ∧
    split (Join "\n---\n".toList (split "a\n\x0b---\nb\n --- \nc".toList))
      = split "a\n\x0b---\nb\n --- \nc".toList :=
  ⟨by decide, by decide,
   split_join_split "a\n\x0b---\nb\n --- \nc".toList (Or.inl (by decide))⟩

/-- C6 (counterexample): the text `a\n---\n\v---` is trimmed and has no front
matter, so `parse` hands it to `split` as it is; its last line is no delimiter
for the pattern (a vertical tab is not in the class `\s`) and is trimmed to the
chunk `---`; joined and split again, that chunk is a delimiter line and only
the chunk `a` is left. -/
theorem rejoin_vertical_tab_counterexample :
    docBody "a\n---\n\x0b---".toList = "a\n---\n\x0b---".toList ∧
    split "a\n---\n\x0b---".toList = ["a".toList, "---".toList] ∧
    Join "\n---\n".toList (split "a\n---\n\x0b---".toList) = "a\n---\n---".toList ∧
    split (Join "\n---\n".toList (split "a\n---\n\x0b---".toList)) = ["a".toList] ∧
    split (Join "\n---\n".toList (split "a\n---\n\x0b---".toList))
      ≠ split "a\n---\n\x0b---".toList := by
  decide

/-! ## Deck assembly and page data -/

theorem buildSlides_titles {R : Type} (toHTML : R → Str → Str × R) (r : R)
    (chunks : List Str) :
    (buildSlides toHTML r chunks).1.map Slide.T = chunks.map (fun c => (slideParts c).1) := by
  induction chunks generalizing r with
  | nil => rfl
  | cons c cs ih =>
    simp only [buildSlides, List.map_cons, ih]
    rfl

/-- C11: the slides of `parse` are the slides built from the chunks of
`split(body)`, one per chunk and in the same order: the two lists have the same
length, and the slide at every position is the one built from the chunk at that
position, with the renderer in the state in which the chunks before it left
it (the state `parse` was started in, for the first chunk); the titles are
those of the chunks, whatever the renderer does. -/
theorem parse_slides_follow_chunks {R : Type} (toHTML : R → Str → Str × R) (r : R)
    (D : Str) :
    (parse toHTML r D).1.S.length = (split (docBody D)).length ∧
    (∀ (i : Nat) (chunk : Str), (split (docBody D))[i]? = some chunk →
      (parse toHTML r D).1.S[i]? =
        some (buildSlide toHTML
          (buildSlides toHTML r ((split (docBody D)).take i)).2 chunk).1) ∧
    (∀ i : Nat, (split (docBody D))[i]? = none → (parse toHTML r D).1.S[i]? = none) ∧
    (parse toHTML r D).1.S.map Slide.T
      = (split (docBody D)).map (fun chunk => (slideParts chunk).1) ∧
    (parse toHTML r D).2 = (buildSlides toHTML r (split (docBody D))).2 := by
  rw [parse_slides, parse_state]
  refine ⟨buildSlides_length _ _ _, fun i chunk h => buildSlides_getElem? _ _ _ i chunk h,
    ?_, buildSlides_titles _ _ _, rfl⟩
  intro i h
  rw [List.getElem?_eq_none_iff] at h ⊢
  rw [buildSlides_length]
  exact h

theorem renderSlides_length (tbl : Char → Char) (l : List Slide) :
    ∀ k, (renderSlides tbl k l).length = l.length := by
  induction l with
  | nil => intro k; rfl
  | cons s rest ih => intro k; simp [renderSlides, ih]

theorem renderSlides_getElem? (tbl : Char → Char) (l : List Slide) :
    ∀ (k i : Nat), (renderSlides tbl k l)[i]? = l[i]?.map (fun s =>
      { Title := s.T, Body := s.C,
        ID := if slug tbl s.T = [] then "slide-".toList ++ Itoa (k + i + 1) else slug tbl s.T,
        Current := k + i == 0 }) := by
  induction l with
  | nil => intro k i; simp [renderSlides]
  | cons s rest ih =>
    intro k i
    cases i with
    | zero => simp [renderSlides]
    | succ i =>
      simp only [renderSlides, List.getElem?_cons_succ]
      rw [ih (k + 1) i]
      have : k + 1 + i = k + (i + 1) := by omega
      rw [this]

theorem renderSlides_no_current (tbl : Char → Char) (l : List Slide) :
    ∀ k, (renderSlides tbl (k + 1) l).filter (fun p => p.Current) = [] := by
  induction l with
  | nil => intro k; rfl
  | cons s rest ih =>
    intro k
    simp only [renderSlides]
    rw [List.filter_cons_of_neg (by simp), ih]

theorem toDigitsCore_val (fuel : Nat) : ∀ (n : Nat) (ds : Str), n < fuel →
    (Nat.toDigitsCore 10 fuel n ds).foldl (fun a c => 10 * a + (c.toNat - 48)) 0
      = ds.foldl (fun a c => 10 * a + (c.toNat - 48)) n := by
  induction fuel with
  | zero => intro n ds h; omega
  | succ fuel ih =>
    intro n ds h
    have hd : (Nat.digitChar (n % 10)).toNat - 48 = n % 10 := by
      have hlt : n % 10 < 10 := Nat.mod_lt _ (by decide)
      generalize n % 10 = m at hlt
      interval_cases m <;> rfl
    simp only [Nat.toDigitsCore]
    split
    · next h0 =>
      simp only [List.foldl_cons, Nat.mul_zero, Nat.zero_add, hd]
      have : n % 10 = n := by omega
      rw [this]
    · next h0 =>
      rw [ih (n / 10) _ (by omega)]
      simp only [List.foldl_cons, hd]
      have : 10 * (n / 10) + n % 10 = n := Nat.div_add_mod n 10
      rw [this]

theorem digitsVal_Itoa (n : Nat) : digitsVal (Itoa n) = n := by
  unfold digitsVal Itoa Nat.toDigits
  rw [toDigitsCore_val (n + 1) n [] (by omega)]
  rfl

theorem Itoa_injective {m n : Nat} (h : Itoa m = Itoa n) : m = n := by
  have := congrArg digitsVal h
  rwa [digitsVal_Itoa, digitsVal_Itoa] at this

theorem slug_or_fallback_ne_nil (tbl : Char → Char) (t : Str) (n : Nat) :
    (if slug tbl t = [] then "slide-".toList ++ Itoa n else slug tbl t) ≠ [] := by
  split
  · simp
  · assumption

/-- C14: for every deck and every position `i` (0-based), the page slide at
`i` has as ID the slug of the title of deck slide `i` when that slug is not
empty and otherwise `slide-` followed by the decimal numeral of `i + 1`; the ID
is never empty, and the page slide carries the title and the body of deck
slide `i`.  The page has as many slides as the deck. -/
theorem render_slide_ids (tbl : Char → Char) (d : Deck) :
    (renderData tbl d).Slides.length = d.S.length ∧
    ∀ (i : Nat) (s : Slide), d.S[i]? = some s →
      ∃ p, (renderData tbl d).Slides[i]? = some p ∧
        p.ID = (if slug tbl s.T = [] then "slide-".toList ++ Itoa (i + 1) else slug tbl s.T) ∧
        digitsVal (Itoa (i + 1)) = i + 1 ∧
        p.ID ≠ [] ∧ p.Title = s.T ∧ p.Body = s.C := by
  refine ⟨renderSlides_length tbl d.S 0, ?_⟩
  intro i s hs
  refine ⟨{ Title := s.T, Body := s.C,
             ID := if slug tbl s.T = [] then "slide-".toList ++ Itoa (i + 1) else slug tbl s.T,
             Current := i == 0 }, ?_, rfl, digitsVal_Itoa _,
           slug_or_fallback_ne_nil tbl s.T (i + 1), rfl, rfl⟩
  show (renderSlides tbl 0 d.S)[i]? = _
  rw [renderSlides_getElem?, hs]
  simp

/-- C15: for every deck with at least one slide the page data marks exactly one
slide as current, the one at position 0; for a deck without slides the page has
no slide and none is current. -/
theorem render_current_slide (tbl : Char → Char) (d : Deck) :
    (∀ (i : Nat) (p : PageSlide), (renderData tbl d).Slides[i]? = some p →
      (p.Current = true ↔ i = 0)) ∧
    (d.S ≠ [] →
      ((renderData tbl d).Slides.filter (fun p => p.Current)).length = 1 ∧
      ∃ p, (renderData tbl d).Slides[0]? = some p ∧ p.Current = true) ∧
    (d.S = [] → (renderData tbl d).Slides = []) := by
  refine ⟨?_, ?_, ?_⟩
  · intro i p hp
    change (renderSlides tbl 0 d.S)[i]? = some p at hp
    rw [renderSlides_getElem?] at hp
    cases hs : d.S[i]? with
    | none => rw [hs] at hp; simp at hp
    | some s =>
      rw [hs] at hp
      simp only [Option.map_some', Option.some.injEq] at hp
      rw [← hp]
      simp
  · intro hne
    cases hS : d.S with
    | nil => exact absurd hS hne
    | cons s rest =>
      simp only [renderData, hS, renderSlides]
      constructor
      · rw [List.filter_cons_of_pos (by simp), renderSlides_no_current]
        rfl
      · exact ⟨PageSlide.mk s.T s.C
          (if slug tbl s.T = [] then "slide-".toList ++ Itoa (0 + 1) else slug tbl s.T) (0 == 0),
          by simp, rfl⟩
  · intro h
    simp [renderData, h, renderSlides]

theorem ReplaceAllCRLF_spaces : ∀ (s : Str), (∀ c ∈ s, isSpace c = true) →
    ∀ c ∈ ReplaceAllCRLF s, isSpace c = true
  | [], _ => by simp [ReplaceAllCRLF]
  | [a], h => by simpa [ReplaceAllCRLF] using h
  | a :: b :: rest, h => by
    have ih1 := ReplaceAllCRLF_spaces rest (fun c hc => h c (by simp [hc]))
    have ih2 := ReplaceAllCRLF_spaces (b :: rest) (fun c hc => h c (List.mem_cons_of_mem _ hc))
    unfold ReplaceAllCRLF
    split
    · intro c hc
      rcases List.mem_cons.mp hc with h1 | h1
      · rw [h1]; exact isSpace_newline
      · exact ih1 c h1
    · intro c hc
      rcases List.mem_cons.mp hc with h1 | h1
      · rw [h1]; exact h a (List.mem_cons_self _ _)
      · exact ih2 c h1

/-- C17: for every document made only of space runes (the empty document
included), `parse` returns the deck with empty title, empty author and no
slide, without calling the converter, and the page built from it has no
slide. -/
theorem parse_blank_document {R : Type} (toHTML : R → Str → Str × R) (r : R)
    (tbl : Char → Char) (D : Str) (h : ∀ c ∈ D, isSpace c = true) :
    parse toHTML r D = ({ T := [], A := [], S := [] }, r) ∧
    (renderData tbl (parse toHTML r D).1).Slides = [] := by
  have hdoc : docText D = [] :=
    (TrimSpace_eq_nil_iff _).mpr (ReplaceAllCRLF_spaces D h)
  have hfm : frontMatter (docText D) = none := by rw [hdoc]; rfl
  have hbody : docBody D = [] := by
    unfold docBody
    rw [hfm, hdoc]
  have hp : parse toHTML r D = ({ T := [], A := [], S := [] }, r) := by
    rw [parse_unfold, hfm, hbody]
    rfl
  refine ⟨hp, ?_⟩
  rw [hp]
  rfl

theorem parse_blank_document_witness :
    (∀ c ∈ " \n\t\r\n ".toList, isSpace c = true) ∧
    parse sampleHTML 0 " \n\t\r\n ".toList = ({ T := [], A := [], S := [] }, 0) :=
  ⟨by decide, (parse_blank_document sampleHTML 0 id " \n\t\r\n ".toList (by decide)).1⟩

theorem renderData_slide (tbl : Char → Char) (d : Deck) (i : Nat) (s : Slide) (p : PageSlide)
    (hs : d.S[i]? = some s) (hp : (renderData tbl d).Slides[i]? = some p) :
    p.ID = (if slug tbl s.T = [] then "slide-".toList ++ Itoa (i + 1) else slug tbl s.T) := by
  change (renderSlides tbl 0 d.S)[i]? = some p at hp
  rw [renderSlides_getElem?, hs] at hp
  simp only [Option.map_some', Option.some.injEq] at hp
  rw [← hp]
  simp

theorem fallback_ne_nil (n : Nat) : "slide-".toList ++ Itoa n ≠ [] := by simp

theorem fallback_injective {m n : Nat}
    (h : "slide-".toList ++ Itoa (m + 1) = "slide-".toList ++ Itoa (n + 1)) : m = n := by
  have := Itoa_injective (List.append_cancel_left h)
  omega

/-- C12 (amended): for every deck and all positions `i ≠ j`, the page slides
`i` and `j` have the same ID exactly when the two titles have the same
non-empty slug, or one title has an empty slug and the slug of the other title
is the positional ID `slide-(k+1)` of the first; in every other case the two
IDs differ, in particular when both slugs are empty. -/
theorem render_ids_equal_iff (tbl : Char → Char) (d : Deck) (i j : Nat) (si sj : Slide)
    (p q : PageSlide) (hij : i ≠ j)
    (hsi : d.S[i]? = some si) (hsj : d.S[j]? = some sj)
    (hp : (renderData tbl d).Slides[i]? = some p)
    (hq : (renderData tbl d).Slides[j]? = some q) :
    (p.ID = q.ID ↔
      (slug tbl si.T ≠ [] ∧ slug tbl si.T = slug tbl sj.T) ∨
      (slug tbl si.T = [] ∧ slug tbl sj.T = "slide-".toList ++ Itoa (i + 1)) ∨
      (slug tbl sj.T = [] ∧ slug tbl si.T = "slide-".toList ++ Itoa (j + 1))) ∧
    (slug tbl si.T = [] → slug tbl sj.T = [] → p.ID ≠ q.ID) := by
  rw [renderData_slide tbl d i si p hsi hp, renderData_slide tbl d j sj q hsj hq]
  by_cases hi : slug tbl si.T = [] <;> by_cases hj : slug tbl sj.T = []
  · rw [if_pos hi, if_pos hj]
    refine ⟨?_, fun _ _ h => hij (fallback_injective h)⟩
    constructor
    · intro h; exact absurd (fallback_injective h) hij
    · rintro (h | h | h)
      · exact absurd hi h.1
      · exact absurd (h.2.symm.trans hj) (fallback_ne_nil _)
      · exact absurd (h.2.symm.trans hi) (fallback_ne_nil _)
  · rw [if_pos hi, if_neg hj]
    refine ⟨?_, fun _ h => absurd h hj⟩
    constructor
    · intro h; exact Or.inr (Or.inl ⟨hi, h.symm⟩)
    · rintro (h | h | h)
      · exact absurd hi h.1
      · exact h.2.symm
      · exact absurd h.1 hj
  · rw [if_neg hi, if_pos hj]
    refine ⟨?_, fun h => absurd h hi⟩
    constructor
    · intro h; exact Or.inr (Or.inr ⟨hj, h⟩)
    · rintro (h | h | h)
      · exact absurd (h.2.trans hj) h.1
      · exact absurd h.1 hi
      · exact h.2
  · rw [if_neg hi, if_neg hj]
    refine ⟨?_, fun h => absurd h hi⟩
    constructor
    · intro h; exact Or.inl ⟨hi, h⟩
    · rintro (h | h | h)
      · exact h.2
      · exact absurd h.1 hi
      · exact absurd h.1 hj

theorem render_ids_equal_iff_witness :
    (renderData id (parse sampleHTML 0 "# A\n---\n#\n---\n# B".toList).1).Slides.map (fun p => p.ID)
      = ["a".toList, "slide-2".toList, "b".toList] ∧
    ("a".toList = "slide-2".toList ↔
      (slug id "A".toList ≠ [] ∧ slug id "A".toList = slug id [])
      ∨ (slug id "A".toList = [] ∧ slug id [] = "slide-".toList ++ Itoa (0 + 1))
      ∨ (slug id [] = [] ∧ slug id "A".toList = "slide-".toList ++ Itoa (1 + 1))) :=
  ⟨by decide,
   (render_ids_equal_iff id (parse sampleHTML 0 "# A\n---\n#\n---\n# B".toList).1 0 1
      ⟨"A".toList, "A".toList⟩ ⟨[], []⟩
      ⟨"A".toList, "A".toList, "a".toList, true⟩ ⟨[], [], "slide-2".toList, false⟩
      (by decide) (by decide) (by decide) (by decide) (by decide)).1⟩

/-- C12 (counterexample): the document `# A\n---\n# A` gives two slides, and
`render` assigns both the ID `a`. -/
theorem render_duplicate_ids_counterexample :
    (parse sampleHTML 0 "# A\n---\n# A".toList).1.S.length = 2 ∧
    (renderData id (parse sampleHTML 0 "# A\n---\n# A".toList).1).Slides.map (fun p => p.ID)
      = ["a".toList, "a".toList] := by
  decide

/-- C13 (amended): for every deck and every two slides at different positions
with identical titles, `render` assigns them identical IDs when the slug of the
title is not empty; when it is empty the two slides get their positional IDs
`slide-(i+1)` and `slide-(j+1)`, which differ. -/
theorem render_same_title_ids (tbl : Char → Char) (d : Deck) (i j : Nat) (si sj : Slide)
    (p q : PageSlide) (hij : i ≠ j)
    (hsi : d.S[i]? = some si) (hsj : d.S[j]? = some sj) (ht : si.T = sj.T)
    (hp : (renderData tbl d).Slides[i]? = some p)
    (hq : (renderData tbl d).Slides[j]? = some q) :
    (slug tbl si.T ≠ [] → p.ID = q.ID ∧ p.ID = slug tbl si.T) ∧
    (slug tbl si.T = [] →
      p.ID = "slide-".toList ++ Itoa (i + 1) ∧ q.ID = "slide-".toList ++ Itoa (j + 1) ∧
      p.ID ≠ q.ID) := by
  rw [renderData_slide tbl d i si p hsi hp, renderData_slide tbl d j sj q hsj hq, ← ht]
  constructor
  · intro h
    rw [if_neg h, if_neg h]
    exact ⟨rfl, rfl⟩
  · intro h
    rw [if_pos h, if_pos h]
    exact ⟨rfl, rfl, fun h' => hij (fallback_injective h')⟩

theorem render_same_title_ids_witness :
    (renderData id (parse sampleHTML 0 "# A\n---\n# A".toList).1).Slides.map (fun p => p.ID)
      = ["a".toList, "a".toList] ∧
    ("a".toList = "a".toList ∧ "a".toList = slug id "A".toList) :=
  ⟨by decide,
   (render_same_title_ids id (parse sampleHTML 0 "# A\n---\n# A".toList).1 0 1
      ⟨"A".toList, "A".toList⟩ ⟨"A".toList, "\nA".toList⟩
      ⟨"A".toList, "A".toList, "a".toList, true⟩ ⟨"A".toList, "\nA".toList, "a".toList, false⟩
      (by decide) (by decide) (by decide) rfl (by decide) (by decide)).1 (by decide)⟩

/-- C13 (counterexample): the document `#\n---\n#` gives two slides with the
same (empty) title, and `render` assigns them the different IDs `slide-1` and
`slide-2`. -/
theorem render_empty_titles_counterexample :
    (parse sampleHTML 0 "#\n---\n#".toList).1.S.map (fun s => s.T) = [[], []] ∧
    (renderData id (parse sampleHTML 0 "#\n---\n#".toList).1).Slides.map (fun p => p.ID)
      = ["slide-1".toList, "slide-2".toList] := by
  decide

theorem foldl_metaLine_author (post : List Str) (st : Str × Str)
    (h : ∀ l ∈ post, EqualFold ((TrimSpace l).take 7) "author:".toList = false) :
    (post.foldl metaLine st).2 = st.2 := by
  induction post generalizing st with
  | nil => rfl
  | cons l ls ih =>
    rw [List.foldl_cons, ih _ (fun x hx => h x (List.mem_cons_of_mem _ hx))]
    have := h l (List.mem_cons_self _ _)
    simp only [metaLine, this, Bool.false_eq_true, if_false]

/-- The author returned by `meta` is the trimmed value of the last `author:`
line. -/
theorem meta_author (block : Str) (pre post : List Str) (line key Y : Str)
    (hlines : SplitNL block = pre ++ line :: post)
    (hline : TrimSpace line = key ++ Y)
    (hkey : EqualFold key "author:".toList = true)
    (hlast : ∀ l ∈ post, EqualFold ((TrimSpace l).take 7) "author:".toList = false) :
    («meta» block).2 = TrimSpace Y := by
  have hlen : key.length = 7 := by
    have := EqualFold_length hkey
    simpa using this
  unfold «meta»
  rw [hlines, List.foldl_append, List.foldl_cons, foldl_metaLine_author _ _ hlast]
  have h1 : (key ++ Y).take 7 = key := by
    rw [List.take_append_of_le_length (by omega), List.take_of_length_le (by omega)]
  have h2 : (key ++ Y).drop 7 = Y := by
    rw [← hlen, List.drop_left]
  simp only [metaLine, hline, h1, h2, hkey, if_true]

theorem split_at_index {lines : List Str} {i : Nat} {x : Str} (h : lines[i]? = some x) :
    ∃ pre post, lines = pre ++ x :: post ∧
      ∀ l ∈ post, ∃ k, k ≠ i ∧ lines[k]? = some l := by
  have hi : i < lines.length := by
    by_contra hn
    rw [List.getElem?_eq_none (by omega)] at h
    exact Option.noConfusion h
  have hx : lines[i] = x := by
    rw [List.getElem?_eq_getElem hi] at h
    exact Option.some.inj h
  refine ⟨lines.take i, lines.drop (i + 1), ?_, ?_⟩
  · rw [← hx, ← List.drop_eq_getElem_cons hi, List.take_append_drop]
  · intro l hl
    obtain ⟨n, hn⟩ := List.mem_iff_getElem?.mp hl
    rw [List.getElem?_drop] at hn
    exact ⟨i + 1 + n, by omega, hn⟩

/-- C16: for every front-matter block text in which exactly one line begins
(after trimming, case-insensitively) with `title:`, followed by `X`, and
exactly one line begins with `author:`, followed by `Y`, in either order and
among any other lines, `meta` returns `X` trimmed and `Y` trimmed. -/
theorem meta_title_and_author (block : Str) (i j : Nat) (tl al kt X ka Y : Str)
    (ht : (SplitNL block)[i]? = some tl) (ha : (SplitNL block)[j]? = some al)
    (htl : TrimSpace tl = kt ++ X) (hkt : EqualFold kt "title:".toList = true)
    (hal : TrimSpace al = ka ++ Y) (hka : EqualFold ka "author:".toList = true)
    (hot : ∀ (k : Nat) (l : Str), k ≠ i → (SplitNL block)[k]? = some l →
      EqualFold ((TrimSpace l).take 6) "title:".toList = false)
    (hoa : ∀ (k : Nat) (l : Str), k ≠ j → (SplitNL block)[k]? = some l →
      EqualFold ((TrimSpace l).take 7) "author:".toList = false) :
    «meta» block = (TrimSpace X, TrimSpace Y) := by
  obtain ⟨pre1, post1, h1, h1'⟩ := split_at_index ht
  obtain ⟨pre2, post2, h2, h2'⟩ := split_at_index ha
  have e1 := meta_title block pre1 post1 tl kt X h1 htl hkt
    (fun l hl => by obtain ⟨k, hk, hkl⟩ := h1' l hl; exact hot k l hk hkl)
  have e2 := meta_author block pre2 post2 al ka Y h2 hal hka
    (fun l hl => by obtain ⟨k, hk, hkl⟩ := h2' l hl; exact hoa k l hk hkl)
  exact Prod.ext e1 e2

theorem meta_title_and_author_witness :
    SplitNL "# draft\nAuthor: A. Writer \n\nTITLE:  Demo\nkey: v".toList
      = ["# draft".toList, "Author: A. Writer ".toList, [], "TITLE:  Demo".toList,
         "key: v".toList] ∧
    «meta» "# draft\nAuthor: A. Writer \n\nTITLE:  Demo\nkey: v".toList
      = ("Demo".toList, "A. Writer".toList) :=
  ⟨by decide,
   meta_title_and_author "# draft\nAuthor: A. Writer \n\nTITLE:  Demo\nkey: v".toList 3 1
     "TITLE:  Demo".toList "Author: A. Writer ".toList
     "TITLE:".toList "  Demo".toList "Author:".toList " A. Writer".toList
     (by decide) (by decide) (by decide) (by decide) (by decide) (by decide)
     (by
       intro k l hk hl
       have hk5 : k < 5 := by
         by_contra hn
         rw [List.getElem?_eq_none (by simpa using Nat.le_of_not_lt hn)] at hl
         exact Option.noConfusion hl
       interval_cases k
       · injection hl with hl; rw [← hl]; decide
       · injection hl with hl; rw [← hl]; decide
       · injection hl with hl; rw [← hl]; decide
       · exact absurd rfl hk
       · injection hl with hl; rw [← hl]; decide)
     (by
       intro k l hk hl
       have hk5 : k < 5 := by
         by_contra hn
         rw [List.getElem?_eq_none (by simpa using Nat.le_of_not_lt hn)] at hl
         exact Option.noConfusion hl
       interval_cases k
       · injection hl with hl; rw [← hl]; decide
       · exact absurd rfl hk
       · injection hl with hl; rw [← hl]; decide
       · injection hl with hl; rw [← hl]; decide
       · injection hl with hl; rw [← hl]; decide)⟩

/-- C18: the end-to-end example.  For a converter that returns non-blank HTML
for the two body texts, `parse` returns the deck with title `Demo`, author
`A. Writer` and the two slides `Welcome` (body: conversion of `Hello there`)
and `Second Slide` (body: conversion of `Second Slide\nMore text`, made with
the renderer in the state that the first conversion left); these are the only
two conversions; the page data gives slide 0 the ID `welcome` and marks it
current, and gives slide 1 the ID `second-slide` and marks it not current. -/
theorem parse_render_example {R : Type} (toHTML : R → Str → Str × R) (r : R)
    (tbl : Char → Char)
    (h1 : TrimSpace (md toHTML r "Hello there".toList).1 ≠ [])
    (h2 : TrimSpace (md toHTML (md toHTML r "Hello there".toList).2
            "Second Slide\nMore text".toList).1 ≠ []) :
    parse toHTML r
        "---\ntitle: Demo\nauthor: A. Writer\n---\n# Welcome\nHello there\n\n---\nSecond Slide\nMore text".toList
      = ({ T := "Demo".toList, A := "A. Writer".toList,
           S := [{ T := "Welcome".toList, C := (md toHTML r "Hello there".toList).1 },
                 { T := "Second Slide".toList,
                   C := (md toHTML (md toHTML r "Hello there".toList).2
                          "Second Slide\nMore text".toList).1 }] },
         (md toHTML (md toHTML r "Hello there".toList).2
            "Second Slide\nMore text".toList).2) ∧
    (renderData tbl (parse toHTML r
        "---\ntitle: Demo\nauthor: A. Writer\n---\n# Welcome\nHello there\n\n---\nSecond Slide\nMore text".toList).1).Slides
      = [{ Title := "Welcome".toList, Body := (md toHTML r "Hello there".toList).1,
           ID := "welcome".toList, Current := true },
         { Title := "Second Slide".toList,
           Body := (md toHTML (md toHTML r "Hello there".toList).2
                      "Second Slide\nMore text".toList).1,
           ID := "second-slide".toList, Current := false }] := by
  have hfm : frontMatter (docText
      "---\ntitle: Demo\nauthor: A. Writer\n---\n# Welcome\nHello there\n\n---\nSecond Slide\nMore text".toList)
      = some ("title: Demo\nauthor: A. Writer".toList,
          "# Welcome\nHello there\n\n---\nSecond Slide\nMore text".toList) := by decide
  have hmeta : «meta» "title: Demo\nauthor: A. Writer".toList
      = ("Demo".toList, "A. Writer".toList) := by decide
  have hsplit : split (docBody
      "---\ntitle: Demo\nauthor: A. Writer\n---\n# Welcome\nHello there\n\n---\nSecond Slide\nMore text".toList)
      = ["# Welcome\nHello there".toList, "Second Slide\nMore text".toList] := by decide
  have hs0 : buildSlide toHTML r "# Welcome\nHello there".toList
      = ({ T := "Welcome".toList, C := (md toHTML r "Hello there".toList).1 },
         (md toHTML r "Hello there".toList).2) :=
    buildSlide_of_hash toHTML r "# Welcome\nHello there".toList (by decide) h1
  have hs1 : buildSlide toHTML (md toHTML r "Hello there".toList).2
        "Second Slide\nMore text".toList
      = ({ T := "Second Slide".toList,
           C := (md toHTML (md toHTML r "Hello there".toList).2
                  "Second Slide\nMore text".toList).1 },
         (md toHTML (md toHTML r "Hello there".toList).2
            "Second Slide\nMore text".toList).2) :=
    buildSlide_of_plain toHTML _ "Second Slide\nMore text".toList (by decide) h2
  have hp : parse toHTML r
        "---\ntitle: Demo\nauthor: A. Writer\n---\n# Welcome\nHello there\n\n---\nSecond Slide\nMore text".toList
      = ({ T := "Demo".toList, A := "A. Writer".toList,
           S := [{ T := "Welcome".toList, C := (md toHTML r "Hello there".toList).1 },
                 { T := "Second Slide".toList,
                   C := (md toHTML (md toHTML r "Hello there".toList).2
                          "Second Slide\nMore text".toList).1 }] },
         (md toHTML (md toHTML r "Hello there".toList).2
            "Second Slide\nMore text".toList).2) := by
    rw [parse_unfold, hfm, hsplit]
    simp only [hmeta, buildSlides, hs0, hs1]
    rfl
  refine ⟨hp, ?_⟩
  rw [hp]
  rfl

theorem parse_render_example_witness :
    TrimSpace (md sampleHTML 0 "Hello there".toList).1 ≠ [] ∧
    TrimSpace (md sampleHTML (md sampleHTML 0 "Hello there".toList).2
      "Second Slide\nMore text".toList).1 ≠ [] ∧
    (renderData id (parse sampleHTML 0
        "---\ntitle: Demo\nauthor: A. Writer\n---\n# Welcome\nHello there\n\n---\nSecond Slide\nMore text".toList).1).Slides
      = [{ Title := "Welcome".toList, Body := (md sampleHTML 0 "Hello there".toList).1,
           ID := "welcome".toList, Current := true },
         { Title := "Second Slide".toList,
           Body := (md sampleHTML (md sampleHTML 0 "Hello there".toList).2
                      "Second Slide\nMore text".toList).1,
           ID := "second-slide".toList, Current := false }] ∧
    (md sampleHTML (md sampleHTML 0 "Hello there".toList).2
        "Second Slide\nMore text".toList) = ("\nSecond Slide\nMore text".toList, 2) :=
  ⟨by decide, by decide, (parse_render_example sampleHTML 0 id (by decide) (by decide)).2,
   by decide⟩

theorem chunkHead_ne_nil_of_trimmed {chunk : Str} (hne : chunk ≠ []) (htr : Trimmed chunk) :
    chunkHead chunk ≠ [] := by
  cases chunk with
  | nil => exact absurd rfl hne
  | cons x rest =>
    have hx : isSpace x = false := htr.1 x rfl
    have hxn : x ≠ '\n' := by
      intro h0; rw [h0, isSpace_newline] at hx; exact Bool.noConfusion hx
    unfold chunkHead
    unfold SplitNL
    rw [if_neg hxn]
    obtain ⟨p, ps, hp⟩ : ∃ p ps, SplitNL rest = p :: ps := by
      cases h : SplitNL rest with
      | nil => exact absurd h (SplitNL_ne_nil rest)
      | cons p ps => exact ⟨p, ps, rfl⟩
    rw [hp]
    simp only [consHead, List.headD_cons]
    intro h0
    have := (TrimSpace_eq_nil_iff _).mp h0 x (List.mem_cons_self _ _)
    rw [hx] at this
    exact Bool.noConfusion this

/-- C19: in `parse`, the trimmed first line of every chunk that reaches the
slide builder is not empty, so the branch for an empty head is never taken;
and for every document, the title of a slide is empty exactly when the trimmed
first line of its chunk starts with `#` and has only space runes left once its
leading `#` and space runes are removed, as for `#`, `###` and `# # #`.  The
slide at position `i` is the one built from chunk `i`, with the renderer in
the state that the chunks before it left. -/
theorem slide_title_empty_iff {R : Type} (toHTML : R → Str → Str × R) (r : R) (D : Str) :
    (∀ (i : Nat) (slide : Slide), (parse toHTML r D).1.S[i]? = some slide →
      ∃ chunk, (split (docBody D))[i]? = some chunk ∧
        slide = (buildSlide toHTML
          (buildSlides toHTML r ((split (docBody D)).take i)).2 chunk).1 ∧
        chunkHead chunk ≠ [] ∧
        (slide.T = [] ↔
          HasPrefixHash (chunkHead chunk) = true ∧
          ∀ c ∈ TrimLeftHashSpace (chunkHead chunk), isSpace c = true)) ∧
    (∀ chunk ∈ ["#".toList, "###".toList, "# # #".toList],
      HasPrefixHash (chunkHead chunk) = true ∧ ∀ r0 : R, (buildSlide toHTML r0 chunk).1.T = []) := by
  constructor
  · intro i slide hs
    rw [parse_slides] at hs
    cases hc : (split (docBody D))[i]? with
    | none =>
      have hlen := buildSlides_length toHTML r (split (docBody D))
      rw [List.getElem?_eq_none_iff] at hc
      have : (buildSlides toHTML r (split (docBody D))).1[i]? = none := by
        rw [List.getElem?_eq_none_iff, hlen]; exact hc
      rw [this] at hs
      exact Option.noConfusion hs
    | some chunk =>
      rw [buildSlides_getElem? toHTML r _ i chunk hc] at hs
      have hslide : slide = (buildSlide toHTML
          (buildSlides toHTML r ((split (docBody D)).take i)).2 chunk).1 :=
        (Option.some.inj hs).symm
      have hmem : chunk ∈ split (docBody D) := List.mem_iff_getElem?.mpr ⟨i, hc⟩
      have hhead : chunkHead chunk ≠ [] :=
        chunkHead_ne_nil_of_trimmed (split_ne_nil hmem) (split_trimmed hmem)
      refine ⟨chunk, rfl, hslide, hhead, ?_⟩
      rw [hslide]
      cases hh : HasPrefixHash (chunkHead chunk) with
      | true =>
        rw [buildSlide_title_of_hash toHTML _ chunk hh, TrimSpace_eq_nil_iff]
        simp
      | false =>
        rw [buildSlide_title_of_plain toHTML _ chunk hh]
        constructor
        · intro h0; exact absurd h0 hhead
        · intro h0; exact Bool.noConfusion h0.1
  · intro chunk hchunk
    simp only [List.mem_cons, List.mem_singleton, List.not_mem_nil, or_false] at hchunk
    rcases hchunk with h | h | h <;> subst h
    · exact ⟨by decide, fun r0 => by rw [buildSlide_title_of_hash toHTML r0 _ (by decide)]; decide⟩
    · exact ⟨by decide, fun r0 => by rw [buildSlide_title_of_hash toHTML r0 _ (by decide)]; decide⟩
    · exact ⟨by decide, fun r0 => by rw [buildSlide_title_of_hash toHTML r0 _ (by decide)]; decide⟩

/-! ## Line-end normalisation and lines -/

theorem SplitNL_dash_prefix {x : Str} (h : "---".toList <+: x) :
    ∃ l ∈ SplitNL x, "---".toList <+: l := by
  obtain ⟨r, hr⟩ := h
  subst hr
  obtain ⟨p, ps, hp⟩ : ∃ p ps, SplitNL r = p :: ps := by
    cases h : SplitNL r with
    | nil => exact absurd h (SplitNL_ne_nil r)
    | cons p ps => exact ⟨p, ps, rfl⟩
  refine ⟨'-' :: '-' :: '-' :: p, ?_, ⟨p, rfl⟩⟩
  show _ ∈ SplitNL ('-' :: '-' :: '-' :: r)
  have hd : ('-' : Char) ≠ '\n' := by decide
  simp [SplitNL, hd, hp, consHead]

/-- A line after a newline that begins with `---` is a line of the text. -/
theorem SplitNL_dash_after_newline (u r : Str) :
    ∃ l ∈ SplitNL (u ++ '\n' :: '-' :: '-' :: '-' :: r), "---".toList <+: l := by
  obtain ⟨l, hl, hp⟩ := SplitNL_dash_prefix (x := '-' :: '-' :: '-' :: r) ⟨r, rfl⟩
  exact ⟨l, by rw [SplitNL_append_newline]; exact List.mem_append_right _ hl, hp⟩

theorem ReplaceAllCRLF_append_newline : ∀ (X R : Str),
    ReplaceAllCRLF (X ++ '\n' :: R) = ReplaceAllCRLF (X ++ ['\n']) ++ ReplaceAllCRLF R
  | [], [] => by simp [ReplaceAllCRLF]
  | [], d :: R => by
    have hn : ('\n' : Char) ≠ '\r' := by decide
    simp [ReplaceAllCRLF, hn]
  | [c], R => by
    have h0 := ReplaceAllCRLF_append_newline [] R
    simp only [List.nil_append] at h0
    show ReplaceAllCRLF (c :: '\n' :: R) = ReplaceAllCRLF (c :: '\n' :: []) ++ ReplaceAllCRLF R
    by_cases hc : c = '\r'
    · simp [ReplaceAllCRLF, hc]
    · simp only [ReplaceAllCRLF, hc, false_and, if_false, List.cons_append]
      rw [h0]
      rfl
  | c :: d :: X, R => by
    have ih1 := ReplaceAllCRLF_append_newline X R
    have ih2 := ReplaceAllCRLF_append_newline (d :: X) R
    show ReplaceAllCRLF (c :: d :: (X ++ '\n' :: R))
      = ReplaceAllCRLF (c :: d :: (X ++ ['\n'])) ++ ReplaceAllCRLF R
    by_cases h : c = '\r' ∧ d = '\n'
    · simp only [ReplaceAllCRLF, h, and_self, if_true, List.cons_append]
      rw [ih1]
    · simp only [ReplaceAllCRLF, h, if_false, List.cons_append]
      rw [← List.cons_append, ih2]
      rfl

theorem ReplaceAllCRLF_ends_newline : ∀ (X : Str),
    ∃ Y, ReplaceAllCRLF (X ++ ['\n']) = Y ++ ['\n']
  | [] => ⟨[], rfl⟩
  | [c] => by
    by_cases hc : c = '\r'
    · exact ⟨[], by simp [ReplaceAllCRLF, hc]⟩
    · exact ⟨[c], by simp [ReplaceAllCRLF, hc]⟩
  | c :: d :: X => by
    obtain ⟨Y1, h1⟩ := ReplaceAllCRLF_ends_newline X
    obtain ⟨Y2, h2⟩ := ReplaceAllCRLF_ends_newline (d :: X)
    show ∃ Y, ReplaceAllCRLF (c :: d :: (X ++ ['\n'])) = Y ++ ['\n']
    by_cases h : c = '\r' ∧ d = '\n'
    · exact ⟨'\n' :: Y1, by simp only [ReplaceAllCRLF, h, and_self, if_true]; rw [h1]; rfl⟩
    · refine ⟨c :: Y2, ?_⟩
      simp only [ReplaceAllCRLF, h, if_false]
      rw [← List.cons_append, h2]
      rfl

theorem ReplaceAllCRLF_mem : ∀ (X : Str) (x : Char), x ∈ X → x ≠ '\r' →
    x ∈ ReplaceAllCRLF X
  | [], x, h, _ => by simp at h
  | [c], x, h, _ => by simpa [ReplaceAllCRLF] using h
  | c :: d :: X, x, h, hx => by
    have ih1 := ReplaceAllCRLF_mem X x
    have ih2 := ReplaceAllCRLF_mem (d :: X) x
    by_cases hcd : c = '\r' ∧ d = '\n'
    · simp only [ReplaceAllCRLF, hcd, and_self, if_true]
      rcases List.mem_cons.mp h with h1 | h1
      · exact absurd (h1.trans hcd.1) hx
      · rcases List.mem_cons.mp h1 with h2 | h2
        · rw [h2, hcd.2]; exact List.mem_cons_self _ _
        · exact List.mem_cons_of_mem _ (ih1 h2 hx)
    · simp only [ReplaceAllCRLF, hcd, if_false]
      rcases List.mem_cons.mp h with h1 | h1
      · rw [h1]; exact List.mem_cons_self _ _
      · exact List.mem_cons_of_mem _ (ih2 h1 hx)

theorem forall₂_prefix_consHead (c : Char) {l1 l2 : List Str}
    (h : List.Forall₂ (fun a b : Str => a <+: b) l1 l2) :
    List.Forall₂ (fun a b : Str => a <+: b) (consHead c l1) (consHead c l2) := by
  cases h with
  | nil => exact List.Forall₂.cons (List.prefix_refl _) List.Forall₂.nil
  | cons hab hrest =>
    exact List.Forall₂.cons ((List.prefix_cons_inj c).mpr hab) hrest

/-- Every line of the normalised text is a prefix of the line at the same
position of the text (the line without a trailing carriage return). -/
theorem SplitNL_ReplaceAllCRLF : ∀ (X : Str),
    List.Forall₂ (fun a b : Str => a <+: b) (SplitNL (ReplaceAllCRLF X)) (SplitNL X)
  | [] => List.Forall₂.cons (List.prefix_refl _) List.Forall₂.nil
  | [c] => by
    have : ReplaceAllCRLF [c] = [c] := rfl
    rw [this]
    exact List.forall₂_same.mpr (fun _ _ => List.prefix_refl _)
  | c :: d :: X => by
    have ih1 := SplitNL_ReplaceAllCRLF X
    have ih2 := SplitNL_ReplaceAllCRLF (d :: X)
    by_cases hcd : c = '\r' ∧ d = '\n'
    · have hr : ('\r' : Char) ≠ '\n' := by decide
      simp only [ReplaceAllCRLF, hcd, and_self, if_true]
      simp only [SplitNL, if_true, hr, if_false, consHead]
      exact List.Forall₂.cons List.nil_prefix ih1
    · simp only [ReplaceAllCRLF, hcd, if_false]
      unfold SplitNL
      by_cases hc : c = '\n'
      · rw [if_pos hc, if_pos hc]
        exact List.Forall₂.cons (List.prefix_refl _) ih2
      · rw [if_neg hc, if_neg hc]
        exact forall₂_prefix_consHead c ih2

theorem forall₂_mem_left {R : Str → Str → Prop} {l1 l2 : List Str}
    (h : List.Forall₂ R l1 l2) : ∀ a ∈ l1, ∃ b ∈ l2, R a b := by
  induction h with
  | nil => intro a ha; simp at ha
  | cons hab _ ih =>
    intro a ha
    rcases List.mem_cons.mp ha with h1 | h1
    · subst h1; exact ⟨_, List.mem_cons_self _ _, hab⟩
    · obtain ⟨b, hb, hr⟩ := ih a h1
      exact ⟨b, List.mem_cons_of_mem _ hb, hr⟩

/-- The normalised front-matter text: no line of it begins with `---` when none
of the text does, and it keeps every rune outside `\s`. -/
theorem ReplaceAllCRLF_block (A : Str) :
    ∃ An, ReplaceAllCRLF (A ++ ['\n']) = An ++ ['\n'] ∧
      ((∀ l ∈ SplitNL A, ¬ "---".toList <+: l) → ∀ l ∈ SplitNL An, ¬ "---".toList <+: l) ∧
      ((∃ c ∈ A, reSpace c = false) → ∃ c ∈ An, reSpace c = false) := by
  obtain ⟨An, hAn⟩ := ReplaceAllCRLF_ends_newline A
  refine ⟨An, hAn, ?_, ?_⟩
  · intro hA l hl hpre
    have hf := SplitNL_ReplaceAllCRLF (A ++ ['\n'])
    rw [hAn, SplitNL_append_newline, SplitNL_append_newline] at hf
    obtain ⟨b, hb, hlb⟩ := forall₂_mem_left hf l (List.mem_append_left _ hl)
    have hpb : "---".toList <+: b := hpre.trans hlb
    rcases List.mem_append.mp hb with h1 | h1
    · exact hA b h1 hpb
    · have hb0 : b = [] := by simpa [SplitNL] using h1
      rw [hb0] at hpb
      exact absurd hpb (by decide)
  · rintro ⟨c, hc, hcs⟩
    have hcr : c ≠ '\r' := by
      intro h0; rw [h0] at hcs; exact absurd hcs (by decide)
    have hcn : c ≠ '\n' := by
      intro h0; rw [h0] at hcs; exact absurd hcs (by decide)
    have hm := ReplaceAllCRLF_mem (A ++ ['\n']) c (List.mem_append_left _ hc) hcr
    rw [hAn] at hm
    rcases List.mem_append.mp hm with h1 | h1
    · exact ⟨c, h1, hcs⟩
    · exact absurd (List.mem_singleton.mp h1) hcn

/-! ## The front-matter pattern -/

theorem frontMatter_dashes (X : Str) :
    frontMatter ('-' :: '-' :: '-' :: X) = reSpaceStar kOpen X := by
  simp [frontMatter, reLit, kOpen, kBody, kClose, kBlockEnd]

theorem reSpaceStar_some {α : Type} {k : Str → Option α} {s : Str} {r : α}
    (h : reSpaceStar k s = some r) :
    ∃ w t, s = w ++ t ∧ (∀ c ∈ w, reSpace c = true) ∧ k t = some r := by
  induction s with
  | nil => exact ⟨[], [], rfl, by simp, by simpa [reSpaceStar] using h⟩
  | cons c cs ih =>
    unfold reSpaceStar at h
    by_cases hc : reSpace c = true
    · rw [if_pos hc] at h
      cases hk : reSpaceStar k cs with
      | some r' =>
        rw [hk] at h
        obtain ⟨w, t, h1, h2, h3⟩ := ih (hk.trans (by simpa using h))
        refine ⟨c :: w, t, by rw [h1]; rfl, ?_, h3⟩
        intro x hx
        rcases List.mem_cons.mp hx with h0 | h0
        · exact h0 ▸ hc
        · exact h2 x h0
      | none =>
        rw [hk] at h
        exact ⟨[], c :: cs, rfl, by simp, h⟩
    · rw [if_neg hc] at h
      exact ⟨[], c :: cs, rfl, by simp, h⟩

theorem reSpaceStar_ne_none {α : Type} {k : Str → Option α} {s : Str}
    (h : k s ≠ none) : reSpaceStar k s ≠ none := by
  cases s with
  | nil => simpa [reSpaceStar] using h
  | cons c cs =>
    unfold reSpaceStar
    by_cases hc : reSpace c = true
    · rw [if_pos hc]
      cases hk : reSpaceStar k cs with
      | some r' => simp
      | none => exact h
    · rw [if_neg hc]
      exact h

theorem kBlockEnd_eq (y : Str) : kBlockEnd y = some (y.dropWhile reSpace) := by
  unfold kBlockEnd
  induction y with
  | nil => rfl
  | cons c cs ih =>
    unfold reSpaceStar
    by_cases hc : reSpace c = true
    · rw [if_pos hc, ih, List.dropWhile_cons_of_pos hc]
    · rw [if_neg hc, List.dropWhile_cons_of_neg hc]
      have hn : c ≠ '\n' := by
        intro h0; rw [h0, reSpace_newline] at hc; exact hc rfl
      simp [reOptNL, hn]

theorem kClose_dashes (y : Str) : kClose ('\n' :: '-' :: '-' :: '-' :: y) = kBlockEnd y := by
  simp [kClose, reLit]

theorem kClose_some {z r : Str} (h : kClose z = some r) :
    ∃ y, z = '\n' :: '-' :: '-' :: '-' :: y ∧ kBlockEnd y = some r := by
  unfold kClose at h
  match z, h with
  | [], h => simp [reLit] at h
  | [a], h =>
    simp only [reLit] at h
    split at h <;> simp at h
  | [a, b], h =>
    simp only [reLit] at h
    split at h
    · split at h <;> simp at h
    · simp at h
  | [a, b, c], h =>
    simp only [reLit] at h
    split at h
    · split at h
      · split at h <;> simp at h
      · simp at h
    · simp at h
  | a :: b :: c :: d :: y, h =>
    simp only [reLit] at h
    split at h
    · next ha =>
      split at h
      · next hb =>
        split at h
        · next hc =>
          split at h
          · next hd => exact ⟨y, by rw [ha, hb, hc, hd], h⟩
          · simp at h
        · simp at h
      · simp at h
    · simp at h

theorem kBody_cons (c : Char) (cs : Str) :
    kBody (c :: cs) =
      match kClose (c :: cs) with
      | some r => some ([], r)
      | none => (kBody cs).map (fun p => (c :: p.1, p.2)) := by
  unfold kBody
  rw [reLazyAny]
  cases kClose (c :: cs) <;> rfl

/-- A match of `(.*?)\n---\s*\n?`: the capture ends at the first `\n---`, and
what is left of the text starts after the `\s*` that follows the dashes. -/
theorem kBody_some {x cap after : Str} (h : kBody x = some (cap, after)) :
    ∃ y, x = cap ++ '\n' :: '-' :: '-' :: '-' :: y ∧ after = y.dropWhile reSpace ∧
      ¬ ("\n---".toList <:+: cap ++ "\n--".toList) := by
  induction x generalizing cap with
  | nil =>
    simp [kBody, reLazyAny, kClose, reLit] at h
  | cons c cs ih =>
    rw [kBody_cons] at h
    cases hk : kClose (c :: cs) with
    | some r =>
      rw [hk] at h
      simp only [Option.some.injEq, Prod.mk.injEq] at h
      obtain ⟨hcap, hr⟩ := h
      obtain ⟨y, hy, he⟩ := kClose_some hk
      rw [kBlockEnd_eq] at he
      refine ⟨y, by rw [← hcap]; exact hy, by rw [← hr]; exact (Option.some.inj he).symm, ?_⟩
      rw [← hcap]
      intro hinf
      have := hinf.length_le
      simp at this
    | none =>
      rw [hk] at h
      cases hb : kBody cs with
      | none => rw [hb] at h; simp at h
      | some p =>
        rw [hb] at h
        simp only [Option.map_some', Option.some.injEq, Prod.mk.injEq] at h
        obtain ⟨hcap, hafter⟩ := h
        obtain ⟨y, hy, he, hmin⟩ := @ih p.1 (by rw [hb, ← hafter])
        refine ⟨y, by rw [← hcap, hy]; rfl, he, ?_⟩
        rw [← hcap]
        intro hinf
        rw [List.cons_append, List.infix_cons_iff] at hinf
        rcases hinf with hpre | hinf
        · obtain ⟨t, ht⟩ := hpre
          have hcs : c :: cs = '\n' :: '-' :: '-' :: '-' :: (t ++ '-' :: y) := by
            rw [hy]
            have : c :: (p.1 ++ '\n' :: '-' :: '-' :: '-' :: y)
                = (c :: (p.1 ++ "\n--".toList)) ++ '-' :: y := by simp
            rw [this, ← ht]
            simp
          rw [hcs, kClose_dashes, kBlockEnd_eq] at hk
          exact Option.noConfusion hk
        · exact hmin hinf

theorem kBody_ne_none (u v : Str) : kBody (u ++ '\n' :: '-' :: '-' :: '-' :: v) ≠ none := by
  induction u with
  | nil =>
    rw [List.nil_append, kBody_cons, kClose_dashes, kBlockEnd_eq]
    simp
  | cons c u ih =>
    rw [List.cons_append, kBody_cons]
    cases hk : kClose (c :: (u ++ '\n' :: '-' :: '-' :: '-' :: v)) with
    | some r => simp
    | none =>
      cases hb : kBody (u ++ '\n' :: '-' :: '-' :: '-' :: v) with
      | none => exact absurd hb ih
      | some p => simp

theorem kOpen_newline (x : Str) : kOpen ('\n' :: x) = kBody x := by
  simp [kOpen, reLit]

theorem kOpen_some {z : Str} {r : Str × Str} (h : kOpen z = some r) :
    ∃ x, z = '\n' :: x ∧ kBody x = some r := by
  unfold kOpen at h
  cases z with
  | nil => simp [reLit] at h
  | cons a x =>
    simp only [reLit] at h
    split at h
    · next ha => exact ⟨x, by rw [ha], h⟩
    · simp at h

/-- What a match of the front-matter pattern looks like. -/
theorem frontMatter_some {X cap after : Str}
    (h : frontMatter ('-' :: '-' :: '-' :: X) = some (cap, after)) :
    ∃ w y, X = w ++ '\n' :: (cap ++ '\n' :: '-' :: '-' :: '-' :: y) ∧
      (∀ c ∈ w, reSpace c = true) ∧ after = y.dropWhile reSpace ∧
      ¬ ("\n---".toList <:+: cap ++ "\n--".toList) := by
  rw [frontMatter_dashes] at h
  obtain ⟨w, t, h1, h2, h3⟩ := reSpaceStar_some h
  obtain ⟨x, h4, h5⟩ := kOpen_some h3
  obtain ⟨y, h6, h7, h8⟩ := kBody_some h5
  exact ⟨w, y, by rw [h1, h4, h6], h2, h7, h8⟩

/-- The front-matter pattern matches every text that starts with a `---` line
and has a later line beginning with `---`. -/
theorem frontMatter_ne_none (u v : Str) :
    frontMatter ('-' :: '-' :: '-' :: '\n' :: (u ++ '\n' :: '-' :: '-' :: '-' :: v)) ≠ none := by
  rw [frontMatter_dashes]
  apply reSpaceStar_ne_none
  rw [kOpen_newline]
  exact kBody_ne_none u v

theorem dashes_eq_append_newline {R pre Q : Str}
    (h : '-' :: '-' :: '-' :: R = pre ++ '\n' :: Q) :
    ∃ pre3, pre = '-' :: '-' :: '-' :: pre3 ∧ R = pre3 ++ '\n' :: Q := by
  have hd : ('-' : Char) ≠ '\n' := by decide
  match pre, h with
  | [], h =>
    simp only [List.nil_append, List.cons.injEq] at h
    exact absurd h.1 hd
  | [a], h =>
    simp only [List.cons_append, List.nil_append, List.cons.injEq] at h
    exact absurd h.2.1 hd
  | [a, b], h =>
    simp only [List.cons_append, List.nil_append, List.cons.injEq] at h
    exact absurd h.2.2.1 hd
  | a :: b :: c :: pre3, h =>
    simp only [List.cons_append, List.cons.injEq] at h
    obtain ⟨ha, hb, hc, hr⟩ := h
    exact ⟨pre3, by rw [← ha, ← hb, ← hc], hr⟩

/-- Where the front-matter pattern finds its closing `\n---` in a text that
starts with a `---` line, a block without a line beginning with `---`, and a
line beginning with `---`: at that line, unless the block is blank and the text
has a further line beginning with `---`. -/
theorem closing_position {w cap y An Bt : Str}
    (heq : w ++ '\n' :: (cap ++ '\n' :: '-' :: '-' :: '-' :: y)
        = '\n' :: (An ++ '\n' :: '-' :: '-' :: '-' :: Bt))
    (hw : ∀ c ∈ w, reSpace c = true)
    (hmin : ¬ ("\n---".toList <:+: cap ++ "\n--".toList))
    (hAn : ∀ l ∈ SplitNL An, ¬ "---".toList <+: l)
    (hcase : (∃ c ∈ An, reSpace c = false) ∨
      ¬ ("\n---".toList <:+: '-' :: '-' :: '-' :: Bt)) :
    y = Bt := by
  have heq' : (w ++ '\n' :: cap) ++ ('\n' :: '-' :: '-' :: '-' :: y)
      = ('\n' :: An) ++ ('\n' :: '-' :: '-' :: '-' :: Bt) := by simpa using heq
  have hmin' : ∀ a2 c4 : Str, cap ≠ a2 ++ '\n' :: '-' :: '-' :: '-' :: c4 := by
    intro a2 c4 hc
    apply hmin
    refine ⟨a2, c4 ++ "\n--".toList, ?_⟩
    rw [hc]
    simp
  rcases List.append_eq_append_iff.mp heq' with ⟨a', hV, hb⟩ | ⟨c', hU, hd⟩
  · cases a' with
    | nil => simpa using hb
    | cons e a'' =>
      simp only [List.cons_append, List.cons.injEq] at hb
      obtain ⟨a3, ha3, _⟩ := dashes_eq_append_newline hb.2
      exfalso
      have hAn' : ∃ U', An = U' ++ '\n' :: '-' :: '-' :: '-' :: a3 := by
        rw [← hb.1, ha3] at hV
        cases w with
        | nil =>
          simp only [List.nil_append, List.cons_append, List.cons.injEq, true_and] at hV
          exact ⟨cap, hV⟩
        | cons x w' =>
          simp only [List.cons_append, List.cons.injEq] at hV
          exact ⟨w' ++ '\n' :: cap, by simp [hV.2]⟩
      obtain ⟨U', hU'⟩ := hAn'
      obtain ⟨l, hl, hp⟩ := SplitNL_dash_after_newline U' a3
      rw [← hU'] at hl
      exact hAn l hl hp
  · cases c' with
    | nil => simpa using hd.symm
    | cons e c'' =>
      simp only [List.cons_append, List.cons.injEq] at hd
      obtain ⟨c4, hc4, hBt⟩ := dashes_eq_append_newline hd.2
      exfalso
      have hU' : (w ++ ['\n']) ++ cap
          = ('\n' :: An) ++ ('\n' :: '-' :: '-' :: '-' :: c4) := by
        rw [← hd.1, hc4] at hU
        simpa using hU
      rcases List.append_eq_append_iff.mp hU' with ⟨a2, _, hcap⟩ | ⟨c2, hw2, hcap⟩
      · exact hmin' a2 c4 hcap
      · cases c2 with
        | nil => exact hmin' [] c4 (by simpa using hcap.symm)
        | cons e2 c3 =>
          have hall : ∀ x ∈ '\n' :: An ++ e2 :: c3, reSpace x = true := by
            intro x hx
            rw [← hw2] at hx
            rcases List.mem_append.mp hx with h1 | h1
            · exact hw x h1
            · rw [List.mem_singleton.mp h1]; exact reSpace_newline
          simp only [List.cons_append, List.cons.injEq] at hcap
          have hc3 : c3 = [] := by
            cases c3 with
            | nil => rfl
            | cons z c3' =>
              exfalso
              have hz : z = '-' := by
                have := hcap.2
                simp only [List.cons_append, List.cons.injEq] at this
                exact this.1.symm
              have := hall z (by simp)
              rw [hz, reSpace_dash] at this
              exact Bool.noConfusion this
          rw [hc3, List.nil_append] at hcap
          rcases hcase with ⟨x, hx, hxs⟩ | hB
          · have := hall x (by simp [hx])
            rw [hxs] at this
            exact Bool.noConfusion this
          · apply hB
            refine ⟨'-' :: '-' :: '-' :: c4, y, ?_⟩
            rw [hBt]
            simp

theorem TrimSpace_keep_prefix {P Y : Str} (hne : P ≠ [])
    (hhead : ∀ x, P.head? = some x → isSpace x = false)
    (hlast : ∀ x, P.getLast? = some x → isSpace x = false) :
    TrimSpace (P ++ Y) = P ++ Y.rdropWhile isSpace := by
  have hY : P ++ Y = [] ++ (P ++ Y.rdropWhile isSpace) ++ Y.rtakeWhile isSpace := by
    rw [List.nil_append, List.append_assoc, rdropWhile_append_rtakeWhile]
  refine TrimSpace_of_decomp hY (by simp) (fun x hx => List.mem_rtakeWhile_imp hx) ⟨?_, ?_⟩
  · intro x hx
    apply hhead
    cases P with
    | nil => exact absurd rfl hne
    | cons a P => simpa using hx
  · intro x hx
    by_cases hr : Y.rdropWhile isSpace = []
    · rw [hr, List.append_nil] at hx
      exact hlast x hx
    · rw [List.getLast?_append_of_ne_nil _ hr, List.getLast?_eq_getLast _ hr] at hx
      have := List.rdropWhile_last_not isSpace Y hr
      rw [Option.some.inj hx] at this
      simpa using this

theorem TrimSpace_dropWhile_reSpace (y : Str) : TrimSpace (y.dropWhile reSpace) = TrimSpace y := by
  conv_rhs => rw [← List.takeWhile_append_dropWhile reSpace y]
  rw [TrimSpace_append_left]
  intro c hc
  exact reSpace_isSpace (List.mem_takeWhile_imp hc)

theorem TrimSpace_rdropWhile (y : Str) : TrimSpace (y.rdropWhile isSpace) = TrimSpace y := by
  obtain ⟨l, t, hy, hl, ht⟩ := TrimSpace_decomp (y.rdropWhile isSpace)
  have hy' : y = l ++ TrimSpace (y.rdropWhile isSpace) ++ (t ++ y.rtakeWhile isSpace) := by
    conv_lhs => rw [← rdropWhile_append_rtakeWhile isSpace y, hy]
    simp
  refine (TrimSpace_of_decomp hy' hl ?_ (TrimSpace_trimmed _)).symm
  intro x hx
  rcases List.mem_append.mp hx with h1 | h1
  · exact ht x h1
  · exact List.mem_rtakeWhile_imp h1

/-- The body that `parse` splits for a document made of a `---` line, a block
`A`, a `---` line and a text `B`: the trimmed, normalised `B`. -/
theorem docBody_of_block (A B : Str)
    (hA : ∀ l ∈ SplitNL A, ¬ "---".toList <+: l)
    (hAB : (∃ c ∈ A, reSpace c = false) ∨
      ∀ l ∈ SplitNL (ReplaceAllCRLF B), ¬ "---".toList <+: l) :
    docBody ("---\n".toList ++ A ++ "\n---\n".toList ++ B) = TrimSpace (ReplaceAllCRLF B) := by
  obtain ⟨An, hAn, hAn1, hAn2⟩ := ReplaceAllCRLF_block A
  have hrep : ReplaceAllCRLF ("---\n".toList ++ A ++ "\n---\n".toList ++ B)
      = (('-' :: '-' :: '-' :: '\n' :: An) ++ ['\n', '-', '-', '-']) ++ '\n' :: ReplaceAllCRLF B := by
    have e1 : "---\n".toList ++ A ++ "\n---\n".toList ++ B
        = ['-', '-', '-'] ++ '\n' :: (A ++ '\n' :: (['-', '-', '-'] ++ '\n' :: B)) := by
      simp
    have e2 : ReplaceAllCRLF (['-', '-', '-'] ++ ['\n']) = ['-', '-', '-', '\n'] := by decide
    rw [e1, ReplaceAllCRLF_append_newline, ReplaceAllCRLF_append_newline A,
      ReplaceAllCRLF_append_newline ['-', '-', '-'] B, e2, hAn]
    simp
  have hdoc : docText ("---\n".toList ++ A ++ "\n---\n".toList ++ B)
      = '-' :: '-' :: '-' :: '\n' ::
          (An ++ '\n' :: '-' :: '-' :: '-' :: ('\n' :: ReplaceAllCRLF B).rdropWhile isSpace) := by
    unfold docText
    rw [hrep, TrimSpace_keep_prefix (by simp)
      (fun x hx => by
        have : x = '-' := by simpa using hx.symm
        rw [this]; exact isSpace_dash)
      (fun x hx => by
        have : x = '-' := by
          rw [List.getLast?_append_of_ne_nil _ (by simp)] at hx
          simpa using hx.symm
        rw [this]; exact isSpace_dash)]
    simp
  generalize hBt : ('\n' :: ReplaceAllCRLF B).rdropWhile isSpace = Bt at hdoc
  have hsome := frontMatter_ne_none An Bt
  unfold docBody
  rw [hdoc]
  cases hfm : frontMatter ('-' :: '-' :: '-' :: '\n' :: (An ++ '\n' :: '-' :: '-' :: '-' :: Bt)) with
  | none => exact absurd hfm hsome
  | some r =>
    obtain ⟨cap, after⟩ := r
    obtain ⟨w, y, h1, h2, h3, h4⟩ := frontMatter_some hfm
    have hcase : (∃ c ∈ An, reSpace c = false) ∨
        ¬ ("\n---".toList <:+: '-' :: '-' :: '-' :: Bt) := by
      rcases hAB with h | h
      · exact Or.inl (hAn2 h)
      · right
        rintro ⟨pre, post, hpp⟩
        obtain ⟨tt, htt⟩ : ∃ tt, '\n' :: ReplaceAllCRLF B = Bt ++ tt :=
          ⟨('\n' :: ReplaceAllCRLF B).rtakeWhile isSpace, by
            rw [← hBt, rdropWhile_append_rtakeWhile]⟩
        have hpp' : '-' :: '-' :: '-' :: Bt
            = pre ++ '\n' :: ('-' :: '-' :: '-' :: post) := by
          rw [← hpp]; simp
        obtain ⟨pre3, _, hBt'⟩ := dashes_eq_append_newline hpp'
        rw [hBt'] at htt
        cases pre3 with
        | nil =>
          simp only [List.nil_append, List.cons_append, List.cons.injEq, true_and] at htt
          obtain ⟨l, hl, hp⟩ := SplitNL_dash_prefix (x := ReplaceAllCRLF B)
            ⟨post ++ tt, by rw [htt]; rfl⟩
          exact h l hl hp
        | cons e pre4 =>
          simp only [List.cons_append, List.cons.injEq] at htt
          obtain ⟨l, hl, hp⟩ := SplitNL_dash_after_newline pre4 (post ++ tt)
          have : ReplaceAllCRLF B = pre4 ++ '\n' :: '-' :: '-' :: '-' :: (post ++ tt) := by
            rw [htt.2]; simp
          rw [← this] at hl
          exact h l hl hp
    have hy : y = Bt := closing_position h1.symm h2 h4 (hAn1 hA) hcase
    simp only []
    rw [h3, hy, TrimSpace_dropWhile_reSpace, ← hBt, TrimSpace_rdropWhile]
    exact TrimSpace_append_left (w := ['\n'])
      (fun c hc => by rw [List.mem_singleton.mp hc]; exact isSpace_newline)

/-! ## The title read from a front-matter block -/

theorem reSpaceStar_kOpen_skip (o s : Str) (ho : ∀ c ∈ o, reSpace c = true ∧ c ≠ '\n') :
    reSpaceStar kOpen (o ++ s) = reSpaceStar kOpen s := by
  induction o with
  | nil => rfl
  | cons c cs ih =>
    have hc := ho c (List.mem_cons_self _ _)
    have ih' := ih (fun x hx => ho x (List.mem_cons_of_mem _ hx))
    have hk : kOpen (c :: (cs ++ s)) = none := by
      unfold kOpen
      simp [reLit, hc.2]
    show reSpaceStar kOpen (c :: (cs ++ s)) = _
    conv_lhs => unfold reSpaceStar
    rw [if_pos hc.1, ih', hk]
    cases reSpaceStar kOpen s <;> rfl

theorem metaLine_blank (st : Str × Str) (l : Str) (h : ∀ c ∈ l, reSpace c = true) :
    metaLine st l = st := by
  have hl : TrimSpace l = [] :=
    (TrimSpace_eq_nil_iff l).mpr (fun c hc => reSpace_isSpace (h c hc))
  unfold metaLine
  simp only [hl]
  rfl

theorem foldl_metaLine_blank (ls : List Str) (st : Str × Str)
    (h : ∀ l ∈ ls, ∀ c ∈ l, reSpace c = true) : ls.foldl metaLine st = st := by
  induction ls generalizing st with
  | nil => rfl
  | cons l rest ih =>
    rw [List.foldl_cons, metaLine_blank st l (h l (List.mem_cons_self _ _))]
    exact ih st (fun x hx => h x (List.mem_cons_of_mem _ hx))

theorem SplitNL_chars {s l : Str} (h : l ∈ SplitNL s) : ∀ c ∈ l, c ∈ s := by
  obtain ⟨pre, post, hs, _, _⟩ := SplitNL_mem h
  intro c hc
  rw [hs]
  simp [hc]

/-- The front-matter pattern on a text made of a `---` line, a block without a
line beginning with `---` that has a rune outside `\s`, and a line beginning
with `---`: it matches, what follows the match is what follows the three
dashes of that line, less leading `\s` runes, and the captured text is the
block, possibly less some leading blank lines, which `meta` ignores. -/
theorem frontMatter_of_block (o A Bt : Str)
    (ho : ∀ c ∈ o, reSpace c = true ∧ c ≠ '\n')
    (hA : ∀ l ∈ SplitNL A, ¬ "---".toList <+: l)
    (hne : ∃ c ∈ A, reSpace c = false) :
    ∃ cap, frontMatter ('-' :: '-' :: '-' :: (o ++ '\n' :: (A ++ '\n' :: '-' :: '-' :: '-' :: Bt)))
        = some (cap, Bt.dropWhile reSpace) ∧ «meta» cap = «meta» A := by
  have hred : frontMatter ('-' :: '-' :: '-' :: (o ++ '\n' :: (A ++ '\n' :: '-' :: '-' :: '-' :: Bt)))
      = frontMatter ('-' :: '-' :: '-' :: '\n' :: (A ++ '\n' :: '-' :: '-' :: '-' :: Bt)) := by
    rw [frontMatter_dashes, frontMatter_dashes, reSpaceStar_kOpen_skip o _ ho]
  rw [hred]
  have hsome := frontMatter_ne_none A Bt
  cases hfm : frontMatter ('-' :: '-' :: '-' :: '\n' :: (A ++ '\n' :: '-' :: '-' :: '-' :: Bt)) with
  | none => exact absurd hfm hsome
  | some p =>
    obtain ⟨cap, after⟩ := p
    obtain ⟨w, y, h1, h2, h3, h4⟩ := frontMatter_some hfm
    have hy : y = Bt := closing_position h1.symm h2 h4 hA (Or.inl hne)
    subst hy
    refine ⟨cap, by rw [h3], ?_⟩
    have hcancel : w ++ '\n' :: cap = '\n' :: A := by
      have e : (w ++ '\n' :: cap) ++ ('\n' :: '-' :: '-' :: '-' :: y)
          = ('\n' :: A) ++ ('\n' :: '-' :: '-' :: '-' :: y) := by
        simpa using h1.symm
      exact List.append_cancel_right e
    cases w with
    | nil =>
      simp only [List.nil_append, List.cons.injEq, true_and] at hcancel
      rw [hcancel]
    | cons c w2 =>
      simp only [List.cons_append, List.cons.injEq] at hcancel
      obtain ⟨_, hw2⟩ := hcancel
      have hlines : SplitNL A = SplitNL w2 ++ SplitNL cap := by
        rw [← hw2, SplitNL_append_newline]
      unfold «meta»
      rw [hlines, List.foldl_append, foldl_metaLine_blank (SplitNL w2)]
      intro l hl x hx
      exact h2 x (List.mem_cons_of_mem _ (SplitNL_chars hl x hx))

/-- C2 (amended): for every document whose normalised, trimmed text is made of
a first line `---` (with nothing but `\s` runes after the dashes), a block of
lines none of which begins with `---`, a line beginning with `---` that
closes the block, and any further text, and whose block has as last `title:`
line (key matched case-insensitively) one with the value `X`: the deck title
is `X` trimmed whenever that is non-empty, whatever the other lines of the
block, the slides and the converter are; when `X` is empty or blank, the title
is the title of the first slide if there is one and empty otherwise. -/
theorem parse_title_from_front_matter {R : Type} (toHTML : R → Str → Str × R) (r : R)
    (D o A Bt : Str) (pre post : List Str) (line key X : Str)
    (hdoc : docText D
      = '-' :: '-' :: '-' :: (o ++ '\n' :: (A ++ '\n' :: '-' :: '-' :: '-' :: Bt)))
    (ho : ∀ c ∈ o, reSpace c = true ∧ c ≠ '\n')
    (hA : ∀ l ∈ SplitNL A, ¬ "---".toList <+: l)
    (hlines : SplitNL A = pre ++ line :: post)
    (hline : TrimSpace line = key ++ X)
    (hkey : EqualFold key "title:".toList = true)
    (hlast : ∀ l ∈ post, EqualFold ((TrimSpace l).take 6) "title:".toList = false) :
    (TrimSpace X ≠ [] → (parse toHTML r D).1.T = TrimSpace X) ∧
    (TrimSpace X = [] →
      ((parse toHTML r D).1.S = [] → (parse toHTML r D).1.T = []) ∧
      (∀ s rest, (parse toHTML r D).1.S = s :: rest → (parse toHTML r D).1.T = s.T)) := by
  have hm := meta_title A pre post line key X hlines hline hkey hlast
  have hne : ∃ c ∈ A, reSpace c = false := by
    have hlen : key.length = 6 := by
      have := EqualFold_length hkey
      simpa using this
    have hnb : TrimSpace line ≠ [] := by
      rw [hline]
      intro h0
      have := congrArg List.length h0
      simp [hlen] at this
    have hex : ∃ c ∈ line, isSpace c = false := by
      by_contra hall
      apply hnb
      rw [TrimSpace_eq_nil_iff]
      intro c hc
      by_contra hc2
      exact hall ⟨c, hc, by simpa using hc2⟩
    obtain ⟨c, hc, hcs⟩ := hex
    have hmem : line ∈ SplitNL A := by rw [hlines]; simp
    refine ⟨c, SplitNL_chars hmem c hc, ?_⟩
    cases hr : reSpace c with
    | false => rfl
    | true => rw [reSpace_isSpace hr] at hcs; exact Bool.noConfusion hcs
  obtain ⟨cap, hfm, hcap⟩ := frontMatter_of_block o A Bt ho hA hne
  rw [← hdoc] at hfm
  have hp := parse_title_of_match toHTML r D cap _ hfm
  rw [hcap, hm] at hp
  exact hp

theorem parse_title_from_front_matter_witness :
    docText "---  \n\nTitle: Demo \nauthor: A\n---\n# Hello".toList
      = '-' :: '-' :: '-' :: ("  ".toList ++ '\n' ::
          ("\nTitle: Demo \nauthor: A".toList ++ '\n' :: '-' :: '-' :: '-' :: "\n# Hello".toList)) ∧
    (parse sampleHTML 0 "---  \n\nTitle: Demo \nauthor: A\n---\n# Hello".toList).1.T
      = "Demo".toList :=
  ⟨by decide,
   (parse_title_from_front_matter sampleHTML 0
      "---  \n\nTitle: Demo \nauthor: A\n---\n# Hello".toList
      "  ".toList "\nTitle: Demo \nauthor: A".toList "\n# Hello".toList
      [[]] ["author: A".toList]
      "Title: Demo ".toList "Title:".toList " Demo".toList
      (by decide) (by decide) (by decide) (by decide) (by decide) (by decide)
      (by decide)).1 (by decide)⟩

/-- C2 (counterexample): the document `---\ntitle:\n---\n# Hello` begins with
a front-matter block whose only line is `title:`, with the empty value; the
deck does not get the empty title: the title of the first slide is taken
instead. -/
theorem parse_empty_meta_title_counterexample :
    docText "---\ntitle:\n---\n# Hello".toList
      = '-' :: '-' :: '-' :: ([] ++ '\n' ::
          ("title:".toList ++ '\n' :: '-' :: '-' :: '-' :: "\n# Hello".toList)) ∧
    SplitNL "title:".toList = [] ++ "title:".toList :: [] ∧
    TrimSpace "title:".toList = "title:".toList ++ [] ∧
    frontMatter (docText "---\ntitle:\n---\n# Hello".toList)
      = some ("title:".toList, "# Hello".toList) ∧
    (parse sampleHTML 0 "---\ntitle:\n---\n# Hello".toList).1.T = "Hello".toList ∧
    (parse sampleHTML 0 "---\ntitle:\n---\n# Hello".toList).1.T ≠ TrimSpace [] := by
  decide

/-- C20 (amended): for every text `A` without a line beginning with `---` and
every text `B`, when `A` has a rune outside the class `\s` or the normalised
`B` has no line beginning with `---`, the slides of
`parse("---\n" ++ A ++ "\n---\n" ++ B)` are exactly the slides built from the
chunks of `split` on the trimmed `B` with its `\r\n` replaced by `\n`: nothing
of `A` produces a slide or enters a slide.  The document `---\n# A\n---\n# B`
yields the single slide titled `B`. -/
theorem parse_drops_front_block {R : Type} (toHTML : R → Str → Str × R) (r : R)
    (A B : Str)
    (hA : ∀ l ∈ SplitNL A, ¬ "---".toList <+: l)
    (hAB : (∃ c ∈ A, reSpace c = false) ∨
      ∀ l ∈ SplitNL (ReplaceAllCRLF B), ¬ "---".toList <+: l) :
    (parse toHTML r ("---\n".toList ++ A ++ "\n---\n".toList ++ B)).1.S
      = (buildSlides toHTML r (split (TrimSpace (ReplaceAllCRLF B)))).1 ∧
    (parse toHTML r ("---\n".toList ++ A ++ "\n---\n".toList ++ B)).2
      = (buildSlides toHTML r (split (TrimSpace (ReplaceAllCRLF B)))).2 ∧
    (parse toHTML r "---\n# A\n---\n# B".toList).1.S.map (fun s => s.T) = ["B".toList] := by
  refine ⟨?_, ?_, ?_⟩
  · rw [parse_slides, docBody_of_block A B hA hAB]
  · rw [parse_state, docBody_of_block A B hA hAB]
  · rw [parse_slides]
    have hb : split (docBody "---\n# A\n---\n# B".toList) = ["# B".toList] := by decide
    rw [hb]
    simp only [buildSlides, List.map_cons, List.map_nil]
    rw [buildSlide_title_of_hash toHTML _ _ (by decide)]
    decide

theorem parse_drops_front_block_witness :
    (∀ l ∈ SplitNL "title: T\n# A".toList, ¬ "---".toList <+: l) ∧
    (∃ c ∈ "title: T\n# A".toList, reSpace c = false) ∧
    (parse sampleHTML 0 ("---\n".toList ++ "title: T\n# A".toList ++ "\n---\n".toList
        ++ "# B\r\nx\n---\ny".toList)).1.S
      = (buildSlides sampleHTML 0
          (split (TrimSpace (ReplaceAllCRLF "# B\r\nx\n---\ny".toList)))).1 ∧
    (buildSlides sampleHTML 0
        (split (TrimSpace (ReplaceAllCRLF "# B\r\nx\n---\ny".toList)))).1
      = [{ T := "B".toList, C := "x".toList }, { T := "y".toList, C := "\ny".toList }] :=
  ⟨by decide, by decide,
   (parse_drops_front_block sampleHTML 0 "title: T\n# A".toList "# B\r\nx\n---\ny".toList
      (by decide) (Or.inl (by decide))).1,
   by decide⟩

/-- C20 (counterexample): with the empty block `A` and `B = x\n---\ny`, the
greedy `\s*` of the front-matter pattern runs over the blank block, the `x` of
`B` is taken as front matter and only the slide `y` is built, although `split`
gives the chunks `x` and `y` for `B`; and with `B = a\r\nb` the slide is built
from the normalised chunk `a\nb`, not from the chunk `a\r\nb` of `B`. -/
theorem parse_blank_block_counterexample :
    (∀ l ∈ SplitNL ([] : Str), ¬ "---".toList <+: l) ∧
    (parse sampleHTML 0
        ("---\n".toList ++ [] ++ "\n---\n".toList ++ "x\n---\ny".toList)).1.S
      = [{ T := "y".toList, C := "y".toList }] ∧
    split (TrimSpace "x\n---\ny".toList) = ["x".toList, "y".toList] ∧
    (buildSlides sampleHTML 0 (split (TrimSpace "x\n---\ny".toList))).1
      = [{ T := "x".toList, C := "x".toList }, { T := "y".toList, C := "\ny".toList }] ∧
    (∀ l ∈ SplitNL "t".toList, ¬ "---".toList <+: l) ∧
    (parse sampleHTML 0
        ("---\n".toList ++ "t".toList ++ "\n---\n".toList ++ "a\r\nb".toList)).1.S
      = [{ T := "a".toList, C := "a\nb".toList }] ∧
    (buildSlides sampleHTML 0 (split (TrimSpace "a\r\nb".toList))).1
      = [{ T := "a".toList, C := "a\r\nb".toList }] := by
  decide

theorem render_slide_ids_witness :
    (parse sampleHTML 0 "# A\n---\n#".toList).1.S[1]? = some { T := [], C := [] } ∧
    ∃ p, (renderData id (parse sampleHTML 0 "# A\n---\n#".toList).1).Slides[1]? = some p ∧
      p.ID = (if slug id ([] : Str) = [] then "slide-".toList ++ Itoa (1 + 1)
              else slug id ([] : Str)) ∧
      digitsVal (Itoa (1 + 1)) = 1 + 1 ∧
      p.ID ≠ [] ∧ p.Title = [] ∧ p.Body = [] :=
  ⟨by decide,
   (render_slide_ids id (parse sampleHTML 0 "# A\n---\n#".toList).1).2 1 { T := [], C := [] } (by decide)⟩

theorem render_current_slide_witness :
    (parse sampleHTML 0 "# A\n---\n#".toList).1.S ≠ [] ∧
    ((renderData id (parse sampleHTML 0 "# A\n---\n#".toList).1).Slides.filter
        (fun p => p.Current)).length = 1 :=
  ⟨by decide,
   ((render_current_slide id (parse sampleHTML 0 "# A\n---\n#".toList).1).2.1 (by decide)).1⟩

theorem slide_title_empty_iff_witness :
    (parse sampleHTML 0 "# A\n---\n#".toList).1.S[1]? = some { T := [], C := [] } ∧
    ∃ chunk, (split (docBody "# A\n---\n#".toList))[1]? = some chunk ∧
      ({ T := [], C := [] } : Slide) = (buildSlide sampleHTML
        (buildSlides sampleHTML 0 ((split (docBody "# A\n---\n#".toList)).take 1)).2 chunk).1 ∧
      chunkHead chunk ≠ [] ∧
      ((({ T := [], C := [] } : Slide).T = []) ↔
        HasPrefixHash (chunkHead chunk) = true ∧
        ∀ c ∈ TrimLeftHashSpace (chunkHead chunk), isSpace c = true) :=
  ⟨by decide,
   (slide_title_empty_iff sampleHTML 0 "# A\n---\n#".toList).1 1 { T := [], C := [] } (by decide)⟩

end M2S
